import Mathlib

/-!
# B-tree of `src/main.cpp`: embedding and verification

The C++ program keeps a B-tree of `int` keys (`struct BTreeNode`, `class BTree`) and
draws it.  This file embeds the tree (search, insert with proactive split, remove with
proactive fill) as pure functions and proves the properties the specification states.

Conventions of the embedding

* `std::vector<T>` is `List T`; an access outside the vector (undefined behaviour in
  C++) makes the embedded function return `none`.
* a function that mutates a node through a pointer returns the node after the call;
  "the child was changed in place" becomes `children.set i child'`.
* keys are `Int`; the program only compares keys, it never does arithmetic on them.
* the degree `t` is a `Nat` (all results are for `t ≥ 2`).
* the recursive functions take a `fuel : Nat` that bounds the number of nested calls;
  the public operations supply the height of the tree, and the theorems show that this
  is always enough (the result is `some _`).
-/

set_option autoImplicit false

/-- Source: `struct BTreeNode`: the keys, the owned children and the leaf flag. -/
structure BTreeNode where
  keys : List Int
  children : List BTreeNode
  leaf : Bool

namespace BTreeNode

mutual
/-- Equality of nodes is decidable. -/
def decEqNode : (a b : BTreeNode) → Decidable (a = b)
  | ⟨k1, c1, l1⟩, ⟨k2, c2, l2⟩ =>
    if hk : k1 = k2 then
      if hl : l1 = l2 then
        match decEqNodes c1 c2 with
        | isTrue hc => isTrue (by rw [hk, hl, hc])
        | isFalse hc => isFalse (fun h => hc (BTreeNode.mk.inj h).2.1)
      else isFalse (fun h => hl (BTreeNode.mk.inj h).2.2)
    else isFalse (fun h => hk (BTreeNode.mk.inj h).1)
/-- Equality of lists of nodes is decidable. -/
def decEqNodes : (as bs : List BTreeNode) → Decidable (as = bs)
  | [], [] => isTrue rfl
  | [], _ :: _ => isFalse (fun h => List.noConfusion h)
  | _ :: _, [] => isFalse (fun h => List.noConfusion h)
  | a :: as, b :: bs =>
    match decEqNode a b, decEqNodes as bs with
    | isTrue h1, isTrue h2 => isTrue (by rw [h1, h2])
    | isFalse h1, _ => isFalse (fun h => h1 (List.cons.inj h).1)
    | _, isFalse h2 => isFalse (fun h => h2 (List.cons.inj h).2)
end

instance : DecidableEq BTreeNode := decEqNode

end BTreeNode

/-- Source: `class BTree`: the degree `t` and the nullable `root`. -/
structure BTree where
  t : Nat
  root : Option BTreeNode
deriving DecidableEq

namespace BTreeNode

/-! ## Vector primitives -/

/-- Source: `v.insert(v.begin() + i, x)`; defined for `i ≤ v.size()`. -/
def vecInsert {α : Type} (v : List α) (i : Nat) (x : α) : Option (List α) :=
  if i ≤ v.length then some (v.take i ++ x :: v.drop i) else none

/-- Source: `v.erase(v.begin() + i)`; defined for `i < v.size()`. -/
def vecErase {α : Type} (v : List α) (i : Nat) : Option (List α) :=
  if i < v.length then some (v.eraseIdx i) else none

/-- Source: `v[i] = x`; defined for `i < v.size()`. -/
def vecSet {α : Type} (v : List α) (i : Nat) (x : α) : Option (List α) :=
  if i < v.length then some (v.set i x) else none

/-- The loop `for (j = 0; j < n; j++) out.push_back(v[start + j])`. -/
def copyRange {α : Type} (v : List α) (start : Nat) : Nat → Option (List α)
  | 0 => some []
  | n + 1 =>
    match copyRange v start n, v[start + n]? with
    | some out, some x => some (out ++ [x])
    | _, _ => none

/-! ## Measures used by the statements -/

mutual
/-- Number of node levels from this node down to its deepest leaf. -/
def height : BTreeNode → Nat
  | ⟨_, cs, _⟩ => heightList cs + 1
/-- Largest `height` in a list of nodes (0 for the empty list). -/
def heightList : List BTreeNode → Nat
  | [] => 0
  | c :: cs => max (height c) (heightList cs)
end

/-- In-order layout of an internal node: `c₀ k₀ c₁ k₁ … kₙ₋₁ cₙ`, given the traversals of
the children and the keys (left-over keys or children are appended as they come). -/
def interleave : List (List Int) → List Int → List Int
  | [], ks => ks
  | c :: cs, [] => c ++ interleave cs []
  | c :: cs, k :: ks => c ++ k :: interleave cs ks

mutual
/-- In-order traversal of the subtree of a node. -/
def inorder : BTreeNode → List Int
  | ⟨ks, cs, lf⟩ => if lf then ks else interleave (inorderList cs) ks
/-- In-order traversals of a list of nodes. -/
def inorderList : List BTreeNode → List (List Int)
  | [] => []
  | c :: cs => inorder c :: inorderList cs
end

mutual
/-- Source: `Visualizer::getNodeCount` on a non-null node: one plus the counts of all children. -/
def nodeCount : BTreeNode → Nat
  | ⟨_, cs, _⟩ => 1 + nodeCountList cs
/-- Sum of `nodeCount` over a list of nodes. -/
def nodeCountList : List BTreeNode → Nat
  | [] => 0
  | c :: cs => nodeCount c + nodeCountList cs
end

/-! ## Search -/

/-- The scan `idx = 0; while (idx < keys.size() && keys[idx] < k) idx++` of `findKey`
(and, with the comparison written `k > keys[i]`, of `searchNode`). -/
def scanUp (k : Int) : List Int → Nat
  | [] => 0
  | x :: xs => if x < k then scanUp k xs + 1 else 0

/-- Source: `BTree::findKey`. -/
def findKey (node : BTreeNode) (k : Int) : Nat :=
  scanUp k node.keys

/-- Source: `BTree::searchNode`. -/
def searchNode : Nat → Option BTreeNode → Int → Option Bool
  | _, none, _ => some false
  | 0, some _, _ => none
  | fuel + 1, some node, k =>
    let i := scanUp k node.keys
    if node.keys[i]? = some k then some true
    else if node.leaf then some false
    else
      match node.children[i]? with
      | none => none
      | some c => searchNode fuel (some c) k

/-! ## Insertion -/

/-- Source: `BTree::splitChild`. -/
def splitChild (t : Nat) (parent : BTreeNode) (idx : Nat) : Option BTreeNode :=
  match parent.children[idx]? with
  | none => none
  | some fullChild =>
    let midIdx := t - 1
    match copyRange fullChild.keys (midIdx + 1) (t - 1),
          (if fullChild.leaf then some [] else copyRange fullChild.children (midIdx + 1) t),
          fullChild.keys[midIdx]? with
    | some newKeys, some newChildren, some midKey =>
      let newChild : BTreeNode := ⟨newKeys, newChildren, fullChild.leaf⟩
      let shrunk : BTreeNode :=
        ⟨fullChild.keys.take midIdx,
         if fullChild.leaf then fullChild.children else fullChild.children.take (midIdx + 1),
         fullChild.leaf⟩
      match vecInsert parent.keys idx midKey,
            vecInsert (parent.children.set idx shrunk) (idx + 1) newChild with
      | some ks, some cs => some ⟨ks, cs, parent.leaf⟩
      | _, _ => none
    | _, _, _ => none

/-- The leaf loop of `insertNonFull`, `while (i >= 0 && keys[i] > k) { keys[i+1] = keys[i]; i--; }
keys[i+1] = k`; the counter of the embedding is `i + 1`. -/
def shiftInsert (k : Int) : Nat → List Int → List Int
  | 0, keys => keys.set 0 k
  | i + 1, keys =>
    match keys[i]? with
    | some x => if x > k then shiftInsert k i (keys.set (i + 1) x) else keys.set (i + 1) k
    | none => keys

/-- The internal-node loop of `insertNonFull`, `while (i >= 0 && keys[i] > k) i--; i++`; the
counter of the embedding is `i + 1` and the value returned is `i` after the final `i++`. -/
def scanDown (k : Int) (keys : List Int) : Nat → Nat
  | 0 => 0
  | i + 1 =>
    match keys[i]? with
    | some x => if x > k then scanDown k keys i else i + 1
    | none => i + 1

/-- Source: `BTree::insertNonFull`. -/
def insertNonFull (t : Nat) : Nat → BTreeNode → Int → Option BTreeNode
  | 0, _, _ => none
  | fuel + 1, node, k =>
    if node.leaf then
      some ⟨shiftInsert k node.keys.length (node.keys ++ [0]), node.children, node.leaf⟩
    else
      let i := scanDown k node.keys node.keys.length
      match node.children[i]? with
      | none => none
      | some child =>
        if child.keys.length = 2 * t - 1 then
          match splitChild t node i with
          | none => none
          | some node' =>
            match node'.keys[i]? with
            | none => none
            | some ki =>
              let i' := if ki < k then i + 1 else i
              match node'.children[i']? with
              | none => none
              | some c =>
                match insertNonFull t fuel c k with
                | none => none
                | some c' => some ⟨node'.keys, node'.children.set i' c', node'.leaf⟩
        else
          match insertNonFull t fuel child k with
          | none => none
          | some c' => some ⟨node.keys, node.children.set i c', node.leaf⟩

/-! ## Removal -/

/-- The walk of `getPredecessor`: `while (!curr->leaf) curr = curr->children[curr->keys.size()]`,
then `curr->keys[curr->keys.size() - 1]`. -/
def lastKey : Nat → BTreeNode → Option Int
  | 0, _ => none
  | fuel + 1, curr =>
    if curr.leaf then
      (if curr.keys.length = 0 then none else curr.keys[curr.keys.length - 1]?)
    else
      match curr.children[curr.keys.length]? with
      | none => none
      | some c => lastKey fuel c

/-- The walk of `getSuccessor`: `while (!curr->leaf) curr = curr->children[0]`, then
`curr->keys[0]`. -/
def firstKey : Nat → BTreeNode → Option Int
  | 0, _ => none
  | fuel + 1, curr =>
    if curr.leaf then curr.keys[0]?
    else
      match curr.children[0]? with
      | none => none
      | some c => firstKey fuel c

/-- Source: `BTree::getPredecessor`. -/
def getPredecessor (fuel : Nat) (node : BTreeNode) (idx : Nat) : Option Int :=
  match node.children[idx]? with
  | none => none
  | some curr => lastKey fuel curr

/-- Source: `BTree::getSuccessor`. -/
def getSuccessor (fuel : Nat) (node : BTreeNode) (idx : Nat) : Option Int :=
  match node.children[idx + 1]? with
  | none => none
  | some curr => firstKey fuel curr

/-- Source: `BTree::borrowFromPrev`. -/
def borrowFromPrev (node : BTreeNode) (idx : Nat) : Option BTreeNode :=
  if idx = 0 then none
  else
    match node.children[idx]?, node.children[idx - 1]?, node.keys[idx - 1]? with
    | some child, some sibling, some sep =>
      match (if child.leaf then some (child.children, sibling.children)
             else
               match sibling.children.getLast? with
               | none => none
               | some moved => some (moved :: child.children, sibling.children.dropLast)),
            sibling.keys.getLast? with
      | some (childCs, siblingCs), some up =>
        let child' : BTreeNode := ⟨sep :: child.keys, childCs, child.leaf⟩
        let sibling' : BTreeNode := ⟨sibling.keys.dropLast, siblingCs, sibling.leaf⟩
        some ⟨node.keys.set (idx - 1) up,
              (node.children.set idx child').set (idx - 1) sibling', node.leaf⟩
      | _, _ => none
    | _, _, _ => none

/-- Source: `BTree::borrowFromNext`. -/
def borrowFromNext (node : BTreeNode) (idx : Nat) : Option BTreeNode :=
  match node.children[idx]?, node.children[idx + 1]?, node.keys[idx]? with
  | some child, some sibling, some sep =>
    match (if child.leaf then some (child.children, sibling.children)
           else
             match sibling.children with
             | [] => none
             | moved :: rest => some (child.children ++ [moved], rest)),
          sibling.keys with
    | some (childCs, siblingCs), up :: restKeys =>
      let child' : BTreeNode := ⟨child.keys ++ [sep], childCs, child.leaf⟩
      let sibling' : BTreeNode := ⟨restKeys, siblingCs, sibling.leaf⟩
      some ⟨node.keys.set idx up,
            (node.children.set idx child').set (idx + 1) sibling', node.leaf⟩
    | _, _ => none
  | _, _, _ => none

/-- Source: `BTree::merge`. -/
def merge (node : BTreeNode) (idx : Nat) : Option BTreeNode :=
  match node.children[idx]?, node.children[idx + 1]?, node.keys[idx]? with
  | some child, some sibling, some sep =>
    let merged : BTreeNode :=
      ⟨child.keys ++ [sep] ++ sibling.keys,
       if child.leaf then child.children else child.children ++ sibling.children,
       child.leaf⟩
    match vecErase node.keys idx, vecErase (node.children.set idx merged) (idx + 1) with
    | some ks, some cs => some ⟨ks, cs, node.leaf⟩
    | _, _ => none
  | _, _, _ => none

/-- Source: `BTree::fill`. -/
def fill (t : Nat) (node : BTreeNode) (idx : Nat) : Option BTreeNode :=
  match (if idx ≠ 0 then
           match node.children[idx - 1]? with
           | none => none
           | some prev => some (decide (prev.keys.length ≥ t))
         else some false) with
  | none => none
  | some true => borrowFromPrev node idx
  | some false =>
    match (if idx ≠ node.keys.length then
             match node.children[idx + 1]? with
             | none => none
             | some next => some (decide (next.keys.length ≥ t))
           else some false) with
    | none => none
    | some true => borrowFromNext node idx
    | some false =>
      if idx ≠ node.keys.length then merge node idx
      else if idx = 0 then none
      else merge node (idx - 1)

/-- Source: `BTree::removeFromLeaf`. -/
def removeFromLeaf (node : BTreeNode) (idx : Nat) : Option BTreeNode :=
  match vecErase node.keys idx with
  | none => none
  | some ks => some ⟨ks, node.children, node.leaf⟩

/-- Source: `BTree::removeFromNonLeaf`; `recur` is the recursive call `removeFromNode`, `fuel` the
bound handed to the predecessor/successor walks. -/
def removeFromNonLeaf (t : Nat) (fuel : Nat) (recur : BTreeNode → Int → Option BTreeNode)
    (node : BTreeNode) (idx : Nat) : Option BTreeNode :=
  match node.keys[idx]?, node.children[idx]? with
  | some k, some left =>
    if left.keys.length ≥ t then
      match getPredecessor fuel node idx with
      | none => none
      | some pred =>
        match recur left pred with
        | none => none
        | some c' => some ⟨node.keys.set idx pred, node.children.set idx c', node.leaf⟩
    else
      match node.children[idx + 1]? with
      | none => none
      | some right =>
        if right.keys.length ≥ t then
          match getSuccessor fuel node idx with
          | none => none
          | some succ =>
            match recur right succ with
            | none => none
            | some c' =>
              some ⟨node.keys.set idx succ, node.children.set (idx + 1) c', node.leaf⟩
        else
          match merge node idx with
          | none => none
          | some node' =>
            match node'.children[idx]? with
            | none => none
            | some c =>
              match recur c k with
              | none => none
              | some c' => some ⟨node'.keys, node'.children.set idx c', node'.leaf⟩
  | _, _ => none

/-- Source: `BTree::removeFromNode`. -/
def removeFromNode (t : Nat) : Nat → BTreeNode → Int → Option BTreeNode
  | 0, _, _ => none
  | fuel + 1, node, k =>
    let idx := findKey node k
    if node.keys[idx]? = some k then
      if node.leaf then removeFromLeaf node idx
      else removeFromNonLeaf t fuel (removeFromNode t fuel) node idx
    else
      if node.leaf then some node
      else
        let isInSubtree := decide (idx = node.keys.length)
        match node.children[idx]? with
        | none => none
        | some child =>
          match (if child.keys.length < t then fill t node idx else some node) with
          | none => none
          | some node' =>
            let j := if isInSubtree && decide (idx > node'.keys.length) then idx - 1 else idx
            match node'.children[j]? with
            | none => none
            | some c =>
              match removeFromNode t fuel c k with
              | none => none
              | some c' => some ⟨node'.keys, node'.children.set j c', node'.leaf⟩

end BTreeNode

namespace BTree
open BTreeNode

/-- Source: `BTree::BTree(int degree)`: the empty tree. -/
def empty (t : Nat) : BTree := ⟨t, none⟩

/-- Height of the whole tree in node levels (0 for the empty tree). -/
def height (tr : BTree) : Nat :=
  match tr.root with
  | none => 0
  | some r => r.height

/-- In-order traversal of the whole tree. -/
def inorder (tr : BTree) : List Int :=
  match tr.root with
  | none => []
  | some r => r.inorder

/-- Source: `Visualizer::getNodeCount(tree.getRoot())`. -/
def getNodeCount (tr : BTree) : Nat :=
  match tr.root with
  | none => 0
  | some r => r.nodeCount

/-- Source: `BTree::search`. -/
def search (tr : BTree) (k : Int) : Option Bool :=
  searchNode tr.height tr.root k

/-- Source: `BTree::insert`. -/
def insert (tr : BTree) (k : Int) : Option BTree :=
  match tr.root with
  | none => some ⟨tr.t, some ⟨[k], [], true⟩⟩
  | some root =>
    if root.keys.length = 2 * tr.t - 1 then
      match splitChild tr.t ⟨[], [root], false⟩ 0 with
      | none => none
      | some newRoot =>
        match newRoot.keys[0]? with
        | none => none
        | some k0 =>
          let i := if k0 < k then 1 else 0
          match newRoot.children[i]? with
          | none => none
          | some c =>
            match insertNonFull tr.t root.height c k with
            | none => none
            | some c' => some ⟨tr.t, some ⟨newRoot.keys, newRoot.children.set i c', newRoot.leaf⟩⟩
    else
      match insertNonFull tr.t root.height root k with
      | none => none
      | some root' => some ⟨tr.t, some root'⟩

/-- Source: `BTree::remove`. -/
def remove (tr : BTree) (k : Int) : Option BTree :=
  match tr.root with
  | none => some tr
  | some root =>
    match removeFromNode tr.t root.height root k with
    | none => none
    | some root' =>
      if root'.keys.length = 0 then
        if root'.leaf then some ⟨tr.t, none⟩
        else
          match root'.children[0]? with
          | none => none
          | some c => some ⟨tr.t, some c⟩
      else some ⟨tr.t, some root'⟩

/-- Insert the keys of a list one after the other (`none` if a call is undefined). -/
def insertAll (tr : BTree) : List Int → Option BTree
  | [] => some tr
  | k :: ks =>
    match tr.insert k with
    | none => none
    | some tr' => insertAll tr' ks

end BTree

/-! ## Invariants used by the statements -/

namespace BTreeNode

mutual
/-- Node invariants of spec §3 for a non-root node and every node below it: between `t-1`
and `2t-1` keys, a leaf has no children, an internal node has one child more than keys. -/
def shape (t : Nat) : BTreeNode → Bool
  | ⟨ks, cs, lf⟩ =>
    decide (t - 1 ≤ ks.length) && decide (ks.length ≤ 2 * t - 1) &&
    (if lf then cs.isEmpty else decide (cs.length = ks.length + 1)) && shapeList t cs
/-- Every node of the list satisfies `shape`. -/
def shapeList (t : Nat) : List BTreeNode → Bool
  | [] => true
  | c :: cs => shape t c && shapeList t cs
end

/-- Node invariants for the root: as `shape`, without the lower bound on the key count. -/
def rootShape (t : Nat) (node : BTreeNode) : Bool :=
  decide (node.keys.length ≤ 2 * t - 1) &&
  (if node.leaf then node.children.isEmpty
   else decide (node.children.length = node.keys.length + 1)) &&
  shapeList t node.children

/-- All leaves below the node are exactly `d` levels down (the node itself is level 1). -/
def levels : Nat → BTreeNode → Bool
  | 0, _ => false
  | d + 1, node => if node.leaf then decide (d = 0) else node.children.all (levels d)

end BTreeNode

namespace BTree
open BTreeNode

/-- The node invariants of spec §3 for the whole tree: key-count bounds, arity, leaf flag
(`rootShape` of the root), and search-tree ordering, stated as: the in-order traversal is
strictly increasing. -/
def NodeInv (tr : BTree) : Prop :=
  (∀ r, tr.root = some r → rootShape tr.t r = true) ∧ tr.inorder.Sorted (· < ·)

/-- All leaves of the tree are at the same depth. -/
def Balanced (tr : BTree) : Prop :=
  ∀ r, tr.root = some r → levels r.height r = true

/-- A root that is not a leaf holds at least one key. -/
def RootKeyed (tr : BTree) : Prop :=
  ∀ r, tr.root = some r → r.leaf = false → r.keys ≠ []

/-- Trees obtained from the empty tree by `insert` of keys not yet present and `remove`. -/
inductive Reachable (t : Nat) : BTree → Prop
  | empty : Reachable t (BTree.empty t)
  | insert {tr tr' : BTree} {k : Int} :
      Reachable t tr → k ∉ tr.inorder → tr.insert k = some tr' → Reachable t tr'
  | remove {tr tr' : BTree} {k : Int} :
      Reachable t tr → tr.remove k = some tr' → Reachable t tr'

/-! ## Concrete trees used in the scenarios -/

/-- The degree-3 tree the program builds from 10, 20, 5, 6, 12, 30, 7, 17 (spec, scenario B). -/
def scenarioB : BTree :=
  ⟨3, some ⟨[10], [⟨[5, 6, 7], [], true⟩, ⟨[12, 17, 20, 30], [], true⟩], false⟩⟩

/-- The degree-2 tree `[2]` over `[1]` and `[3]`, reached by inserting 1, 2, 3, 4 and
removing 4. -/
def smallTree : BTree :=
  ⟨2, some ⟨[2], [⟨[1], [], true⟩, ⟨[3], [], true⟩], false⟩⟩

/-- A degree-2 tree with leaves at different depths: the left child of the root is a leaf,
the right child is internal. -/
def lopsidedLeft : BTree :=
  ⟨2, some ⟨[10], [⟨[5], [], true⟩,
                  ⟨[20], [⟨[15], [], true⟩, ⟨[25], [], true⟩], false⟩], false⟩⟩

end BTree

/-! ## Removal with a record of the calls it makes

The same removal functions, returning next to their result the list of the calls the spec
talks about: every call of `removeFromNode` (with the node as it is when the call is made) and
every call of `merge` (with the parent before and after).  Dropping the record gives back the
functions above (`removeFromNodeLog_fst`). -/

namespace BTreeNode

/-- A step of a removal: `removeFromNode(node, _)` was called, or `merge(before, idx)` was
called and left the parent as `after`. -/
inductive RemoveEvent where
  | call (node : BTreeNode)
  | merged (before : BTreeNode) (idx : Nat) (after : BTreeNode)
deriving DecidableEq

/-- Source: `BTree::merge`, recording the call. -/
def mergeLog (node : BTreeNode) (idx : Nat) : Option (BTreeNode × List RemoveEvent) :=
  match merge node idx with
  | none => none
  | some after => some (after, [RemoveEvent.merged node idx after])

/-- Source: `BTree::fill`, recording the `merge` calls. -/
def fillLog (t : Nat) (node : BTreeNode) (idx : Nat) : Option (BTreeNode × List RemoveEvent) :=
  match (if idx ≠ 0 then
           match node.children[idx - 1]? with
           | none => none
           | some prev => some (decide (prev.keys.length ≥ t))
         else some false) with
  | none => none
  | some true =>
    match borrowFromPrev node idx with
    | none => none
    | some node' => some (node', [])
  | some false =>
    match (if idx ≠ node.keys.length then
             match node.children[idx + 1]? with
             | none => none
             | some next => some (decide (next.keys.length ≥ t))
           else some false) with
    | none => none
    | some true =>
      match borrowFromNext node idx with
      | none => none
      | some node' => some (node', [])
    | some false =>
      if idx ≠ node.keys.length then mergeLog node idx
      else if idx = 0 then none
      else mergeLog node (idx - 1)

/-- Source: `BTree::removeFromNonLeaf`, recording the calls; `recur` is the recursive call. -/
def removeFromNonLeafLog (t : Nat) (fuel : Nat)
    (recur : BTreeNode → Int → Option (BTreeNode × List RemoveEvent))
    (node : BTreeNode) (idx : Nat) : Option (BTreeNode × List RemoveEvent) :=
  match node.keys[idx]?, node.children[idx]? with
  | some k, some left =>
    if left.keys.length ≥ t then
      match getPredecessor fuel node idx with
      | none => none
      | some pred =>
        match recur left pred with
        | none => none
        | some (c', log) =>
          some (⟨node.keys.set idx pred, node.children.set idx c', node.leaf⟩, log)
    else
      match node.children[idx + 1]? with
      | none => none
      | some right =>
        if right.keys.length ≥ t then
          match getSuccessor fuel node idx with
          | none => none
          | some succ =>
            match recur right succ with
            | none => none
            | some (c', log) =>
              some (⟨node.keys.set idx succ, node.children.set (idx + 1) c', node.leaf⟩, log)
        else
          match mergeLog node idx with
          | none => none
          | some (node', mlog) =>
            match node'.children[idx]? with
            | none => none
            | some c =>
              match recur c k with
              | none => none
              | some (c', log) =>
                some (⟨node'.keys, node'.children.set idx c', node'.leaf⟩, mlog ++ log)
  | _, _ => none

/-- Source: `BTree::removeFromNode`, recording the calls: the record starts with the call on
`node` itself. -/
def removeFromNodeLog (t : Nat) : Nat → BTreeNode → Int → Option (BTreeNode × List RemoveEvent)
  | 0, _, _ => none
  | fuel + 1, node, k =>
    let idx := findKey node k
    Option.map (fun p => (p.1, RemoveEvent.call node :: p.2))
      (if node.keys[idx]? = some k then
        if node.leaf then
          match removeFromLeaf node idx with
          | none => none
          | some node' => some (node', [])
        else removeFromNonLeafLog t fuel (removeFromNodeLog t fuel) node idx
      else
        if node.leaf then some (node, [])
        else
          let isInSubtree := decide (idx = node.keys.length)
          match node.children[idx]? with
          | none => none
          | some child =>
            match (if child.keys.length < t then fillLog t node idx else some (node, [])) with
            | none => none
            | some (node', flog) =>
              let j := if isInSubtree && decide (idx > node'.keys.length) then idx - 1 else idx
              match node'.children[j]? with
              | none => none
              | some c =>
                match removeFromNodeLog t fuel c k with
                | none => none
                | some (c', log) =>
                  some (⟨node'.keys, node'.children.set j c', node'.leaf⟩, flog ++ log))

/-- The node of a `call` record has at least `t` keys (nothing is asked of other records). -/
def callHasKeys (t : Nat) : RemoveEvent → Prop
  | RemoveEvent.call node => t ≤ node.keys.length
  | RemoveEvent.merged _ _ _ => True

/-- A `merged` record is a run of `merge`, its parent lost exactly one key and one child, and
the merged node `children[idx]` holds exactly `2t-1` keys (nothing is asked of other
records). -/
def mergeShrinks (t : Nat) : RemoveEvent → Prop
  | RemoveEvent.call _ => True
  | RemoveEvent.merged before idx after =>
    merge before idx = some after ∧
    after.keys.length + 1 = before.keys.length ∧
    after.children.length + 1 = before.children.length ∧
    ∃ m, after.children[idx]? = some m ∧ m.keys.length = 2 * t - 1

/-- Number of `call` records in a list. -/
def callCount : List RemoveEvent → Nat
  | [] => 0
  | RemoveEvent.call _ :: rest => callCount rest + 1
  | RemoveEvent.merged _ _ _ :: rest => callCount rest

end BTreeNode

namespace BTree
open BTreeNode

/-- Source: `BTree::remove`, recording the calls of `removeFromNode` and `merge`. -/
def removeLog (tr : BTree) (k : Int) : Option (BTree × List RemoveEvent) :=
  match tr.root with
  | none => some (tr, [])
  | some root =>
    match removeFromNodeLog tr.t root.height root k with
    | none => none
    | some (root', log) =>
      if root'.keys.length = 0 then
        if root'.leaf then some (⟨tr.t, none⟩, log)
        else
          match root'.children[0]? with
          | none => none
          | some c => some (⟨tr.t, some c⟩, log)
      else some (⟨tr.t, some root'⟩, log)

end BTree

/-! ## The caller layer -/

/-- Source: `class Visualizer`, the part that owns the tree and the membership set: `tree` and
`values` (a `std::set<int>`, kept here as the list of its elements in increasing order). -/
structure Visualizer where
  tree : BTree
  values : List Int
deriving DecidableEq

namespace Visualizer

/-- The call `values.insert(val)` of `std::set`: no effect when `val` is present, otherwise `val`
takes its place in the order. -/
def setInsert (val : Int) (s : List Int) : List Int :=
  if val ∈ s then s else List.orderedInsert (· ≤ ·) val s

/-- The call `values.erase(val)` of `std::set`. -/
def setErase (val : Int) (s : List Int) : List Int :=
  s.erase val

/-- Source: `Visualizer::Visualizer(int degree)`. -/
def fresh (degree : Nat) : Visualizer := ⟨BTree.empty degree, []⟩

/-- Source: `Visualizer::insertValue`. -/
def insertValue (v : Visualizer) (val : Int) : Option Visualizer :=
  if val ∉ v.values then
    match v.tree.insert val with
    | none => none
    | some tree' => some ⟨tree', setInsert val v.values⟩
  else some v

/-- Source: `Visualizer::removeValue`. -/
def removeValue (v : Visualizer) (val : Int) : Option Visualizer :=
  if val ∈ v.values then
    match v.tree.remove val with
    | none => none
    | some tree' => some ⟨tree', setErase val v.values⟩
  else some v

/-- Source: `Visualizer::getValueCount`. -/
def getValueCount (v : Visualizer) : Nat := v.values.length

/-- States of a `Visualizer` of the given degree after any sequence of `insertValue` and
`removeValue` calls. -/
inductive Reachable (degree : Nat) : Visualizer → Prop
  | fresh : Reachable degree (Visualizer.fresh degree)
  | insertValue {v v' : Visualizer} {val : Int} :
      Reachable degree v → v.insertValue val = some v' → Reachable degree v'
  | removeValue {v v' : Visualizer} {val : Int} :
      Reachable degree v → v.removeValue val = some v' → Reachable degree v'

end Visualizer

namespace BTreeNode

/-! ## Elementary facts about the measures -/

theorem inorderList_eq_map (cs : List BTreeNode) : inorderList cs = cs.map inorder := by
  induction cs with
  | nil => simp [inorderList]
  | cons c cs ih => simp [inorderList, ih]

theorem inorder_mk (ks : List Int) (cs : List BTreeNode) (lf : Bool) :
    inorder ⟨ks, cs, lf⟩ = if lf then ks else interleave (cs.map inorder) ks := by
  rw [inorder, inorderList_eq_map]

theorem inorder_eq (n : BTreeNode) :
    inorder n = if n.leaf then n.keys else interleave (n.children.map inorder) n.keys := by
  cases n; exact inorder_mk _ _ _

theorem shapeList_iff (t : Nat) (cs : List BTreeNode) :
    shapeList t cs = true ↔ ∀ c ∈ cs, shape t c = true := by
  induction cs with
  | nil => simp [shapeList]
  | cons c cs ih => simp [shapeList, ih]

theorem shape_iff (t : Nat) (n : BTreeNode) :
    shape t n = true ↔
      t - 1 ≤ n.keys.length ∧ n.keys.length ≤ 2 * t - 1 ∧
      (n.leaf = true → n.children = []) ∧
      (n.leaf = false → n.children.length = n.keys.length + 1) ∧
      ∀ c ∈ n.children, shape t c = true := by
  obtain ⟨ks, cs, lf⟩ := n
  cases lf <;> simp [shape, shapeList_iff, and_assoc]

theorem rootShape_iff (t : Nat) (n : BTreeNode) :
    rootShape t n = true ↔
      n.keys.length ≤ 2 * t - 1 ∧
      (n.leaf = true → n.children = []) ∧
      (n.leaf = false → n.children.length = n.keys.length + 1) ∧
      ∀ c ∈ n.children, shape t c = true := by
  obtain ⟨ks, cs, lf⟩ := n
  cases lf <;> simp [rootShape, shapeList_iff, and_assoc]

theorem shape_rootShape {t : Nat} {n : BTreeNode} (h : shape t n = true) :
    rootShape t n = true := by
  rw [shape_iff] at h; rw [rootShape_iff]; tauto

theorem heightList_le_iff (cs : List BTreeNode) (m : Nat) :
    heightList cs ≤ m ↔ ∀ c ∈ cs, height c ≤ m := by
  induction cs with
  | nil => simp [heightList]
  | cons c cs ih => simp [heightList, ih]

theorem height_eq (n : BTreeNode) : height n = heightList n.children + 1 := by
  cases n; simp [height]

theorem height_pos (n : BTreeNode) : 0 < height n := by
  rw [height_eq]; omega

theorem height_child_lt {n c : BTreeNode} (h : c ∈ n.children) : height c < height n := by
  rw [height_eq n]
  have := (heightList_le_iff n.children (heightList n.children)).1 le_rfl c h
  omega

theorem levels_succ (d : Nat) (n : BTreeNode) :
    levels (d + 1) n = true ↔
      (n.leaf = true → d = 0) ∧ (n.leaf = false → ∀ c ∈ n.children, levels d c = true) := by
  cases h : n.leaf <;> simp [levels, h]

theorem levels_zero (n : BTreeNode) : levels 0 n = false := rfl

end BTreeNode

namespace BTreeNode

/-! ## The loops on vectors -/

theorem copyRange_eq {α : Type} (v : List α) (start n : Nat) (h : start + n ≤ v.length) :
    copyRange v start n = some ((v.drop start).take n) := by
  induction n with
  | zero => simp [copyRange]
  | succ n ih =>
    have hlt : start + n < v.length := by omega
    rw [copyRange, ih (by omega), List.getElem?_eq_getElem hlt]
    simp only [Option.some.injEq]
    rw [List.take_succ, List.getElem?_drop, List.getElem?_eq_getElem hlt]
    rfl

theorem scanUp_le (k : Int) (l : List Int) : scanUp k l ≤ l.length := by
  induction l with
  | nil => simp [scanUp]
  | cons x xs ih =>
    simp only [scanUp]
    split
    · simpa using ih
    · simp

theorem scanUp_take_lt (k : Int) (l : List Int) : ∀ x ∈ l.take (scanUp k l), x < k := by
  induction l with
  | nil => simp [scanUp]
  | cons y ys ih =>
    simp only [scanUp]
    split
    · intro x hx
      simp only [List.take_succ_cons, List.mem_cons] at hx
      rcases hx with rfl | hx
      · assumption
      · exact ih x hx
    · simp

theorem scanUp_get_ge (k : Int) (l : List Int) (x : Int) (h : l[scanUp k l]? = some x) :
    k ≤ x := by
  induction l with
  | nil => simp [scanUp] at h
  | cons y ys ih =>
    simp only [scanUp] at h
    split at h
    · simp only [List.getElem?_cons_succ] at h; exact ih h
    · simp only [List.getElem?_cons_zero, Option.some.injEq] at h; subst h; omega

theorem scanDown_le (k : Int) (l : List Int) (n : Nat) : scanDown k l n ≤ n := by
  induction n with
  | zero => simp [scanDown]
  | succ n ih =>
    simp only [scanDown]
    split
    · split
      · omega
      · omega
    · omega

theorem scanDown_drop_gt (k : Int) (l : List Int) (n : Nat) (hn : n ≤ l.length) :
    ∀ x ∈ (l.take n).drop (scanDown k l n), k < x := by
  induction n with
  | zero => simp [scanDown]
  | succ n ih =>
    have hlt : n < l.length := by omega
    simp only [scanDown, List.getElem?_eq_getElem hlt]
    split
    · intro x hx
      rw [List.take_succ, List.getElem?_eq_getElem hlt] at hx
      have hle := scanDown_le k l n
      simp only [Option.toList_some] at hx
      rw [List.drop_append_of_le_length (by simp; omega)] at hx
      simp only [List.mem_append, List.mem_singleton] at hx
      rcases hx with hx | rfl
      · exact ih (by omega) x hx
      · omega
    · intro x hx
      rw [List.drop_eq_nil_of_le (by simp)] at hx
      exact absurd hx (List.not_mem_nil x)

theorem scanDown_pred_le (k : Int) (l : List Int) (n : Nat) (hn : n ≤ l.length)
    (x : Int) (hp : 0 < scanDown k l n) (hx : l[scanDown k l n - 1]? = some x) : x ≤ k := by
  induction n with
  | zero => simp [scanDown] at hp
  | succ n ih =>
    have hlt : n < l.length := by omega
    simp only [scanDown, List.getElem?_eq_getElem hlt] at hp hx
    split at hx
    · rename_i hgt
      simp only [hgt, if_true] at hp
      exact ih (by omega) hp hx
    · rename_i hgt
      simp only [Nat.add_sub_cancel, List.getElem?_eq_getElem hlt, Option.some.injEq] at hx
      omega

theorem shiftInsert_eq (k : Int) (l : List Int) (n : Nat) (hn : n ≤ l.length) (junk : Int) :
    shiftInsert k n (l.take n ++ junk :: l.drop n) =
      l.take (scanDown k l n) ++ k :: l.drop (scanDown k l n) := by
  induction n generalizing junk with
  | zero => simp [shiftInsert, scanDown]
  | succ n ih =>
    have hlt : n < l.length := by omega
    have hget : (l.take (n + 1) ++ junk :: l.drop (n + 1))[n]? = some l[n] := by
      rw [List.getElem?_append_left (by simp; omega), List.getElem?_take_of_lt (by omega),
        List.getElem?_eq_getElem hlt]
    have hset : ∀ y : Int, (l.take (n + 1) ++ junk :: l.drop (n + 1)).set (n + 1) y =
        l.take (n + 1) ++ y :: l.drop (n + 1) := by
      intro y
      rw [List.set_append_right _ _ (by simp)]
      simp [Nat.min_eq_left (show n + 1 ≤ l.length by omega)]
    simp only [shiftInsert, scanDown, hget, List.getElem?_eq_getElem hlt, hset]
    split
    · have : l.take (n + 1) ++ l[n] :: l.drop (n + 1) = l.take n ++ l[n] :: l.drop n := by
        rw [List.take_succ, List.getElem?_eq_getElem hlt]
        simp only [Option.toList_some, List.append_assoc, List.singleton_append]
        rw [List.drop_eq_getElem_cons hlt]
      rw [this]
      exact ih (by omega) _
    · rfl

end BTreeNode

namespace BTreeNode

/-! ## The in-order layout -/

theorem interleave_nil_nil : interleave [] [] = [] := rfl

theorem interleave_append (ca : List (List Int)) (ka : List Int) (rest : List (List Int))
    (kb : List Int) (h : ca.length = ka.length) :
    interleave (ca ++ rest) (ka ++ kb) = interleave ca ka ++ interleave rest kb := by
  induction ca generalizing ka with
  | nil =>
    cases ka with
    | nil => simp [interleave]
    | cons k ka => simp at h
  | cons c ca ih =>
    cases ka with
    | nil => simp at h
    | cons k ka =>
      simp only [List.length_cons, Nat.add_right_cancel_iff] at h
      simp [interleave, ih ka h]

theorem interleave_cons (c : List Int) (cb : List (List Int)) (kb : List Int) :
    interleave (c :: cb) kb = c ++ interleave ([] :: cb) kb := by
  cases kb <;> simp [interleave]

/-- In-order layout around the child at position `|ca|`. -/
theorem interleave_split (ca : List (List Int)) (ka : List Int) (c : List Int)
    (cb : List (List Int)) (kb : List Int) (h : ca.length = ka.length) :
    interleave (ca ++ c :: cb) (ka ++ kb) =
      interleave ca ka ++ (c ++ interleave ([] :: cb) kb) := by
  rw [interleave_append _ _ _ _ h, interleave_cons]

theorem interleave_tail_cons (cb : List (List Int)) (k : Int) (kb : List Int) :
    interleave ([] :: cb) (k :: kb) = k :: interleave cb kb := by
  simp [interleave]

theorem interleave_tail_nil : interleave [[]] [] = [] := by
  simp [interleave]

theorem mem_interleave (cs : List (List Int)) (ks : List Int) (x : Int) :
    x ∈ interleave cs ks ↔ x ∈ ks ∨ ∃ c ∈ cs, x ∈ c := by
  induction cs generalizing ks with
  | nil => simp [interleave]
  | cons c cs ih =>
    cases ks with
    | nil =>
      simp only [interleave, List.mem_append, ih, List.not_mem_nil, false_or, List.mem_cons,
        exists_eq_or_imp]
    | cons k ks =>
      simp only [interleave, List.mem_append, List.mem_cons, ih, exists_eq_or_imp]
      tauto

theorem length_interleave (cs : List (List Int)) (ks : List Int) :
    (interleave cs ks).length = ks.length + (cs.map List.length).sum := by
  induction cs generalizing ks with
  | nil => simp [interleave]
  | cons c cs ih =>
    cases ks with
    | nil => simp [interleave, ih]
    | cons k ks => simp [interleave, ih]; omega

theorem keys_sublist_interleave (cs : List (List Int)) (ks : List Int) :
    ks.Sublist (interleave cs ks) := by
  induction cs generalizing ks with
  | nil => simp [interleave]
  | cons c cs ih =>
    cases ks with
    | nil => simp
    | cons k ks =>
      simp only [interleave]
      exact List.Sublist.trans ((ih ks).cons₂ k) (List.sublist_append_right _ _)

/-- Everything in the part of the layout left of a child is bounded by a key of that part. -/
theorem interleave_left_le (ca : List (List Int)) (ka : List Int) (h : ca.length = ka.length)
    (hs : (interleave ca ka).Sorted (· < ·)) :
    ∀ x ∈ interleave ca ka, ∃ kl ∈ ka, x ≤ kl := by
  rcases List.eq_nil_or_concat ka with rfl | ⟨ka', kl, rfl⟩
  · have : ca = [] := by simpa using h
    subst this; simp [interleave]
  · rcases List.eq_nil_or_concat ca with rfl | ⟨ca', cl, rfl⟩
    · simp at h
    · have hlen : ca'.length = ka'.length := by simpa using h
      simp only [List.concat_eq_append] at hs ⊢
      rw [interleave_append _ _ _ _ hlen] at hs ⊢
      have e : interleave [cl] [kl] = cl ++ [kl] := by simp [interleave]
      rw [e, ← List.append_assoc] at hs ⊢
      intro x hx
      refine ⟨kl, by simp, ?_⟩
      rcases List.mem_append.1 hx with hx | hx
      · exact le_of_lt ((List.pairwise_append.1 hs).2.2 x hx kl (by simp))
      · simp at hx; omega

/-- Everything in the part of the layout right of a child is bounded by a key of that part. -/
theorem interleave_right_ge (cb : List (List Int)) (kb : List Int) (h : cb.length = kb.length)
    (hs : (interleave ([] :: cb) kb).Sorted (· < ·)) :
    ∀ x ∈ interleave ([] :: cb) kb, ∃ kh ∈ kb, kh ≤ x := by
  cases kb with
  | nil =>
    have : cb = [] := by simpa using h
    subst this; simp [interleave]
  | cons kh kb =>
    rw [interleave_tail_cons] at hs ⊢
    intro x hx
    refine ⟨kh, by simp, ?_⟩
    rcases List.mem_cons.1 hx with rfl | hx
    · exact le_rfl
    · exact le_of_lt (List.rel_of_sorted_cons hs x hx)

/-! ## Sorted lists -/

theorem sorted_getElem_le_drop (l : List Int) (hs : l.Sorted (· < ·)) (i : Nat) (y : Int)
    (hy : l[i]? = some y) : ∀ x ∈ l.drop i, y ≤ x := by
  have hi : i < l.length := by
    by_contra hc
    rw [List.getElem?_eq_none (by omega)] at hy; simp at hy
  rw [List.getElem?_eq_getElem hi] at hy
  simp only [Option.some.injEq] at hy
  rw [List.drop_eq_getElem_cons hi, hy]
  have hs' : (l.drop i).Sorted (· < ·) := List.Pairwise.sublist (List.drop_sublist i l) hs
  rw [List.drop_eq_getElem_cons hi, hy] at hs'
  intro x hx
  rcases List.mem_cons.1 hx with rfl | hx
  · exact le_rfl
  · exact le_of_lt (List.rel_of_sorted_cons hs' x hx)

theorem sorted_take_le_getElem (l : List Int) (hs : l.Sorted (· < ·)) (i : Nat) (y : Int)
    (hy : l[i]? = some y) : ∀ x ∈ l.take (i + 1), x ≤ y := by
  have hi : i < l.length := by
    by_contra hc
    rw [List.getElem?_eq_none (by omega)] at hy; simp at hy
  have hs' : (l.take (i + 1)).Sorted (· < ·) := List.Pairwise.sublist (List.take_sublist _ l) hs
  rw [List.take_succ, hy] at hs' ⊢
  simp only [Option.toList_some] at hs' ⊢
  intro x hx
  rcases List.mem_append.1 hx with hx | hx
  · exact le_of_lt ((List.pairwise_append.1 hs').2.2 x hx y (by simp))
  · simp at hx; omega

/-- Replacing the middle `M` of a strictly sorted `A ++ M ++ B` by a sorted rearrangement of
`k :: M`, when `A ≤ k ≤ B`. -/
theorem sorted_middle_insert (A M M' B : List Int) (k : Int)
    (hs : (A ++ (M ++ B)).Sorted (· < ·)) (hp : M'.Perm (k :: M)) (hM : M'.Sorted (· ≤ ·))
    (hA : ∀ a ∈ A, a ≤ k) (hB : ∀ b ∈ B, k ≤ b) :
    (A ++ (M' ++ B)).Sorted (· ≤ ·) ∧ (A ++ (M' ++ B)).Perm (k :: (A ++ (M ++ B))) := by
  constructor
  · obtain ⟨hAs, hMB, hAMB⟩ := List.pairwise_append.1 hs
    obtain ⟨_, hBs, hMBr⟩ := List.pairwise_append.1 hMB
    refine List.pairwise_append.2 ⟨hAs.imp le_of_lt, ?_, ?_⟩
    · refine List.pairwise_append.2 ⟨hM, hBs.imp le_of_lt, ?_⟩
      intro m hm b hb
      rcases List.mem_cons.1 (hp.subset hm) with rfl | hm
      · exact hB b hb
      · exact le_of_lt (hMBr m hm b hb)
    · intro a ha x hx
      rcases List.mem_append.1 hx with hx | hx
      · rcases List.mem_cons.1 (hp.subset hx) with rfl | hx
        · exact hA a ha
        · exact le_of_lt (hAMB a ha x (List.mem_append_left _ hx))
      · exact le_of_lt (hAMB a ha x (List.mem_append_right _ hx))
  · calc (A ++ (M' ++ B)).Perm (A ++ ((k :: M) ++ B)) :=
          List.Perm.append_left A (List.Perm.append_right B hp)
      _ = A ++ k :: (M ++ B) := by simp
      _ |>.Perm (k :: (A ++ (M ++ B))) := List.perm_middle

end BTreeNode

namespace BTreeNode

/-! ## Views of a node around one child -/

theorem exists_view {α : Type} (l : List α) (i : Nat) (h : i < l.length) :
    ∃ a x b, l = a ++ x :: b ∧ a.length = i ∧ l[i]? = some x := by
  refine ⟨l.take i, l[i], l.drop (i + 1), ?_, ?_, ?_⟩
  · rw [← List.drop_eq_getElem_cons h, List.take_append_drop]
  · simp; omega
  · exact List.getElem?_eq_getElem h

theorem exists_cut {α : Type} (l : List α) (i : Nat) (h : i ≤ l.length) :
    ∃ a b, l = a ++ b ∧ a.length = i :=
  ⟨l.take i, l.drop i, (List.take_append_drop i l).symm, by simp; omega⟩

theorem getElem?_view {α : Type} (a : List α) (x : α) (b : List α) :
    (a ++ x :: b)[a.length]? = some x := by
  rw [List.getElem?_append_right (le_refl _)]
  simp

theorem set_view {α : Type} (a : List α) (x y : α) (b : List α) :
    (a ++ x :: b).set a.length y = a ++ y :: b := by
  simp

theorem eraseIdx_view {α : Type} (a : List α) (x : α) (b : List α) :
    (a ++ x :: b).eraseIdx a.length = a ++ b := by
  rw [List.eraseIdx_append_of_length_le (le_refl _)]
  simp

theorem inorder_view (ka kb : List Int) (ca : List BTreeNode) (c : BTreeNode)
    (cb : List BTreeNode) (h : ca.length = ka.length) :
    inorder ⟨ka ++ kb, ca ++ c :: cb, false⟩ =
      interleave (ca.map inorder) ka ++
        (inorder c ++ interleave ([] :: cb.map inorder) kb) := by
  rw [inorder_mk]
  simp only [Bool.false_eq_true, if_false, List.map_append, List.map_cons]
  rw [interleave_split _ _ _ _ _ (by simpa using h)]

theorem inorder_join (lk rk : List Int) (mid : Int) (lc rc : List BTreeNode)
    (h : lc.length = lk.length + 1) :
    inorder ⟨lk ++ mid :: rk, lc ++ rc, false⟩ =
      inorder ⟨lk, lc, false⟩ ++ mid :: inorder ⟨rk, rc, false⟩ := by
  rcases List.eq_nil_or_concat lc with rfl | ⟨lc0, cl, rfl⟩
  · simp at h
  · simp only [List.concat_eq_append] at h ⊢
    have hlen : lc0.length = lk.length := by simpa using h
    rw [List.append_assoc, List.singleton_append, inorder_view _ _ _ _ _ hlen]
    have := inorder_view lk [] lc0 cl [] hlen
    simp only [List.append_nil, List.map_nil, interleave_tail_nil] at this
    rw [this, interleave_tail_cons, inorder_mk]
    simp

theorem inorder_leaf (ks : List Int) (cs : List BTreeNode) : inorder ⟨ks, cs, true⟩ = ks := by
  simp [inorder_mk]

/-! ## `splitChild` in closed form -/

theorem splitChild_eq (t : Nat) (ht : 1 ≤ t) (ka kb : List Int) (ca cb : List BTreeNode)
    (plf : Bool) (lk rk : List Int) (mid : Int) (lc rc : List BTreeNode) (flf : Bool)
    (hka : ca.length = ka.length) (hlk : lk.length = t - 1) (hrk : rk.length = t - 1)
    (hlc : flf = false → lc.length = t ∧ rc.length = t) :
    splitChild t ⟨ka ++ kb, ca ++ ⟨lk ++ mid :: rk, lc ++ rc, flf⟩ :: cb, plf⟩ ca.length =
      some ⟨ka ++ mid :: kb,
            ca ++ ⟨lk, if flf then lc ++ rc else lc, flf⟩ ::
              ⟨rk, if flf then [] else rc, flf⟩ :: cb, plf⟩ := by
  have hk1 : copyRange (lk ++ mid :: rk) (t - 1 + 1) (t - 1) = some rk := by
    rw [copyRange_eq _ _ _ (by simp; omega)]
    have : lk ++ mid :: rk = (lk ++ [mid]) ++ rk := by simp
    rw [this, List.drop_left' (by simp; omega)]
    simp [← hrk]
  have hmid : (lk ++ mid :: rk)[t - 1]? = some mid := by
    rw [← hlk]; exact getElem?_view _ _ _
  have htake : (lk ++ mid :: rk).take (t - 1) = lk := by
    rw [← hlk]; simp
  have hc : (if flf = true then some [] else copyRange (lc ++ rc) (t - 1 + 1) t) =
      some (if flf then [] else rc) := by
    cases flf with
    | true => simp
    | false =>
      obtain ⟨h1, h2⟩ := hlc rfl
      simp only [Bool.false_eq_true, if_false]
      rw [copyRange_eq _ _ _ (by simp; omega), List.drop_left' (by omega)]
      simp [← h2]
  have htc : (if flf = true then lc ++ rc else (lc ++ rc).take (t - 1 + 1)) =
      (if flf then lc ++ rc else lc) := by
    cases flf with
    | true => simp
    | false =>
      obtain ⟨h1, h2⟩ := hlc rfl
      simp only [Bool.false_eq_true, if_false]
      rw [List.take_left' (by omega)]
  simp only [splitChild, getElem?_view, hk1, hc, hmid, htake, htc, vecInsert, set_view]
  rw [if_pos (by simp; omega), if_pos (by simp)]
  simp only [Option.some.injEq, BTreeNode.mk.injEq, and_true]
  constructor
  · rw [List.take_left' hka.symm, List.drop_left' hka.symm]
  · have e : ca ++ ⟨lk, if flf then lc ++ rc else lc, flf⟩ :: cb =
        (ca ++ [⟨lk, if flf then lc ++ rc else lc, flf⟩]) ++ cb := by simp
    rw [e, List.take_left' (by simp), List.drop_left' (by simp)]
    simp

end BTreeNode

namespace BTreeNode

/-! ## Helpers on the invariants -/

theorem shape_iff_root (t : Nat) (n : BTreeNode) :
    shape t n = true ↔ rootShape t n = true ∧ t - 1 ≤ n.keys.length := by
  rw [shape_iff, rootShape_iff]; tauto

theorem rootShape_internal (t : Nat) (ks : List Int) (cs : List BTreeNode) :
    rootShape t ⟨ks, cs, false⟩ = true ↔
      ks.length ≤ 2 * t - 1 ∧ cs.length = ks.length + 1 ∧ ∀ c ∈ cs, shape t c = true := by
  rw [rootShape_iff]; simp

theorem rootShape_leaf (t : Nat) (ks : List Int) (cs : List BTreeNode) :
    rootShape t ⟨ks, cs, true⟩ = true ↔ ks.length ≤ 2 * t - 1 ∧ cs = [] := by
  rw [rootShape_iff]; simp
  intro _ h; subst h; simp

theorem levels_internal (d : Nat) (ks : List Int) (cs : List BTreeNode) :
    levels (d + 1) ⟨ks, cs, false⟩ = true ↔ ∀ c ∈ cs, levels d c = true := by
  rw [levels_succ]; simp

theorem levels_leaf (d : Nat) (ks : List Int) (cs : List BTreeNode) :
    levels (d + 1) ⟨ks, cs, true⟩ = true ↔ d = 0 := by
  rw [levels_succ]; simp

theorem height_mk (ks : List Int) (cs : List BTreeNode) (lf : Bool) :
    height ⟨ks, cs, lf⟩ = heightList cs + 1 := by
  simp [height]

theorem height_le_of_children {n : BTreeNode} {m : Nat}
    (h : ∀ c ∈ n.children, height c ≤ m) : height n ≤ m + 1 := by
  rw [height_eq]
  have := (heightList_le_iff n.children m).2 h
  omega

theorem height_le_of_subset {a b : BTreeNode} (h : ∀ c ∈ a.children, c ∈ b.children) :
    height a ≤ height b := by
  rw [height_eq a, height_eq b]
  have : heightList a.children ≤ heightList b.children :=
    (heightList_le_iff _ _).2 fun c hc =>
      (heightList_le_iff b.children _).1 le_rfl c (h c hc)
  omega

/-- A node whose leaves are all `d` levels down has height `d` (given the arity invariant). -/
theorem height_of_levels (t : Nat) :
    ∀ (d : Nat) (n : BTreeNode), rootShape t n = true → levels d n = true → height n = d := by
  intro d
  induction d with
  | zero => intro n _ h; simp [levels] at h
  | succ d ih =>
    intro n hs hl
    rw [rootShape_iff] at hs
    obtain ⟨_, hleaf, hint, hch⟩ := hs
    rw [levels_succ] at hl
    rw [height_eq]
    cases hlf : n.leaf with
    | true =>
      rw [hleaf hlf, hl.1 hlf]; simp [heightList]
    | false =>
      have hall := hl.2 hlf
      have hlen := hint hlf
      have hle : heightList n.children ≤ d :=
        (heightList_le_iff _ _).2 fun c hc =>
          le_of_eq (ih c (shape_rootShape (hch c hc)) (hall c hc))
      have hne : n.children ≠ [] := by
        intro h0; rw [h0] at hlen; simp at hlen
      obtain ⟨c, hc⟩ := List.exists_mem_of_ne_nil _ hne
      have h1 := ih c (shape_rootShape (hch c hc)) (hall c hc)
      have h2 := (heightList_le_iff n.children _).1 le_rfl c hc
      omega

/-! ## `splitChild` on a node that satisfies the invariants -/

theorem splitChild_props (t : Nat) (ht : 2 ≤ t) (ka kb : List Int) (ca cb : List BTreeNode)
    (child : BTreeNode) (plf : Bool) (hka : ca.length = ka.length)
    (hc : shape t child = true) (hfull : child.keys.length = 2 * t - 1) :
    ∃ lk mid rk L R,
      splitChild t ⟨ka ++ kb, ca ++ child :: cb, plf⟩ ca.length =
        some ⟨ka ++ mid :: kb, ca ++ L :: R :: cb, plf⟩ ∧
      L.keys = lk ∧ R.keys = rk ∧ lk.length = t - 1 ∧ rk.length = t - 1 ∧
      shape t L = true ∧ shape t R = true ∧
      height L ≤ height child ∧ height R ≤ height child ∧
      (∀ d, levels d child = true → levels d L = true ∧ levels d R = true) ∧
      inorder child = inorder L ++ mid :: inorder R := by
  obtain ⟨ck, cc, clf⟩ := child
  simp only at hfull
  rw [shape_iff] at hc
  simp only at hc
  obtain ⟨hmin, hmax, hleaf, hint, hch⟩ := hc
  obtain ⟨lk, mid, rk, rfl, hlk, -⟩ := exists_view ck (t - 1) (by omega)
  have hrk : rk.length = t - 1 := by simp at hfull; omega
  cases clf with
  | true =>
    have hcc : cc = [] := hleaf rfl
    subst hcc
    refine ⟨lk, mid, rk, ⟨lk, [], true⟩, ⟨rk, [], true⟩, ?_, rfl, rfl, hlk, hrk, ?_, ?_, ?_, ?_,
      ?_, ?_⟩
    · have := splitChild_eq t (by omega) ka kb ca cb plf lk rk mid [] [] true hka hlk hrk
        (by simp)
      simpa using this
    · rw [shape_iff]; simp; omega
    · rw [shape_iff]; simp; omega
    · simp [height_mk]
    · simp [height_mk]
    · intro d hd
      cases d with
      | zero => simp [levels] at hd
      | succ d => rw [levels_leaf] at hd ⊢; rw [levels_leaf]; exact ⟨hd, hd⟩
    · simp [inorder_leaf]
  | false =>
    have hlen := hint rfl
    obtain ⟨lc, rc, rfl, hlc⟩ := exists_cut cc t (by simp at hlen; omega)
    have hrc : rc.length = t := by simp at hlen; omega
    refine ⟨lk, mid, rk, ⟨lk, lc, false⟩, ⟨rk, rc, false⟩, ?_, rfl, rfl, hlk, hrk, ?_, ?_, ?_,
      ?_, ?_, ?_⟩
    · have := splitChild_eq t (by omega) ka kb ca cb plf lk rk mid lc rc false hka hlk hrk
        (fun _ => ⟨hlc, hrc⟩)
      simpa using this
    · rw [shape_iff]
      refine ⟨by simp; omega, by simp; omega, by simp, by simp; omega, ?_⟩
      intro c hc; exact hch c (List.mem_append_left _ hc)
    · rw [shape_iff]
      refine ⟨by simp; omega, by simp; omega, by simp, by simp; omega, ?_⟩
      intro c hc; exact hch c (List.mem_append_right _ hc)
    · exact height_le_of_subset fun c hc => List.mem_append_left _ hc
    · exact height_le_of_subset fun c hc => List.mem_append_right _ hc
    · intro d hd
      cases d with
      | zero => simp [levels] at hd
      | succ d =>
        rw [levels_internal] at hd ⊢; rw [levels_internal]
        exact ⟨fun c hc => hd c (List.mem_append_left _ hc),
          fun c hc => hd c (List.mem_append_right _ hc)⟩
    · exact inorder_join lk rk mid lc rc (by omega)

end BTreeNode

namespace BTreeNode

/-! ## Insertion below a node -/

theorem scanDown_bounds (k : Int) (keys ka kb : List Int) (hs : keys.Sorted (· < ·))
    (hk : keys = ka ++ kb) (hp : ka.length = scanDown k keys keys.length) :
    (∀ x ∈ ka, x ≤ k) ∧ (∀ x ∈ kb, k < x) := by
  have hka : ka = keys.take (scanDown k keys keys.length) := by
    rw [← hp]; subst hk; simp
  have hkb : kb = keys.drop (scanDown k keys keys.length) := by
    rw [← hp]; subst hk; simp
  constructor
  · intro x hx
    rcases Nat.eq_zero_or_pos (scanDown k keys keys.length) with h0 | hpos
    · rw [hka, h0] at hx; simp at hx
    · have hle := scanDown_le k keys keys.length
      have hlt : scanDown k keys keys.length - 1 < keys.length := by omega
      have hy := scanDown_pred_le k keys keys.length le_rfl _ hpos
        (List.getElem?_eq_getElem hlt)
      have := sorted_take_le_getElem keys hs _ _ (List.getElem?_eq_getElem hlt) x
        (by rw [Nat.sub_add_cancel hpos, ← hka]; exact hx)
      omega
  · intro x hx
    have := scanDown_drop_gt k keys keys.length le_rfl x
    rw [List.take_length] at this
    exact this (hkb ▸ hx)

theorem replace_child_insert (t : Nat) (k : Int) (ka kb : List Int) (ca cb : List BTreeNode)
    (c c' : BTreeNode) (hka : ca.length = ka.length) (hkb : cb.length = kb.length)
    (hc' : shape t c' = true)
    (hlev : ∀ d, levels d c = true → levels d c' = true)
    (hord : (inorder c).Sorted (· < ·) →
      (inorder c').Sorted (· ≤ ·) ∧ (inorder c').Perm (k :: inorder c)) :
    (rootShape t ⟨ka ++ kb, ca ++ c :: cb, false⟩ = true →
      rootShape t ⟨ka ++ kb, ca ++ c' :: cb, false⟩ = true) ∧
    (∀ d, levels d ⟨ka ++ kb, ca ++ c :: cb, false⟩ = true →
      levels d ⟨ka ++ kb, ca ++ c' :: cb, false⟩ = true) ∧
    ((inorder ⟨ka ++ kb, ca ++ c :: cb, false⟩).Sorted (· < ·) →
      (∀ x ∈ ka, x ≤ k) → (∀ x ∈ kb, k ≤ x) →
      (inorder ⟨ka ++ kb, ca ++ c' :: cb, false⟩).Sorted (· ≤ ·) ∧
      (inorder ⟨ka ++ kb, ca ++ c' :: cb, false⟩).Perm
        (k :: inorder ⟨ka ++ kb, ca ++ c :: cb, false⟩)) := by
  refine ⟨?_, ?_, ?_⟩
  · simp only [rootShape_internal]
    rintro ⟨h1, h2, h3⟩
    refine ⟨h1, by simpa using h2, ?_⟩
    intro x hx
    rcases List.mem_append.1 hx with hx | hx
    · exact h3 x (List.mem_append_left _ hx)
    · rcases List.mem_cons.1 hx with rfl | hx
      · exact hc'
      · exact h3 x (List.mem_append_right _ (List.mem_cons_of_mem _ hx))
  · intro d
    cases d with
    | zero => simp [levels]
    | succ d =>
      simp only [levels_internal]
      intro h x hx
      rcases List.mem_append.1 hx with hx | hx
      · exact h x (List.mem_append_left _ hx)
      · rcases List.mem_cons.1 hx with rfl | hx
        · exact hlev d (h c (by simp))
        · exact h x (List.mem_append_right _ (List.mem_cons_of_mem _ hx))
  · rw [inorder_view _ _ _ _ _ hka, inorder_view _ _ _ _ _ hka]
    intro hs hA hB
    obtain ⟨hAs, hMB, -⟩ := List.pairwise_append.1 hs
    obtain ⟨hMs, hBs, -⟩ := List.pairwise_append.1 hMB
    obtain ⟨h1, h2⟩ := hord hMs
    refine sorted_middle_insert _ _ _ _ k hs h2 h1 ?_ ?_
    · intro a ha
      obtain ⟨kl, hkl, hle⟩ := interleave_left_le _ _ (by simpa using hka) hAs a ha
      exact le_trans hle (hA kl hkl)
    · intro b hb
      obtain ⟨kh, hkh, hle⟩ := interleave_right_ge _ _ (by simpa using hkb) hBs b hb
      exact le_trans (hB kh hkh) hle

theorem getElem?_view2 {α : Type} (a : List α) (x y : α) (b : List α) :
    (a ++ x :: y :: b)[a.length + 1]? = some y := by
  rw [List.getElem?_append_right (by omega)]
  simp

theorem set_view2 {α : Type} (a : List α) (x y z : α) (b : List α) :
    (a ++ x :: y :: b).set (a.length + 1) z = a ++ x :: z :: b := by
  rw [List.set_append_right _ _ (by omega)]
  simp

theorem split_view_props (t : Nat) (ka kb : List Int) (ca cb : List BTreeNode)
    (child L R : BTreeNode) (mid : Int) (hka : ca.length = ka.length)
    (hL : shape t L = true) (hR : shape t R = true)
    (hlv : ∀ d, levels d child = true → levels d L = true ∧ levels d R = true)
    (hio : inorder child = inorder L ++ mid :: inorder R) :
    (rootShape t ⟨ka ++ kb, ca ++ child :: cb, false⟩ = true → (ka ++ kb).length < 2 * t - 1 →
      rootShape t ⟨ka ++ mid :: kb, ca ++ L :: R :: cb, false⟩ = true) ∧
    (∀ d, levels d ⟨ka ++ kb, ca ++ child :: cb, false⟩ = true →
      levels d ⟨ka ++ mid :: kb, ca ++ L :: R :: cb, false⟩ = true) ∧
    inorder ⟨ka ++ mid :: kb, ca ++ L :: R :: cb, false⟩ =
      inorder ⟨ka ++ kb, ca ++ child :: cb, false⟩ := by
  refine ⟨?_, ?_, ?_⟩
  · simp only [rootShape_internal]
    rintro ⟨h1, h2, h3⟩ hnf
    refine ⟨by simp at hnf ⊢; omega, by simp at h2 ⊢; omega, ?_⟩
    intro x hx
    simp only [List.mem_append, List.mem_cons] at hx
    rcases hx with hx | rfl | rfl | hx
    · exact h3 x (List.mem_append_left _ hx)
    · exact hL
    · exact hR
    · exact h3 x (List.mem_append_right _ (List.mem_cons_of_mem _ hx))
  · intro d
    cases d with
    | zero => simp [levels]
    | succ d =>
      simp only [levels_internal]
      intro h x hx
      simp only [List.mem_append, List.mem_cons] at hx
      rcases hx with hx | rfl | rfl | hx
      · exact h x (List.mem_append_left _ hx)
      · exact (hlv d (h child (by simp))).1
      · exact (hlv d (h child (by simp))).2
      · exact h x (List.mem_append_right _ (List.mem_cons_of_mem _ hx))
  · rw [inorder_view _ _ _ _ _ hka, inorder_view _ _ _ _ _ hka, hio]
    simp only [List.map_cons, interleave_tail_cons]
    rw [interleave_cons]
    simp

theorem insertNonFull_spec (t : Nat) (ht : 2 ≤ t) (k : Int) :
    ∀ (fuel : Nat) (node : BTreeNode), height node ≤ fuel → rootShape t node = true →
      node.keys.length < 2 * t - 1 →
      ∃ node', insertNonFull t fuel node k = some node' ∧
        rootShape t node' = true ∧
        node.keys.length ≤ node'.keys.length ∧
        ((∀ c ∈ node.children, c.keys.length = 2 * t - 1) →
          node'.keys.length = node.keys.length + 1) ∧
        (∀ d, levels d node = true → levels d node' = true) ∧
        ((inorder node).Sorted (· < ·) →
          (inorder node').Sorted (· ≤ ·) ∧ (inorder node').Perm (k :: inorder node)) := by
  intro fuel
  induction fuel with
  | zero => intro node h; have := height_pos node; omega
  | succ fuel ih =>
    intro node hh hs hnf
    obtain ⟨ks, cs, lf⟩ := node
    simp only at hnf
    cases lf with
    | true =>
      rw [rootShape_leaf] at hs
      obtain ⟨hmax, rfl⟩ := hs
      have hsh := shiftInsert_eq k ks ks.length le_rfl 0
      simp only [List.take_length, List.drop_length] at hsh
      refine ⟨⟨shiftInsert k ks.length (ks ++ [0]), [], true⟩, by simp [insertNonFull], ?_, ?_,
        ?_, ?_, ?_⟩
      · rw [rootShape_leaf, hsh]
        have := scanDown_le k ks ks.length
        simp; omega
      · rw [hsh]; simp
        have := scanDown_le k ks ks.length
        omega
      · intro _
        rw [hsh]; simp
        have := scanDown_le k ks ks.length
        omega
      · intro d hd
        cases d with
        | zero => simp [levels] at hd
        | succ d => rw [levels_leaf] at hd ⊢; exact hd
      · simp only [inorder_leaf, hsh]
        intro hsrt
        obtain ⟨hA, hB⟩ := scanDown_bounds k ks _ _ hsrt
          (List.take_append_drop (scanDown k ks ks.length) ks).symm
          (by simp; exact scanDown_le k ks ks.length)
        have := sorted_middle_insert (ks.take (scanDown k ks ks.length)) [] [k]
          (ks.drop (scanDown k ks ks.length)) k (by simpa using hsrt) (List.Perm.refl _)
          (by simp) hA (fun b hb => le_of_lt (hB b hb))
        simpa using this
    | false =>
      have hs0 := hs
      rw [rootShape_internal] at hs
      obtain ⟨hmax, hlen, hch⟩ := hs
      have hple := scanDown_le k ks ks.length
      obtain ⟨ka, kb, rfl, hka⟩ := exists_cut ks (scanDown k ks ks.length) hple
      obtain ⟨ca, child, cb, rfl, hca, hget⟩ :=
        exists_view cs (scanDown k (ka ++ kb) (ka ++ kb).length) (by omega)
      have hcaka : ca.length = ka.length := by omega
      have hcbkb : cb.length = kb.length := by
        simp at hlen; omega
      have hchild : shape t child = true := hch child (by simp)
      have hhc : ∀ c ∈ ca ++ child :: cb, height c ≤ fuel := by
        intro c hc
        have := height_child_lt (n := ⟨ka ++ kb, ca ++ child :: cb, false⟩) hc
        omega
      have hbnd : (inorder ⟨ka ++ kb, ca ++ child :: cb, false⟩).Sorted (· < ·) →
          (∀ x ∈ ka, x ≤ k) ∧ (∀ x ∈ kb, k < x) := by
        intro hsrt
        have hks : (ka ++ kb).Sorted (· < ·) := by
          rw [inorder_mk] at hsrt
          exact List.Pairwise.sublist (keys_sublist_interleave _ _) hsrt
        exact scanDown_bounds k _ ka kb hks rfl hka
      by_cases hfull : child.keys.length = 2 * t - 1
      · obtain ⟨lk, mid, rk, L, R, hsplit, hLk, hRk, hlk, hrk, hL, hR, hhL, hhR, hlv, hio⟩ :=
          splitChild_props t ht ka kb ca cb child false hcaka hchild hfull
        obtain ⟨hrs1, hlv1, hio1⟩ := split_view_props t ka kb ca cb child L R mid hcaka hL hR
          hlv hio
        have hmid : (ka ++ mid :: kb)[ca.length]? = some mid := by
          rw [hcaka]; exact getElem?_view _ _ _
        have hchildh := hhc child (by simp)
        by_cases hlt : mid < k
        · obtain ⟨R', hR', hrsR, hkR, -, hlvR, hordR⟩ := ih R (by omega) (shape_rootShape hR)
            (by rw [hRk]; omega)
          have key := replace_child_insert t k (ka ++ [mid]) kb (ca ++ [L]) cb R R'
            (by simp [hcaka]) hcbkb
            ((shape_iff_root t R').2 ⟨hrsR, by rw [hRk] at hkR; omega⟩) hlvR hordR
          simp only [List.append_assoc, List.singleton_append] at key
          obtain ⟨k1, k2, k3⟩ := key
          refine ⟨⟨ka ++ mid :: kb, ca ++ L :: R' :: cb, false⟩, ?_, k1 (hrs1 hs0 hnf), by simp,
            fun _ => by simp; omega, fun d hd => k2 d (hlv1 d hd), ?_⟩
          · simp only [insertNonFull, ← hca, getElem?_view, hfull, hsplit, hmid, hlt,
              getElem?_view2, hR', set_view2, ↓reduceIte, Bool.false_eq_true]
          · intro hsrt
            obtain ⟨hA, hB⟩ := hbnd hsrt
            rw [← hio1] at hsrt ⊢
            refine k3 hsrt ?_ (fun x hx => le_of_lt (hB x hx))
            intro x hx
            rcases List.mem_append.1 hx with hx | hx
            · exact hA x hx
            · simp at hx; omega
        · obtain ⟨L', hL', hrsL, hkL, -, hlvL, hordL⟩ := ih L (by omega) (shape_rootShape hL)
            (by rw [hLk]; omega)
          have key := replace_child_insert t k ka (mid :: kb) ca (R :: cb) L L'
            hcaka (by simp [hcbkb])
            ((shape_iff_root t L').2 ⟨hrsL, by rw [hLk] at hkL; omega⟩) hlvL hordL
          obtain ⟨k1, k2, k3⟩ := key
          refine ⟨⟨ka ++ mid :: kb, ca ++ L' :: R :: cb, false⟩, ?_, k1 (hrs1 hs0 hnf), by simp,
            fun _ => by simp; omega, fun d hd => k2 d (hlv1 d hd), ?_⟩
          · simp only [insertNonFull, ← hca, getElem?_view, hfull, hsplit, hmid, hlt,
              hL', set_view, ↓reduceIte, Bool.false_eq_true]
          · intro hsrt
            obtain ⟨hA, hB⟩ := hbnd hsrt
            rw [← hio1] at hsrt ⊢
            refine k3 hsrt hA ?_
            intro x hx
            rcases List.mem_cons.1 hx with rfl | hx
            · omega
            · exact le_of_lt (hB x hx)
      · obtain ⟨c', hc', hrsc, hkc, -, hlvc, hordc⟩ := ih child (hhc child (by simp))
          (shape_rootShape hchild)
          (by have := ((shape_iff t child).1 hchild).2.1; omega)
        have key := replace_child_insert t k ka kb ca cb child c' hcaka hcbkb
          ((shape_iff_root t c').2 ⟨hrsc, by have := ((shape_iff t child).1 hchild).1; omega⟩)
          hlvc hordc
        obtain ⟨k1, k2, k3⟩ := key
        refine ⟨⟨ka ++ kb, ca ++ c' :: cb, false⟩, ?_, k1 hs0, by simp,
          fun hall => absurd (hall child (by simp)) hfull, k2, ?_⟩
        · simp only [insertNonFull, ← hca, getElem?_view, hfull, hc', set_view, ↓reduceIte,
            Bool.false_eq_true]
        · intro hsrt
          obtain ⟨hA, hB⟩ := hbnd hsrt
          exact k3 hsrt hA (fun x hx => le_of_lt (hB x hx))

end BTreeNode

namespace BTreeNode

/-! ## Search -/

theorem scanUp_bounds (k : Int) (ka kb : List Int) (hs : (ka ++ kb).Sorted (· < ·))
    (hp : ka.length = scanUp k (ka ++ kb)) :
    (∀ x ∈ ka, x < k) ∧ (∀ x ∈ kb, k ≤ x) ∧
    ((ka ++ kb)[scanUp k (ka ++ kb)]? ≠ some k → ∀ x ∈ kb, k < x) := by
  have hA : ∀ x ∈ ka, x < k := by
    intro x hx
    have := scanUp_take_lt k (ka ++ kb) x
    rw [← hp] at this
    simp only [List.take_left'] at this
    exact this (by simpa using hx)
  have hB : ∀ x ∈ kb, k ≤ x := by
    cases kb with
    | nil => simp
    | cons y kb =>
      have hy : (ka ++ y :: kb)[scanUp k (ka ++ y :: kb)]? = some y := by
        rw [← hp]; exact getElem?_view _ _ _
      have hky := scanUp_get_ge k _ y hy
      have := sorted_getElem_le_drop _ hs _ y hy
      rw [← hp] at this
      simp only [List.drop_left'] at this
      intro x hx
      exact le_trans hky (this x hx)
  refine ⟨hA, hB, ?_⟩
  intro hne x hx
  cases kb with
  | nil => simp at hx
  | cons y kb =>
    have hy : (ka ++ y :: kb)[scanUp k (ka ++ y :: kb)]? = some y := by
      rw [← hp]; exact getElem?_view _ _ _
    have hky := scanUp_get_ge k _ y hy
    have hyk : y ≠ k := by
      intro h; rw [hy, h] at hne; exact hne rfl
    have := sorted_getElem_le_drop _ hs _ y hy
    rw [← hp] at this
    simp only [List.drop_left'] at this
    have := this x hx
    omega

/-- A key that lies strictly between the key bounds of a child can only be in that child. -/
theorem mem_inorder_view (k : Int) (ka kb : List Int) (ca cb : List BTreeNode) (c : BTreeNode)
    (hka : ca.length = ka.length) (hkb : cb.length = kb.length)
    (hs : (inorder ⟨ka ++ kb, ca ++ c :: cb, false⟩).Sorted (· < ·))
    (hA : ∀ x ∈ ka, x < k) (hB : ∀ x ∈ kb, k < x) :
    (∀ x ∈ interleave (ca.map inorder) ka, x < k) ∧
    (∀ x ∈ interleave ([] :: cb.map inorder) kb, k < x) ∧
    (k ∈ inorder ⟨ka ++ kb, ca ++ c :: cb, false⟩ ↔ k ∈ inorder c) := by
  rw [inorder_view _ _ _ _ _ hka] at hs ⊢
  obtain ⟨hAs, hMB, -⟩ := List.pairwise_append.1 hs
  obtain ⟨hMs, hBs, -⟩ := List.pairwise_append.1 hMB
  have h1 : ∀ x ∈ interleave (ca.map inorder) ka, x < k := by
    intro a ha
    obtain ⟨kl, hkl, hle⟩ := interleave_left_le _ _ (by simpa using hka) hAs a ha
    exact lt_of_le_of_lt hle (hA kl hkl)
  have h2 : ∀ x ∈ interleave ([] :: cb.map inorder) kb, k < x := by
    intro b hb
    obtain ⟨kh, hkh, hle⟩ := interleave_right_ge _ _ (by simpa using hkb) hBs b hb
    exact lt_of_lt_of_le (hB kh hkh) hle
  refine ⟨h1, h2, ?_⟩
  simp only [List.mem_append]
  constructor
  · rintro (h | h | h)
    · exact absurd (h1 k h) (lt_irrefl k)
    · exact h
    · exact absurd (h2 k h) (lt_irrefl k)
  · intro h; exact Or.inr (Or.inl h)

theorem keys_sorted_of_inorder {n : BTreeNode} (hs : (inorder n).Sorted (· < ·)) :
    n.keys.Sorted (· < ·) := by
  obtain ⟨ks, cs, lf⟩ := n
  rw [inorder_mk] at hs
  cases lf with
  | true => simpa using hs
  | false => exact List.Pairwise.sublist (keys_sublist_interleave _ _) hs

theorem child_sorted_of_view (ka kb : List Int) (ca cb : List BTreeNode) (c : BTreeNode)
    (hka : ca.length = ka.length)
    (hs : (inorder ⟨ka ++ kb, ca ++ c :: cb, false⟩).Sorted (· < ·)) :
    (inorder c).Sorted (· < ·) := by
  rw [inorder_view _ _ _ _ _ hka] at hs
  exact (List.pairwise_append.1 (List.pairwise_append.1 hs).2.1).1

theorem searchNode_spec (t : Nat) (k : Int) :
    ∀ (fuel : Nat) (node : BTreeNode), height node ≤ fuel → rootShape t node = true →
      (inorder node).Sorted (· < ·) →
      searchNode fuel (some node) k = some (decide (k ∈ inorder node)) := by
  intro fuel
  induction fuel with
  | zero => intro node h; have := height_pos node; omega
  | succ fuel ih =>
    intro node hh hs hsrt
    obtain ⟨ks, cs, lf⟩ := node
    have hks := keys_sorted_of_inorder hsrt
    simp only at hks
    have hple := scanUp_le k ks
    obtain ⟨ka, kb, rfl, hka⟩ := exists_cut ks (scanUp k ks) hple
    obtain ⟨hA, hB, hB'⟩ := scanUp_bounds k ka kb hks hka
    by_cases hfound : (ka ++ kb)[scanUp k (ka ++ kb)]? = some k
    · have hmem : k ∈ ka ++ kb := List.getElem?_mem hfound
      have : k ∈ inorder ⟨ka ++ kb, cs, lf⟩ := by
        rw [inorder_mk]
        cases lf with
        | true => simpa using hmem
        | false =>
          simp only [Bool.false_eq_true, if_false]
          exact (mem_interleave _ _ _).2 (Or.inl hmem)
      simp [searchNode, hfound, this]
    · have hB2 := hB' hfound
      have hnk : k ∉ ka ++ kb := by
        intro h
        rcases List.mem_append.1 h with h | h
        · exact absurd (hA k h) (lt_irrefl k)
        · exact absurd (hB2 k h) (lt_irrefl k)
      cases lf with
      | true =>
        simp only [searchNode, hfound, if_false, if_true, inorder_leaf]
        simp [hnk]
      | false =>
        rw [rootShape_internal] at hs
        obtain ⟨hmax, hlen, hch⟩ := hs
        obtain ⟨ca, c, cb, rfl, hca, hget⟩ := exists_view cs (scanUp k (ka ++ kb)) (by omega)
        have hcaka : ca.length = ka.length := by omega
        have hcbkb : cb.length = kb.length := by simp at hlen; omega
        obtain ⟨-, -, hiff⟩ := mem_inorder_view k ka kb ca cb c hcaka hcbkb hsrt hA hB2
        have hc := ih c
          (by have := height_child_lt (n := ⟨ka ++ kb, ca ++ c :: cb, false⟩) (c := c) (by simp)
              omega)
          (shape_rootShape (hch c (by simp)))
          (child_sorted_of_view ka kb ca cb c hcaka hsrt)
        simp only [searchNode, hfound, if_false, Bool.false_eq_true, hget, hc]
        simp [hiff]

end BTreeNode

namespace BTreeNode

/-! ## `merge`, `borrowFromPrev`, `borrowFromNext` in closed form -/

theorem merge_eq (ka kb : List Int) (ca cb : List BTreeNode) (child sib : BTreeNode)
    (sep : Int) (lf : Bool) (hka : ca.length = ka.length) :
    merge ⟨ka ++ sep :: kb, ca ++ child :: sib :: cb, lf⟩ ca.length =
      some ⟨ka ++ kb,
            ca ++ ⟨child.keys ++ [sep] ++ sib.keys,
                   if child.leaf then child.children else child.children ++ sib.children,
                   child.leaf⟩ :: cb, lf⟩ := by
  have h1 : (ka ++ sep :: kb)[ca.length]? = some sep := by
    rw [hka]; exact getElem?_view _ _ _
  have h2 : (ka ++ sep :: kb).eraseIdx ca.length = ka ++ kb := by
    rw [hka]; exact eraseIdx_view _ _ _
  simp only [merge, getElem?_view, getElem?_view2, h1, vecErase, set_view]
  rw [if_pos (by simp [hka]), if_pos (by simp)]
  simp only [h2, Option.some.injEq, BTreeNode.mk.injEq, and_true, true_and]
  rw [List.eraseIdx_append_of_length_le (by omega)]
  simp

theorem borrowFromNext_eq (ka kb : List Int) (ca cb : List BTreeNode) (ck : List Int)
    (ccs : List BTreeNode) (clf : Bool) (up : Int) (sk : List Int) (moved : List BTreeNode)
    (sc : List BTreeNode) (slf : Bool) (sep : Int) (lf : Bool) (hka : ca.length = ka.length)
    (hm : clf = false → moved.length = 1) :
    borrowFromNext ⟨ka ++ sep :: kb,
        ca ++ ⟨ck, ccs, clf⟩ :: ⟨up :: sk, moved ++ sc, slf⟩ :: cb, lf⟩ ca.length =
      some ⟨ka ++ up :: kb,
            ca ++ ⟨ck ++ [sep], if clf then ccs else ccs ++ moved, clf⟩ ::
              ⟨sk, if clf then moved ++ sc else sc, slf⟩ :: cb, lf⟩ := by
  have h1 : (ka ++ sep :: kb)[ca.length]? = some sep := by
    rw [hka]; exact getElem?_view _ _ _
  have h2 : ∀ y, (ka ++ sep :: kb).set ca.length y = ka ++ y :: kb := by
    intro y; rw [hka]; exact set_view _ _ _ _
  cases clf with
  | true =>
    simp only [borrowFromNext, getElem?_view, getElem?_view2, h1, h2, if_true, set_view,
      set_view2]
  | false =>
    obtain ⟨m, rfl⟩ : ∃ m, moved = [m] := by
      have := hm rfl
      match moved, this with
      | [m], _ => exact ⟨m, rfl⟩
    simp only [borrowFromNext, getElem?_view, getElem?_view2, h1, h2, set_view, set_view2,
      Bool.false_eq_true, if_false, List.singleton_append]

theorem borrowFromPrev_eq (ka kb : List Int) (ca cb : List BTreeNode) (ck : List Int)
    (ccs : List BTreeNode) (clf : Bool) (up : Int) (sk : List Int) (moved : List BTreeNode)
    (sc : List BTreeNode) (slf : Bool) (sep : Int) (lf : Bool) (hka : ca.length = ka.length)
    (hm : clf = false → moved.length = 1) :
    borrowFromPrev ⟨ka ++ sep :: kb,
        ca ++ ⟨sk ++ [up], sc ++ moved, slf⟩ :: ⟨ck, ccs, clf⟩ :: cb, lf⟩ (ca.length + 1) =
      some ⟨ka ++ up :: kb,
            ca ++ ⟨sk, if clf then sc ++ moved else sc, slf⟩ ::
              ⟨sep :: ck, if clf then ccs else moved ++ ccs, clf⟩ :: cb, lf⟩ := by
  have h1 : (ka ++ sep :: kb)[ca.length]? = some sep := by
    rw [hka]; exact getElem?_view _ _ _
  have h2 : ∀ y, (ka ++ sep :: kb).set ca.length y = ka ++ y :: kb := by
    intro y; rw [hka]; exact set_view _ _ _ _
  cases clf with
  | true =>
    simp only [borrowFromPrev, getElem?_view, getElem?_view2, h1, h2, if_true, set_view,
      set_view2, Nat.add_sub_cancel, Nat.add_one_ne_zero, if_false]
    simp
  | false =>
    obtain ⟨m, rfl⟩ : ∃ m, moved = [m] := by
      have := hm rfl
      match moved, this with
      | [m], _ => exact ⟨m, rfl⟩
    simp only [borrowFromPrev, getElem?_view, getElem?_view2, h1, h2, set_view, set_view2,
      Bool.false_eq_true, if_false, List.singleton_append, Nat.add_sub_cancel,
      Nat.add_one_ne_zero]
    simp

end BTreeNode

namespace BTreeNode

/-! ## Rebalancing steps preserve the invariants -/

theorem leaf_iff_of_levels (t : Nat) (d : Nat) (n : BTreeNode) (hs : rootShape t n = true)
    (hl : levels (d + 1) n = true) : n.leaf = true ↔ d = 0 := by
  rw [levels_succ] at hl
  rw [rootShape_iff] at hs
  constructor
  · exact hl.1
  · intro hd
    by_contra hlf
    have hlf' : n.leaf = false := by simpa using hlf
    have hlen := hs.2.2.1 hlf'
    have hne : n.children ≠ [] := by
      intro h0; rw [h0] at hlen; simp at hlen
    obtain ⟨c, hc⟩ := List.exists_mem_of_ne_nil _ hne
    have := hl.2 hlf' c hc
    rw [hd] at this
    simp [levels] at this

theorem same_leaf_of_levels (t : Nat) (d : Nat) (a b : BTreeNode) (ha : rootShape t a = true)
    (hb : rootShape t b = true) (hla : levels d a = true) (hlb : levels d b = true) :
    a.leaf = b.leaf := by
  cases d with
  | zero => simp [levels] at hla
  | succ d =>
    have h1 := leaf_iff_of_levels t d a ha hla
    have h2 := leaf_iff_of_levels t d b hb hlb
    cases ha' : a.leaf <;> cases hb' : b.leaf <;> simp_all

theorem merge_view_props (t : Nat) (ka kb : List Int) (ca cb : List BTreeNode)
    (x y m : BTreeNode) (sep : Int) (hka : ca.length = ka.length) (hm : shape t m = true)
    (hio : inorder m = inorder x ++ sep :: inorder y) :
    (rootShape t ⟨ka ++ sep :: kb, ca ++ x :: y :: cb, false⟩ = true →
      rootShape t ⟨ka ++ kb, ca ++ m :: cb, false⟩ = true) ∧
    (∀ d, levels d m = true → levels (d + 1) ⟨ka ++ sep :: kb, ca ++ x :: y :: cb, false⟩ = true →
      levels (d + 1) ⟨ka ++ kb, ca ++ m :: cb, false⟩ = true) ∧
    inorder ⟨ka ++ kb, ca ++ m :: cb, false⟩ =
      inorder ⟨ka ++ sep :: kb, ca ++ x :: y :: cb, false⟩ := by
  refine ⟨?_, ?_, ?_⟩
  · simp only [rootShape_internal]
    rintro ⟨h1, h2, h3⟩
    refine ⟨by simp at h1 ⊢; omega, by simp at h2 ⊢; omega, ?_⟩
    intro c hc
    simp only [List.mem_append, List.mem_cons] at hc
    rcases hc with hc | rfl | hc
    · exact h3 c (List.mem_append_left _ hc)
    · exact hm
    · exact h3 c (by simp [hc])
  · intro d hdm
    simp only [levels_internal]
    intro h c hc
    simp only [List.mem_append, List.mem_cons] at hc
    rcases hc with hc | rfl | hc
    · exact h c (List.mem_append_left _ hc)
    · exact hdm
    · exact h c (by simp [hc])
  · rw [inorder_view _ _ _ _ _ hka, inorder_view _ _ _ _ _ hka, hio]
    simp only [List.map_cons, interleave_tail_cons]
    rw [interleave_cons (inorder y)]
    simp

theorem replace_two_shape (t : Nat) (ka kb : List Int) (ca cb : List BTreeNode)
    (x y x' y' : BTreeNode) (sep up : Int)
    (hx' : shape t x' = true) (hy' : shape t y' = true) :
    (rootShape t ⟨ka ++ sep :: kb, ca ++ x :: y :: cb, false⟩ = true →
      rootShape t ⟨ka ++ up :: kb, ca ++ x' :: y' :: cb, false⟩ = true) ∧
    (∀ d, levels d x' = true → levels d y' = true →
      levels (d + 1) ⟨ka ++ sep :: kb, ca ++ x :: y :: cb, false⟩ = true →
      levels (d + 1) ⟨ka ++ up :: kb, ca ++ x' :: y' :: cb, false⟩ = true) := by
  refine ⟨?_, ?_⟩
  · simp only [rootShape_internal]
    rintro ⟨h1, h2, h3⟩
    refine ⟨by simp at h1 ⊢; omega, by simp at h2 ⊢; omega, ?_⟩
    intro c hc
    simp only [List.mem_append, List.mem_cons] at hc
    rcases hc with hc | rfl | rfl | hc
    · exact h3 c (List.mem_append_left _ hc)
    · exact hx'
    · exact hy'
    · exact h3 c (by simp [hc])
  · intro d hdx hdy
    simp only [levels_internal]
    intro h c hc
    simp only [List.mem_append, List.mem_cons] at hc
    rcases hc with hc | rfl | rfl | hc
    · exact h c (List.mem_append_left _ hc)
    · exact hdx
    · exact hdy
    · exact h c (by simp [hc])

theorem replace_two (t : Nat) (ka kb : List Int) (ca cb : List BTreeNode)
    (x y x' y' : BTreeNode) (sep up : Int) (hka : ca.length = ka.length)
    (hx' : shape t x' = true) (hy' : shape t y' = true)
    (hio : inorder x' ++ up :: inorder y' = inorder x ++ sep :: inorder y) :
    (rootShape t ⟨ka ++ sep :: kb, ca ++ x :: y :: cb, false⟩ = true →
      rootShape t ⟨ka ++ up :: kb, ca ++ x' :: y' :: cb, false⟩ = true) ∧
    (∀ d, levels d x' = true → levels d y' = true →
      levels (d + 1) ⟨ka ++ sep :: kb, ca ++ x :: y :: cb, false⟩ = true →
      levels (d + 1) ⟨ka ++ up :: kb, ca ++ x' :: y' :: cb, false⟩ = true) ∧
    inorder ⟨ka ++ up :: kb, ca ++ x' :: y' :: cb, false⟩ =
      inorder ⟨ka ++ sep :: kb, ca ++ x :: y :: cb, false⟩ := by
  obtain ⟨h1, h2⟩ := replace_two_shape t ka kb ca cb x y x' y' sep up hx' hy'
  refine ⟨h1, h2, ?_⟩
  rw [inorder_view _ _ _ _ _ hka, inorder_view _ _ _ _ _ hka]
  simp only [List.map_cons, interleave_tail_cons]
  rw [interleave_cons (inorder y'), interleave_cons (inorder y)]
  have : ∀ T : List Int, inorder x' ++ up :: (inorder y' ++ T) =
      inorder x ++ sep :: (inorder y ++ T) := by
    intro T
    have := congrArg (· ++ T) hio
    simpa using this
  rw [this]

/-- The node produced by `merge` from two siblings with `t-1` keys each. -/
theorem merged_props (t : Nat) (ht : 2 ≤ t) (d : Nat) (child sib : BTreeNode) (sep : Int)
    (hc : shape t child = true) (hsb : shape t sib = true)
    (hsum : child.keys.length + sib.keys.length + 1 ≤ 2 * t - 1)
    (hlc : levels d child = true) (hls : levels d sib = true) :
    shape t ⟨child.keys ++ [sep] ++ sib.keys,
      if child.leaf then child.children else child.children ++ sib.children, child.leaf⟩ = true ∧
    levels d ⟨child.keys ++ [sep] ++ sib.keys,
      if child.leaf then child.children else child.children ++ sib.children, child.leaf⟩ = true ∧
    inorder ⟨child.keys ++ [sep] ++ sib.keys,
      if child.leaf then child.children else child.children ++ sib.children, child.leaf⟩ =
      inorder child ++ sep :: inorder sib := by
  have hsame := same_leaf_of_levels t d child sib (shape_rootShape hc) (shape_rootShape hsb)
    hlc hls
  obtain ⟨ck, cc, clf⟩ := child
  obtain ⟨sk, sc, slf⟩ := sib
  simp only at hsame hsum
  subst hsame
  rw [shape_iff] at hc hsb
  simp only at hc hsb
  obtain ⟨c1, c2, c3, c4, c5⟩ := hc
  obtain ⟨s1, s2, s3, s4, s5⟩ := hsb
  cases clf with
  | true =>
    have := c3 rfl; subst this
    have := s3 rfl; subst this
    refine ⟨?_, ?_, ?_⟩
    · rw [shape_iff]; simp; omega
    · cases d with
      | zero => simp [levels] at hlc
      | succ d => rw [levels_leaf] at hlc ⊢; exact hlc
    · simp [inorder_leaf]
  | false =>
    have hcl := c4 rfl
    have hsl := s4 rfl
    refine ⟨?_, ?_, ?_⟩
    · rw [shape_iff]
      refine ⟨by simp; omega, by simp; omega, by simp, by simp; omega, ?_⟩
      intro c hcm
      simp only [Bool.false_eq_true, if_false, List.mem_append] at hcm
      rcases hcm with h | h
      · exact c5 c h
      · exact s5 c h
    · cases d with
      | zero => simp [levels] at hlc
      | succ d =>
        rw [levels_internal] at hlc hls ⊢
        intro c hcm
        simp only [Bool.false_eq_true, if_false, List.mem_append] at hcm
        rcases hcm with h | h
        · exact hlc c h
        · exact hls c h
    · simp only [Bool.false_eq_true, if_false, List.append_assoc, List.singleton_append]
      exact inorder_join ck sk sep cc sc hcl

end BTreeNode

namespace BTreeNode

theorem inorder_single (m : BTreeNode) : inorder ⟨[], [m], false⟩ = inorder m := by
  simp [inorder_mk, interleave]

theorem merge_step (t : Nat) (ht : 2 ≤ t) (d : Nat) (ka kb : List Int) (ca cb : List BTreeNode)
    (child sib : BTreeNode) (sep : Int) (hka : ca.length = ka.length)
    (hrs : rootShape t ⟨ka ++ sep :: kb, ca ++ child :: sib :: cb, false⟩ = true)
    (hlv : levels (d + 1) ⟨ka ++ sep :: kb, ca ++ child :: sib :: cb, false⟩ = true)
    (hck : child.keys.length < t) (hsk : sib.keys.length < t) :
    ∃ m, merge ⟨ka ++ sep :: kb, ca ++ child :: sib :: cb, false⟩ ca.length =
        some ⟨ka ++ kb, ca ++ m :: cb, false⟩ ∧
      shape t m = true ∧ t ≤ m.keys.length ∧ levels d m = true ∧
      rootShape t ⟨ka ++ kb, ca ++ m :: cb, false⟩ = true ∧
      levels (d + 1) ⟨ka ++ kb, ca ++ m :: cb, false⟩ = true ∧
      inorder ⟨ka ++ kb, ca ++ m :: cb, false⟩ =
        inorder ⟨ka ++ sep :: kb, ca ++ child :: sib :: cb, false⟩ := by
  have hch := ((rootShape_internal t _ _).1 hrs).2.2
  have hlall := (levels_internal d _ _).1 hlv
  have hc := hch child (by simp)
  have hsb := hch sib (by simp)
  have hc1 := ((shape_iff t child).1 hc).1
  have hs1 := ((shape_iff t sib).1 hsb).1
  obtain ⟨m1, m2, m3⟩ := merged_props t ht d child sib sep hc hsb (by omega)
    (hlall child (by simp)) (hlall sib (by simp))
  obtain ⟨v1, v2, v3⟩ := merge_view_props t ka kb ca cb child sib _ sep hka m1 m3
  exact ⟨_, merge_eq ka kb ca cb child sib sep false hka, m1, by simp; omega, m2, v1 hrs,
    v2 d m2 hlv, v3⟩

theorem borrowFromNext_step (t : Nat) (ht : 2 ≤ t) (d : Nat) (ka kb : List Int)
    (ca cb : List BTreeNode) (child sib : BTreeNode) (sep : Int) (hka : ca.length = ka.length)
    (hrs : rootShape t ⟨ka ++ sep :: kb, ca ++ child :: sib :: cb, false⟩ = true)
    (hlv : levels (d + 1) ⟨ka ++ sep :: kb, ca ++ child :: sib :: cb, false⟩ = true)
    (hck : child.keys.length < t) (hsk : t ≤ sib.keys.length) :
    ∃ up child' sib',
      borrowFromNext ⟨ka ++ sep :: kb, ca ++ child :: sib :: cb, false⟩ ca.length =
        some ⟨ka ++ up :: kb, ca ++ child' :: sib' :: cb, false⟩ ∧
      t ≤ child'.keys.length ∧ sep ∈ inorder child' ∧
      rootShape t ⟨ka ++ up :: kb, ca ++ child' :: sib' :: cb, false⟩ = true ∧
      levels (d + 1) ⟨ka ++ up :: kb, ca ++ child' :: sib' :: cb, false⟩ = true ∧
      inorder ⟨ka ++ up :: kb, ca ++ child' :: sib' :: cb, false⟩ =
        inorder ⟨ka ++ sep :: kb, ca ++ child :: sib :: cb, false⟩ := by
  have hch := ((rootShape_internal t _ _).1 hrs).2.2
  have hlall := (levels_internal d _ _).1 hlv
  have hc := hch child (by simp)
  have hsb := hch sib (by simp)
  have hlc := hlall child (by simp)
  have hls := hlall sib (by simp)
  have hsame := same_leaf_of_levels t d child sib (shape_rootShape hc) (shape_rootShape hsb)
    hlc hls
  obtain ⟨ck, cc, clf⟩ := child
  obtain ⟨sk0, sc0, slf⟩ := sib
  simp only at hsame hck hsk
  subst hsame
  rw [shape_iff] at hc hsb
  simp only at hc hsb
  obtain ⟨c1, c2, c3, c4, c5⟩ := hc
  obtain ⟨s1, s2, s3, s4, s5⟩ := hsb
  obtain ⟨up, sk, rfl⟩ : ∃ up sk, sk0 = up :: sk := by
    cases sk0 with
    | nil => simp at hsk; omega
    | cons a b => exact ⟨a, b, rfl⟩
  simp only [List.length_cons] at hsk s1 s2 s4
  cases clf with
  | true =>
    have := c3 rfl; subst this
    have := s3 rfl; subst this
    have heq := borrowFromNext_eq ka kb ca cb ck [] true up sk [] [] true sep false hka (by simp)
    simp only [List.append_nil, if_true] at heq
    have hx' : shape t ⟨ck ++ [sep], [], true⟩ = true := by rw [shape_iff]; simp; omega
    have hy' : shape t ⟨sk, [], true⟩ = true := by rw [shape_iff]; simp; omega
    obtain ⟨v1, v2, v3⟩ := replace_two t ka kb ca cb ⟨ck, [], true⟩ ⟨up :: sk, [], true⟩
      ⟨ck ++ [sep], [], true⟩ ⟨sk, [], true⟩ sep up hka hx' hy' (by simp [inorder_leaf])
    refine ⟨up, _, _, heq, by simp; omega, by simp [inorder_leaf], v1 hrs, ?_, v3⟩
    cases d with
    | zero => simp [levels] at hlc
    | succ d =>
      refine v2 _ ?_ ?_ hlv
      · rw [levels_leaf] at hlc ⊢; exact hlc
      · rw [levels_leaf] at hls ⊢; exact hls
  | false =>
    have hcl := c4 rfl
    have hsl := s4 rfl
    obtain ⟨m, sc, rfl⟩ : ∃ m sc, sc0 = m :: sc := by
      cases sc0 with
      | nil => simp at hsl
      | cons a b => exact ⟨a, b, rfl⟩
    simp only [List.length_cons] at hsl
    have heq := borrowFromNext_eq ka kb ca cb ck cc false up sk [m] sc false sep false hka
      (by simp)
    simp only [List.singleton_append, Bool.false_eq_true, if_false] at heq
    have hx' : shape t ⟨ck ++ [sep], cc ++ [m], false⟩ = true := by
      rw [shape_iff]
      refine ⟨by simp; omega, by simp; omega, by simp, by simp; omega, ?_⟩
      intro c hcm
      simp only [List.mem_append, List.mem_singleton] at hcm
      rcases hcm with h | rfl
      · exact c5 c h
      · exact s5 c (by simp)
    have hy' : shape t ⟨sk, sc, false⟩ = true := by
      rw [shape_iff]
      refine ⟨by simp; omega, by simp; omega, by simp, by simp; omega, ?_⟩
      intro c hcm
      exact s5 c (List.mem_cons_of_mem _ hcm)
    have hio1 : inorder ⟨ck ++ [sep], cc ++ [m], false⟩ =
        inorder ⟨ck, cc, false⟩ ++ sep :: inorder m := by
      rw [inorder_join ck [] sep cc [m] hcl, inorder_single]
    have hio2 : inorder ⟨up :: sk, m :: sc, false⟩ =
        inorder m ++ up :: inorder ⟨sk, sc, false⟩ := by
      have := inorder_join [] sk up [m] sc (by simp)
      simpa [inorder_single] using this
    obtain ⟨v1, v2, v3⟩ := replace_two t ka kb ca cb ⟨ck, cc, false⟩ ⟨up :: sk, m :: sc, false⟩
      ⟨ck ++ [sep], cc ++ [m], false⟩ ⟨sk, sc, false⟩ sep up hka hx' hy'
      (by rw [hio1, hio2]; simp)
    refine ⟨up, _, _, heq, by simp; omega, by rw [hio1]; simp, v1 hrs, ?_, v3⟩
    cases d with
    | zero => simp [levels] at hlc
    | succ d =>
      refine v2 _ ?_ ?_ hlv
      · rw [levels_internal] at hlc hls ⊢
        intro c hcm
        simp only [List.mem_append, List.mem_singleton] at hcm
        rcases hcm with h | rfl
        · exact hlc c h
        · exact hls c (by simp)
      · rw [levels_internal] at hls ⊢
        intro c hcm
        exact hls c (List.mem_cons_of_mem _ hcm)

theorem borrowFromPrev_step (t : Nat) (ht : 2 ≤ t) (d : Nat) (ka kb : List Int)
    (ca cb : List BTreeNode) (sib child : BTreeNode) (sep : Int) (hka : ca.length = ka.length)
    (hrs : rootShape t ⟨ka ++ sep :: kb, ca ++ sib :: child :: cb, false⟩ = true)
    (hlv : levels (d + 1) ⟨ka ++ sep :: kb, ca ++ sib :: child :: cb, false⟩ = true)
    (hck : child.keys.length < t) (hsk : t ≤ sib.keys.length) :
    ∃ up sib' child',
      borrowFromPrev ⟨ka ++ sep :: kb, ca ++ sib :: child :: cb, false⟩ (ca.length + 1) =
        some ⟨ka ++ up :: kb, ca ++ sib' :: child' :: cb, false⟩ ∧
      t ≤ child'.keys.length ∧ sep ∈ inorder child' ∧
      rootShape t ⟨ka ++ up :: kb, ca ++ sib' :: child' :: cb, false⟩ = true ∧
      levels (d + 1) ⟨ka ++ up :: kb, ca ++ sib' :: child' :: cb, false⟩ = true ∧
      inorder ⟨ka ++ up :: kb, ca ++ sib' :: child' :: cb, false⟩ =
        inorder ⟨ka ++ sep :: kb, ca ++ sib :: child :: cb, false⟩ := by
  have hch := ((rootShape_internal t _ _).1 hrs).2.2
  have hlall := (levels_internal d _ _).1 hlv
  have hc := hch child (by simp)
  have hsb := hch sib (by simp)
  have hlc := hlall child (by simp)
  have hls := hlall sib (by simp)
  have hsame := same_leaf_of_levels t d child sib (shape_rootShape hc) (shape_rootShape hsb)
    hlc hls
  obtain ⟨ck, cc, clf⟩ := child
  obtain ⟨sk0, sc0, slf⟩ := sib
  simp only at hsame hck hsk
  subst hsame
  rw [shape_iff] at hc hsb
  simp only at hc hsb
  obtain ⟨c1, c2, c3, c4, c5⟩ := hc
  obtain ⟨s1, s2, s3, s4, s5⟩ := hsb
  obtain ⟨sk, up, rfl⟩ : ∃ sk up, sk0 = sk ++ [up] := by
    rcases List.eq_nil_or_concat sk0 with rfl | ⟨a, b, rfl⟩
    · simp at hsk; omega
    · exact ⟨a, b, by simp⟩
  simp only [List.length_append, List.length_singleton] at hsk s1 s2 s4
  cases clf with
  | true =>
    have := c3 rfl; subst this
    have := s3 rfl; subst this
    have heq := borrowFromPrev_eq ka kb ca cb ck [] true up sk [] [] true sep false hka (by simp)
    simp only [List.append_nil, if_true] at heq
    have hx' : shape t ⟨sk, [], true⟩ = true := by rw [shape_iff]; simp; omega
    have hy' : shape t ⟨sep :: ck, [], true⟩ = true := by rw [shape_iff]; simp; omega
    obtain ⟨v1, v2, v3⟩ := replace_two t ka kb ca cb ⟨sk ++ [up], [], true⟩ ⟨ck, [], true⟩
      ⟨sk, [], true⟩ ⟨sep :: ck, [], true⟩ sep up hka hx' hy' (by simp [inorder_leaf])
    refine ⟨up, _, _, heq, by simp; omega, by simp [inorder_leaf], v1 hrs, ?_, v3⟩
    cases d with
    | zero => simp [levels] at hlc
    | succ d =>
      refine v2 _ ?_ ?_ hlv
      · rw [levels_leaf] at hls ⊢; exact hls
      · rw [levels_leaf] at hlc ⊢; exact hlc
  | false =>
    have hcl := c4 rfl
    have hsl := s4 rfl
    obtain ⟨sc, m, rfl⟩ : ∃ sc m, sc0 = sc ++ [m] := by
      rcases List.eq_nil_or_concat sc0 with rfl | ⟨a, b, rfl⟩
      · simp at hsl
      · exact ⟨a, b, by simp⟩
    simp only [List.length_append, List.length_singleton] at hsl
    have heq := borrowFromPrev_eq ka kb ca cb ck cc false up sk [m] sc false sep false hka
      (by simp)
    simp only [List.singleton_append, Bool.false_eq_true, if_false] at heq
    have hx' : shape t ⟨sk, sc, false⟩ = true := by
      rw [shape_iff]
      refine ⟨by simp; omega, by simp; omega, by simp, by simp; omega, ?_⟩
      intro c hcm
      exact s5 c (List.mem_append_left _ hcm)
    have hy' : shape t ⟨sep :: ck, m :: cc, false⟩ = true := by
      rw [shape_iff]
      refine ⟨by simp; omega, by simp; omega, by simp, by simp; omega, ?_⟩
      intro c hcm
      rcases List.mem_cons.1 hcm with rfl | h
      · exact s5 c (by simp)
      · exact c5 c h
    have hio1 : inorder ⟨sk ++ [up], sc ++ [m], false⟩ =
        inorder ⟨sk, sc, false⟩ ++ up :: inorder m := by
      rw [inorder_join sk [] up sc [m] (by omega), inorder_single]
    have hio2 : inorder ⟨sep :: ck, m :: cc, false⟩ =
        inorder m ++ sep :: inorder ⟨ck, cc, false⟩ := by
      have := inorder_join [] ck sep [m] cc (by simp)
      simpa [inorder_single] using this
    obtain ⟨v1, v2, v3⟩ := replace_two t ka kb ca cb ⟨sk ++ [up], sc ++ [m], false⟩
      ⟨ck, cc, false⟩ ⟨sk, sc, false⟩ ⟨sep :: ck, m :: cc, false⟩ sep up hka hx' hy'
      (by rw [hio1, hio2]; simp)
    refine ⟨up, _, _, heq, by simp; omega, by rw [hio2]; simp, v1 hrs, ?_, v3⟩
    cases d with
    | zero => simp [levels] at hlc
    | succ d =>
      refine v2 _ ?_ ?_ hlv
      · rw [levels_internal] at hls ⊢
        intro c hcm
        exact hls c (List.mem_append_left _ hcm)
      · rw [levels_internal] at hlc hls ⊢
        intro c hcm
        rcases List.mem_cons.1 hcm with rfl | h
        · exact hls c (by simp)
        · exact hlc c h

end BTreeNode

namespace BTreeNode

/-! ## `fill` -/

theorem fill_of_prev (t : Nat) (node prev : BTreeNode) (idx : Nat) (h0 : idx ≠ 0)
    (hp : node.children[idx - 1]? = some prev) (hk : t ≤ prev.keys.length) :
    fill t node idx = borrowFromPrev node idx := by
  simp [fill, h0, hp, hk]

theorem fill_of_next (t : Nat) (node next : BTreeNode) (idx : Nat)
    (hprev : idx = 0 ∨ ∃ prev, node.children[idx - 1]? = some prev ∧ prev.keys.length < t)
    (h1 : idx ≠ node.keys.length) (hn : node.children[idx + 1]? = some next)
    (hk : t ≤ next.keys.length) :
    fill t node idx = borrowFromNext node idx := by
  by_cases h0 : idx = 0
  · subst h0
    simp [fill, h1, hn, hk]
  · rcases hprev with h | ⟨prev, hp, hpk⟩
    · exact absurd h h0
    · simp [fill, h0, hp, hpk, h1, hn, hk, Nat.not_le.2 hpk]

theorem fill_of_merge (t : Nat) (node next : BTreeNode) (idx : Nat)
    (hprev : idx = 0 ∨ ∃ prev, node.children[idx - 1]? = some prev ∧ prev.keys.length < t)
    (h1 : idx ≠ node.keys.length) (hn : node.children[idx + 1]? = some next)
    (hk : next.keys.length < t) :
    fill t node idx = merge node idx := by
  by_cases h0 : idx = 0
  · subst h0
    simp [fill, h1, hn, hk, Nat.not_le.2 hk]
  · rcases hprev with h | ⟨prev, hp, hpk⟩
    · exact absurd h h0
    · simp [fill, h0, hp, hpk, h1, hn, hk, Nat.not_le.2 hpk, Nat.not_le.2 hk]

theorem fill_of_merge_last (t : Nat) (node prev : BTreeNode) (idx : Nat) (h0 : idx ≠ 0)
    (hp : node.children[idx - 1]? = some prev) (hpk : prev.keys.length < t)
    (h1 : idx = node.keys.length) :
    fill t node idx = merge node (idx - 1) := by
  simp [fill, h0, hp, hpk, Nat.not_le.2 hpk, ← h1]

theorem view_key_lt_child (ka kb : List Int) (ca cb : List BTreeNode) (c : BTreeNode)
    (hka : ca.length = ka.length)
    (hs : (inorder ⟨ka ++ kb, ca ++ c :: cb, false⟩).Sorted (· < ·)) :
    (∀ x ∈ ka, ∀ y ∈ inorder c, x < y) ∧ (∀ x ∈ kb, ∀ y ∈ inorder c, y < x) := by
  rw [inorder_view _ _ _ _ _ hka] at hs
  obtain ⟨-, hMB, hAMB⟩ := List.pairwise_append.1 hs
  obtain ⟨-, -, hMBr⟩ := List.pairwise_append.1 hMB
  constructor
  · intro x hx y hy
    exact hAMB x ((mem_interleave _ _ _).2 (Or.inl hx)) y (List.mem_append_left _ hy)
  · intro x hx y hy
    exact hMBr y hy x ((mem_interleave _ _ _).2 (Or.inl hx))

/-- What the descent of `removeFromNode` needs after `fill`: the filled node, seen around the
child at the index the code descends into. -/
theorem fill_step_right (t : Nat) (ht : 2 ≤ t) (d : Nat) (k : Int) (ka0 kb1 : List Int)
    (ca0 cb1 : List BTreeNode) (child next : BTreeNode) (sep : Int)
    (hka : ca0.length = ka0.length) (hkb : cb1.length = kb1.length)
    (hrs : rootShape t ⟨ka0 ++ sep :: kb1, ca0 ++ child :: next :: cb1, false⟩ = true)
    (hlv : levels (d + 1) ⟨ka0 ++ sep :: kb1, ca0 ++ child :: next :: cb1, false⟩ = true)
    (hsrt : (inorder ⟨ka0 ++ sep :: kb1, ca0 ++ child :: next :: cb1, false⟩).Sorted (· < ·))
    (hprev : ca0.length = 0 ∨ ∃ prev,
      (ca0 ++ child :: next :: cb1)[ca0.length - 1]? = some prev ∧ prev.keys.length < t)
    (hA : ∀ x ∈ ka0, x < k) (hB : ∀ x ∈ sep :: kb1, k < x) (hck : child.keys.length < t) :
    ∃ ka kb ca c cb,
      fill t ⟨ka0 ++ sep :: kb1, ca0 ++ child :: next :: cb1, false⟩ ca0.length =
        some ⟨ka ++ kb, ca ++ c :: cb, false⟩ ∧
      (if (decide (ca0.length = (ka0 ++ sep :: kb1).length) &&
            decide (ca0.length > (ka ++ kb).length)) = true
        then ca0.length - 1 else ca0.length) = ca.length ∧
      ca.length = ka.length ∧ cb.length = kb.length ∧ t ≤ c.keys.length ∧
      rootShape t ⟨ka ++ kb, ca ++ c :: cb, false⟩ = true ∧
      levels (d + 1) ⟨ka ++ kb, ca ++ c :: cb, false⟩ = true ∧
      inorder ⟨ka ++ kb, ca ++ c :: cb, false⟩ =
        inorder ⟨ka0 ++ sep :: kb1, ca0 ++ child :: next :: cb1, false⟩ ∧
      (ka0 ++ sep :: kb1).length ≤ (ka ++ kb).length + 1 ∧
      (∀ x ∈ ka, x < k) ∧ (∀ x ∈ kb, k < x) := by
  have hidx : ca0.length ≠ (ka0 ++ sep :: kb1).length := by simp; omega
  have hnx : (ca0 ++ child :: next :: cb1)[ca0.length + 1]? = some next := getElem?_view2 _ _ _ _
  by_cases hnext : t ≤ next.keys.length
  · obtain ⟨up, child', sib', heq, h1, h2, h3, h4, h5⟩ :=
      borrowFromNext_step t ht d ka0 kb1 ca0 cb1 child next sep hka hrs hlv hck hnext
    refine ⟨ka0, up :: kb1, ca0, child', sib' :: cb1, ?_, ?_, hka, by simp [hkb], h1,
      h3, h4, h5, by simp, hA, ?_⟩
    · rw [fill_of_next t _ next _ hprev hidx hnx hnext, heq]
    · rw [if_neg]; simp; omega
    · have hsrt' := hsrt
      rw [← h5] at hsrt'
      have := (view_key_lt_child ka0 (up :: kb1) ca0 (sib' :: cb1) child' hka hsrt').2 up
        (by simp) sep h2
      intro x hx
      rcases List.mem_cons.1 hx with rfl | hx
      · have := hB sep (by simp); omega
      · exact hB x (by simp [hx])
  · obtain ⟨m, heq, h1, h2, h3, h4, h5, h6⟩ :=
      merge_step t ht d ka0 kb1 ca0 cb1 child next sep hka hrs hlv hck (by omega)
    refine ⟨ka0, kb1, ca0, m, cb1, ?_, ?_, hka, hkb, h2, h4, h5, h6, by simp; omega, hA,
      fun x hx => hB x (by simp [hx])⟩
    · rw [fill_of_merge t _ next _ hprev hidx hnx (by omega), heq]
    · rw [if_neg]; simp; omega

theorem fill_step (t : Nat) (ht : 2 ≤ t) (d : Nat) (k : Int) (ka0 kb0 : List Int)
    (ca0 cb0 : List BTreeNode) (child : BTreeNode)
    (hka : ca0.length = ka0.length) (hkb : cb0.length = kb0.length)
    (hrs : rootShape t ⟨ka0 ++ kb0, ca0 ++ child :: cb0, false⟩ = true)
    (hlv : levels (d + 1) ⟨ka0 ++ kb0, ca0 ++ child :: cb0, false⟩ = true)
    (hsrt : (inorder ⟨ka0 ++ kb0, ca0 ++ child :: cb0, false⟩).Sorted (· < ·))
    (hne : ka0 ++ kb0 ≠ [])
    (hA : ∀ x ∈ ka0, x < k) (hB : ∀ x ∈ kb0, k < x) (hck : child.keys.length < t) :
    ∃ ka kb ca c cb,
      fill t ⟨ka0 ++ kb0, ca0 ++ child :: cb0, false⟩ ca0.length =
        some ⟨ka ++ kb, ca ++ c :: cb, false⟩ ∧
      (if (decide (ca0.length = (ka0 ++ kb0).length) &&
            decide (ca0.length > (ka ++ kb).length)) = true
        then ca0.length - 1 else ca0.length) = ca.length ∧
      ca.length = ka.length ∧ cb.length = kb.length ∧ t ≤ c.keys.length ∧
      rootShape t ⟨ka ++ kb, ca ++ c :: cb, false⟩ = true ∧
      levels (d + 1) ⟨ka ++ kb, ca ++ c :: cb, false⟩ = true ∧
      inorder ⟨ka ++ kb, ca ++ c :: cb, false⟩ =
        inorder ⟨ka0 ++ kb0, ca0 ++ child :: cb0, false⟩ ∧
      (ka0 ++ kb0).length ≤ (ka ++ kb).length + 1 ∧
      (∀ x ∈ ka, x < k) ∧ (∀ x ∈ kb, k < x) := by
  rcases List.eq_nil_or_concat ca0 with rfl | ⟨ca1, prev, rfl⟩
  · -- no left sibling
    have hka0 : ka0 = [] := by simpa using hka.symm
    subst hka0
    cases kb0 with
    | nil => simp at hne
    | cons sep kb1 =>
      cases cb0 with
      | nil => simp at hkb
      | cons next cb1 =>
        exact fill_step_right t ht d k [] kb1 [] cb1 child next sep rfl (by simpa using hkb)
          hrs hlv hsrt (Or.inl rfl) hA hB hck
  · rcases List.eq_nil_or_concat ka0 with rfl | ⟨ka1, sep, rfl⟩
    · simp at hka
    · simp only [List.concat_eq_append] at *
      have hka1 : ca1.length = ka1.length := by simpa using hka
      have hprevget : ((ca1 ++ [prev]) ++ child :: cb0)[(ca1 ++ [prev]).length - 1]? =
          some prev := by
        have : (ca1 ++ [prev]).length - 1 = ca1.length := by simp
        rw [this, List.append_assoc]
        exact getElem?_view _ _ _
      by_cases hprev : t ≤ prev.keys.length
      · -- borrow from the left sibling
        have e1 : (ka1 ++ [sep]) ++ kb0 = ka1 ++ sep :: kb0 := by simp
        have e2 : (ca1 ++ [prev]) ++ child :: cb0 = ca1 ++ prev :: child :: cb0 := by simp
        rw [e1, e2] at hrs hlv hsrt
        obtain ⟨up, sib', child', heq, h1, h2, h3, h4, h5⟩ :=
          borrowFromPrev_step t ht d ka1 kb0 ca1 cb0 prev child sep hka1 hrs hlv hck hprev
        have e3 : ka1 ++ up :: kb0 = (ka1 ++ [up]) ++ kb0 := by simp
        have e4 : ca1 ++ sib' :: child' :: cb0 = (ca1 ++ [sib']) ++ child' :: cb0 := by simp
        rw [e3, e4] at heq h3 h4 h5
        refine ⟨ka1 ++ [up], kb0, ca1 ++ [sib'], child', cb0, ?_, ?_, by simp [hka1], hkb, h1,
          h3, h4, ?_, by simp, ?_, hB⟩
        · rw [fill_of_prev t _ prev _ (by simp) hprevget hprev, e1, e2]
          simpa using heq
        · rw [if_neg]; simp; simp; omega
        · rw [h5, e1, e2]
        · have hsrt' := hsrt
          rw [← h5] at hsrt'
          have := (view_key_lt_child (ka1 ++ [up]) kb0 (ca1 ++ [sib']) cb0 child'
            (by simp [hka1]) hsrt').1 up (by simp) sep h2
          intro x hx
          rcases List.mem_append.1 hx with hx | hx
          · exact hA x (by simp [hx])
          · simp at hx; subst hx
            have := hA sep (by simp); omega
      · cases kb0 with
        | cons sep2 kb1 =>
          cases cb0 with
          | nil => simp at hkb
          | cons next cb1 =>
            exact fill_step_right t ht d k (ka1 ++ [sep]) kb1 (ca1 ++ [prev]) cb1 child next sep2
              hka (by simpa using hkb) hrs hlv hsrt (Or.inr ⟨prev, hprevget, by omega⟩) hA hB hck
        | nil =>
          have hcb : cb0 = [] := by simpa using hkb
          subst hcb
          have e1 : (ka1 ++ [sep]) ++ [] = ka1 ++ sep :: [] := by simp
          have e2 : (ca1 ++ [prev]) ++ [child] = ca1 ++ prev :: child :: [] := by simp
          rw [e1, e2] at hrs hlv hsrt
          obtain ⟨m, heq, h1, h2, h3, h4, h5, h6⟩ :=
            merge_step t ht d ka1 [] ca1 [] prev child sep hka1 hrs hlv (by omega) hck
          refine ⟨ka1, [], ca1, m, [], ?_, ?_, hka1, rfl, h2, h4, h5, ?_, by simp,
            fun x hx => hA x (by simp [hx]), by simp⟩
          · rw [fill_of_merge_last t _ prev _ (by simp) hprevget (by omega) (by simp [hka1]),
              e1, e2]
            simpa using heq
          · rw [if_pos]; simp; simp [hka1]
          · rw [h6, e1, e2]

end BTreeNode

namespace BTreeNode

/-! ## Removing one key from a strictly sorted list -/

theorem filter_ne_self (k : Int) (A : List Int) (h : ∀ a ∈ A, a ≠ k) :
    A.filter (fun x => decide (x ≠ k)) = A := by
  rw [List.filter_eq_self]
  intro a ha
  simpa using h a ha

theorem filter_middle (k : Int) (A M T : List Int) (hA : ∀ a ∈ A, a ≠ k)
    (hT : ∀ b ∈ T, b ≠ k) :
    (A ++ (M ++ T)).filter (fun x => decide (x ≠ k)) =
      A ++ (M.filter (fun x => decide (x ≠ k)) ++ T) := by
  rw [List.filter_append, List.filter_append, filter_ne_self k A hA, filter_ne_self k T hT]

theorem filter_ne_mid (k : Int) (X Y : List Int) (hs : (X ++ k :: Y).Sorted (· < ·)) :
    (X ++ k :: Y).filter (fun x => decide (x ≠ k)) = X ++ Y := by
  obtain ⟨-, hY, hXY⟩ := List.pairwise_append.1 hs
  have hX : ∀ a ∈ X, a ≠ k := fun a ha => ne_of_lt (hXY a ha k (by simp))
  have hY' : ∀ b ∈ Y, b ≠ k := fun b hb => ne_of_gt (List.rel_of_sorted_cons hY b hb)
  rw [List.filter_append, List.filter_cons, filter_ne_self k X hX, filter_ne_self k Y hY']
  simp

theorem filter_sorted (k : Int) (l : List Int) (hs : l.Sorted (· < ·)) :
    (l.filter (fun x => decide (x ≠ k))).Sorted (· < ·) :=
  List.Pairwise.sublist (List.filter_sublist l) hs

/-! ## More views -/

theorem inorder_view2 (ka kb : List Int) (ca cb : List BTreeNode) (x y : BTreeNode)
    (sep : Int) (hka : ca.length = ka.length) :
    inorder ⟨ka ++ sep :: kb, ca ++ x :: y :: cb, false⟩ =
      interleave (ca.map inorder) ka ++
        (inorder x ++ sep :: (inorder y ++ interleave ([] :: cb.map inorder) kb)) := by
  rw [inorder_view _ _ _ _ _ hka]
  simp only [List.map_cons, interleave_tail_cons]
  rw [interleave_cons (inorder y)]

theorem replace_child (t : Nat) (ks : List Int) (ca cb : List BTreeNode) (c c' : BTreeNode)
    (hc' : shape t c' = true) :
    (rootShape t ⟨ks, ca ++ c :: cb, false⟩ = true →
      rootShape t ⟨ks, ca ++ c' :: cb, false⟩ = true) ∧
    (∀ d, levels d c' = true → levels (d + 1) ⟨ks, ca ++ c :: cb, false⟩ = true →
      levels (d + 1) ⟨ks, ca ++ c' :: cb, false⟩ = true) := by
  constructor
  · simp only [rootShape_internal]
    rintro ⟨h1, h2, h3⟩
    refine ⟨h1, by simpa using h2, ?_⟩
    intro x hx
    simp only [List.mem_append, List.mem_cons] at hx
    rcases hx with hx | rfl | hx
    · exact h3 x (List.mem_append_left _ hx)
    · exact hc'
    · exact h3 x (by simp [hx])
  · intro d hd
    simp only [levels_internal]
    intro h x hx
    simp only [List.mem_append, List.mem_cons] at hx
    rcases hx with hx | rfl | hx
    · exact h x (List.mem_append_left _ hx)
    · exact hd
    · exact h x (by simp [hx])

/-! ## Predecessor and successor walks -/

theorem lastKey_spec (t : Nat) (ht : 2 ≤ t) :
    ∀ (fuel d : Nat) (c : BTreeNode), levels d c = true → d ≤ fuel → shape t c = true →
      ∃ pred X, lastKey fuel c = some pred ∧ inorder c = X ++ [pred] := by
  intro fuel
  induction fuel with
  | zero =>
    intro d c hl hd
    have : d = 0 := by omega
    subst this; simp [levels] at hl
  | succ fuel ih =>
    intro d c hl hd hs
    cases d with
    | zero => simp [levels] at hl
    | succ d =>
      obtain ⟨ks, cs, lf⟩ := c
      have hs' := (shape_iff t _).1 hs
      simp only at hs'
      obtain ⟨h1, h2, h3, h4, h5⟩ := hs'
      cases lf with
      | true =>
        rcases List.eq_nil_or_concat ks with rfl | ⟨X, p, rfl⟩
        · simp at h1; omega
        · refine ⟨p, X, ?_, by simp [inorder_leaf]⟩
          simp [lastKey]
      | false =>
        have hlen := h4 rfl
        rcases List.eq_nil_or_concat cs with rfl | ⟨ca, cl, rfl⟩
        · simp at hlen
        · simp only [List.concat_eq_append] at *
          have hca : ca.length = ks.length := by simpa using hlen
          rw [levels_internal] at hl
          obtain ⟨p, X, hp, hX⟩ := ih d cl (hl cl (by simp)) (by omega) (h5 cl (by simp))
          have hget : (ca ++ [cl])[ks.length]? = some cl := by
            rw [← hca]; exact getElem?_view _ _ _
          have hio := inorder_view ks [] ca cl [] hca
          simp only [List.append_nil, List.map_nil, interleave_tail_nil] at hio
          refine ⟨p, interleave (ca.map inorder) ks ++ X, ?_, ?_⟩
          · simp [lastKey, hget, hp]
          · rw [hio, hX]; simp

theorem firstKey_spec (t : Nat) (ht : 2 ≤ t) :
    ∀ (fuel d : Nat) (c : BTreeNode), levels d c = true → d ≤ fuel → shape t c = true →
      ∃ succ Y, firstKey fuel c = some succ ∧ inorder c = succ :: Y := by
  intro fuel
  induction fuel with
  | zero =>
    intro d c hl hd
    have : d = 0 := by omega
    subst this; simp [levels] at hl
  | succ fuel ih =>
    intro d c hl hd hs
    cases d with
    | zero => simp [levels] at hl
    | succ d =>
      obtain ⟨ks, cs, lf⟩ := c
      have hs' := (shape_iff t _).1 hs
      simp only at hs'
      obtain ⟨h1, h2, h3, h4, h5⟩ := hs'
      cases lf with
      | true =>
        cases ks with
        | nil => simp at h1; omega
        | cons p Y =>
          exact ⟨p, Y, by simp [firstKey], by simp [inorder_leaf]⟩
      | false =>
        have hlen := h4 rfl
        cases cs with
        | nil => simp at hlen
        | cons c0 cb =>
          rw [levels_internal] at hl
          obtain ⟨p, Y, hp, hY⟩ := ih d c0 (hl c0 (by simp)) (by omega) (h5 c0 (by simp))
          have hio := inorder_view [] ks [] c0 cb rfl
          simp only [List.nil_append, List.map_nil, interleave_nil_nil] at hio
          refine ⟨p, Y ++ interleave ([] :: cb.map inorder) ks, ?_, ?_⟩
          · simp [firstKey, hp]
          · rw [hio, hY]; simp

end BTreeNode

namespace BTreeNode

/-! ## Removal below a node -/

theorem removeFromNonLeaf_spec (t : Nat) (ht : 2 ≤ t) (fuel d : Nat)
    (recur : BTreeNode → Int → Option BTreeNode) (hd : d ≤ fuel)
    (hrec : ∀ (c : BTreeNode) (k' : Int), levels d c = true → rootShape t c = true →
      (c.leaf = false → c.keys ≠ []) → (inorder c).Sorted (· < ·) →
      ∃ c', recur c k' = some c' ∧ rootShape t c' = true ∧
        c.keys.length ≤ c'.keys.length + 1 ∧ levels d c' = true ∧
        inorder c' = (inorder c).filter (fun x => decide (x ≠ k')))
    (ka kb : List Int) (ca cb : List BTreeNode) (left right : BTreeNode) (k : Int)
    (hka : ca.length = ka.length)
    (hrs : rootShape t ⟨ka ++ k :: kb, ca ++ left :: right :: cb, false⟩ = true)
    (hlv : levels (d + 1) ⟨ka ++ k :: kb, ca ++ left :: right :: cb, false⟩ = true)
    (hsrt : (inorder ⟨ka ++ k :: kb, ca ++ left :: right :: cb, false⟩).Sorted (· < ·)) :
    ∃ node', removeFromNonLeaf t fuel recur
        ⟨ka ++ k :: kb, ca ++ left :: right :: cb, false⟩ ca.length = some node' ∧
      rootShape t node' = true ∧
      (ka ++ k :: kb).length ≤ node'.keys.length + 1 ∧
      levels (d + 1) node' = true ∧
      inorder node' = (inorder ⟨ka ++ k :: kb, ca ++ left :: right :: cb, false⟩).filter
        (fun x => decide (x ≠ k)) := by
  have hch := ((rootShape_internal t _ _).1 hrs).2.2
  have hlall := (levels_internal d _ _).1 hlv
  have hL := hch left (by simp)
  have hR := hch right (by simp)
  have hlL := hlall left (by simp)
  have hlR := hlall right (by simp)
  have hkey : (ka ++ k :: kb)[ca.length]? = some k := by
    rw [hka]; exact getElem?_view _ _ _
  have hset : ∀ y, (ka ++ k :: kb).set ca.length y = ka ++ y :: kb := by
    intro y; rw [hka]; exact set_view _ _ _ _
  have hio := inorder_view2 ka kb ca cb left right k hka
  rw [hio] at hsrt ⊢
  obtain ⟨hAs, hrest, hAr⟩ := List.pairwise_append.1 hsrt
  have hLs : (inorder left).Sorted (· < ·) := (List.pairwise_append.1 hrest).1
  have hRs : (inorder right).Sorted (· < ·) :=
    (List.pairwise_append.1 (List.pairwise_cons.1 (List.pairwise_append.1 hrest).2.1).2).1
  have hfilt : (interleave (ca.map inorder) ka ++ (inorder left ++ k ::
      (inorder right ++ interleave ([] :: cb.map inorder) kb))).filter
        (fun x => decide (x ≠ k)) =
      interleave (ca.map inorder) ka ++ (inorder left ++
        (inorder right ++ interleave ([] :: cb.map inorder) kb)) := by
    have := filter_ne_mid k (interleave (ca.map inorder) ka ++ inorder left)
      (inorder right ++ interleave ([] :: cb.map inorder) kb) (by simpa using hsrt)
    simpa using this
  rw [hfilt]
  by_cases hlk : t ≤ left.keys.length
  · -- replace by the predecessor
    obtain ⟨pred, X, hpred, hX⟩ := lastKey_spec t ht fuel d left hlL hd hL
    obtain ⟨l', hl', hrs', hk', hlv', hio'⟩ := hrec left pred hlL (shape_rootShape hL)
      (fun _ h => by rw [h] at hlk; simp at hlk; omega) hLs
    have hsl' : shape t l' = true := (shape_iff_root t l').2 ⟨hrs', by omega⟩
    have hX' : inorder l' = X := by
      rw [hio', hX]
      have := filter_ne_mid pred X [] (by rw [← hX]; exact hLs)
      simpa using this
    obtain ⟨v1, v2⟩ := replace_two_shape t ka kb ca cb left right l' right k pred hsl' hR
    refine ⟨⟨ka ++ pred :: kb, ca ++ l' :: right :: cb, false⟩, ?_, v1 hrs, by simp,
      v2 d hlv' hlR hlv, ?_⟩
    · simp only [removeFromNonLeaf, hkey, getElem?_view, hlk, ge_iff_le, if_true,
        getPredecessor, hpred, hl', hset, set_view]
    · rw [inorder_view2 _ _ _ _ _ _ _ hka, hX', hX]
      simp
  · have hnl : ¬ (left.keys.length ≥ t) := by omega
    by_cases hrk : t ≤ right.keys.length
    · -- replace by the successor
      obtain ⟨succ, Y, hsucc, hY⟩ := firstKey_spec t ht fuel d right hlR hd hR
      obtain ⟨r', hr', hrs', hk', hlv', hio'⟩ := hrec right succ hlR (shape_rootShape hR)
        (fun _ h => by rw [h] at hrk; simp at hrk; omega) hRs
      have hsr' : shape t r' = true := (shape_iff_root t r').2 ⟨hrs', by omega⟩
      have hY' : inorder r' = Y := by
        rw [hio', hY]
        have := filter_ne_mid succ [] Y (by rw [List.nil_append, ← hY]; exact hRs)
        simpa using this
      obtain ⟨v1, v2⟩ := replace_two_shape t ka kb ca cb left right left r' k succ hL hsr'
      refine ⟨⟨ka ++ succ :: kb, ca ++ left :: r' :: cb, false⟩, ?_, v1 hrs, by simp,
        v2 d hlL hlv' hlv, ?_⟩
      · simp only [removeFromNonLeaf, hkey, getElem?_view, hnl, if_false, getElem?_view2, hrk,
          ge_iff_le, if_true, getSuccessor, hsucc, hr', hset, set_view2]
      · rw [inorder_view2 _ _ _ _ _ _ _ hka, hY', hY]
        simp
    · -- merge the two children around the key and remove it from the merged node
      obtain ⟨m, hm, hsm, hmk, hlm, hrs1, hlv1, hio1⟩ :=
        merge_step t ht d ka kb ca cb left right k hka hrs hlv (by omega) (by omega)
      have hsrt1 : (inorder ⟨ka ++ kb, ca ++ m :: cb, false⟩).Sorted (· < ·) := by
        rw [hio1, hio]; exact hsrt
      obtain ⟨m', hm', hrs', hk', hlv', hio'⟩ := hrec m k hlm (shape_rootShape hsm)
        (fun _ h => by rw [h] at hmk; simp at hmk; omega)
        (child_sorted_of_view ka kb ca cb m hka hsrt1)
      have hsm' : shape t m' = true := (shape_iff_root t m').2 ⟨hrs', by omega⟩
      obtain ⟨v1, v2⟩ := replace_child t (ka ++ kb) ca cb m m' hsm'
      refine ⟨⟨ka ++ kb, ca ++ m' :: cb, false⟩, ?_, v1 hrs1, by simp; omega,
        v2 d hlv' hlv1, ?_⟩
      · simp only [removeFromNonLeaf, hkey, getElem?_view, hnl, if_false, getElem?_view2, hrk,
          ge_iff_le, hm, hm', set_view]
      · have hmio : inorder m = inorder left ++ k :: inorder right := by
          have h1 := inorder_view ka kb ca m cb hka
          rw [hio1, hio] at h1
          have h2 := List.append_cancel_left h1
          have h3 : inorder left ++ k :: inorder right ++
              interleave ([] :: cb.map inorder) kb =
              inorder m ++ interleave ([] :: cb.map inorder) kb := by
            simpa using h2
          exact (List.append_cancel_right h3).symm
        rw [inorder_view _ _ _ _ _ hka, hio', hmio]
        have := filter_ne_mid k (inorder left) (inorder right)
          (by rw [← hmio]; exact child_sorted_of_view ka kb ca cb m hka hsrt1)
        rw [this]; simp

end BTreeNode

namespace BTreeNode

theorem removeFromNode_spec (t : Nat) (ht : 2 ≤ t) :
    ∀ (fuel d : Nat) (node : BTreeNode) (k : Int), levels d node = true → d ≤ fuel →
      rootShape t node = true → (node.leaf = false → node.keys ≠ []) →
      (inorder node).Sorted (· < ·) →
      ∃ node', removeFromNode t fuel node k = some node' ∧
        rootShape t node' = true ∧
        node.keys.length ≤ node'.keys.length + 1 ∧
        levels d node' = true ∧
        inorder node' = (inorder node).filter (fun x => decide (x ≠ k)) := by
  intro fuel
  induction fuel with
  | zero =>
    intro d node k hl hd
    have : d = 0 := by omega
    subst this; simp [levels] at hl
  | succ fuel ih =>
    intro d node k hlv hd hrs hne hsrt
    cases d with
    | zero => simp [levels] at hlv
    | succ d =>
      have hd' : d ≤ fuel := by omega
      obtain ⟨ks, cs, lf⟩ := node
      have hks := keys_sorted_of_inorder hsrt
      simp only at hks hne
      have hple := scanUp_le k ks
      obtain ⟨ka, kb, rfl, hka⟩ := exists_cut ks (scanUp k ks) hple
      obtain ⟨hA, hB, hB'⟩ := scanUp_bounds k ka kb hks hka
      by_cases hfound : (ka ++ kb)[scanUp k (ka ++ kb)]? = some k
      · -- the key is in this node
        obtain ⟨kb', rfl⟩ : ∃ kb', kb = k :: kb' := by
          cases kb with
          | nil =>
            rw [← hka] at hfound; simp at hfound
          | cons y kb' =>
            rw [← hka, getElem?_view] at hfound
            simp only [Option.some.injEq] at hfound
            exact ⟨kb', by rw [hfound]⟩
        cases lf with
        | true =>
          have hcs := ((rootShape_leaf t _ _).1 hrs).2
          subst hcs
          have herase : (ka ++ k :: kb').eraseIdx (scanUp k (ka ++ k :: kb')) = ka ++ kb' := by
            rw [← hka]; exact eraseIdx_view _ _ _
          refine ⟨⟨ka ++ kb', [], true⟩, ?_, ?_, by simp; omega, ?_, ?_⟩
          · simp only [removeFromNode, findKey, hfound, if_true, removeFromLeaf, vecErase]
            rw [if_pos (by rw [← hka]; simp), herase]
          · rw [rootShape_leaf] at hrs ⊢
            simp at hrs ⊢; omega
          · rw [levels_leaf] at hlv ⊢; exact hlv
          · simp only [inorder_leaf] at hsrt ⊢
            exact (filter_ne_mid k ka kb' hsrt).symm
        | false =>
          have hlen := ((rootShape_internal t _ _).1 hrs).2.1
          obtain ⟨ca, left, cb0, rfl, hca, -⟩ :=
            exists_view cs (scanUp k (ka ++ k :: kb')) (by omega)
          have hcaka : ca.length = ka.length := by omega
          obtain ⟨right, cb, rfl⟩ : ∃ right cb, cb0 = right :: cb := by
            cases cb0 with
            | nil => simp at hlen; omega
            | cons a b => exact ⟨a, b, rfl⟩
          obtain ⟨node', h1, h2, h3, h4, h5⟩ := removeFromNonLeaf_spec t ht fuel d
            (removeFromNode t fuel) hd'
            (fun c k' a1 a2 a3 a4 => ih d c k' a1 hd' a2 a3 a4)
            ka kb' ca cb left right k hcaka hrs hlv hsrt
          refine ⟨node', ?_, h2, h3, h4, h5⟩
          have hfound' := hfound
          rw [← hca] at hfound'
          simp only [removeFromNode, findKey, ← hca, hfound', if_true, Bool.false_eq_true,
            if_false, h1]
      · -- the key is not in this node
        have hB2 := hB' hfound
        have hnk : ∀ x ∈ ka ++ kb, x ≠ k := by
          intro x h
          rcases List.mem_append.1 h with h | h
          · exact ne_of_lt (hA x h)
          · exact ne_of_gt (hB2 x h)
        cases lf with
        | true =>
          refine ⟨⟨ka ++ kb, cs, true⟩, ?_, hrs, by simp, hlv, ?_⟩
          · simp only [removeFromNode, findKey, hfound, if_false, if_true]
          · simp only [inorder_leaf]
            exact (filter_ne_self k _ hnk).symm
        | false =>
          have hlen := ((rootShape_internal t _ _).1 hrs).2.1
          have hch := ((rootShape_internal t _ _).1 hrs).2.2
          obtain ⟨ca, child, cb, rfl, hca, hget⟩ :=
            exists_view cs (scanUp k (ka ++ kb)) (by omega)
          have hcaka : ca.length = ka.length := by omega
          have hcbkb : cb.length = kb.length := by simp at hlen; omega
          -- the node after the optional `fill`, seen around the child to descend into
          have hstep : ∃ ka' kb' ca' c cb',
              (if child.keys.length < t then
                  fill t ⟨ka ++ kb, ca ++ child :: cb, false⟩ ca.length
                else some ⟨ka ++ kb, ca ++ child :: cb, false⟩) =
                some ⟨ka' ++ kb', ca' ++ c :: cb', false⟩ ∧
              (if (decide (ca.length = (ka ++ kb).length) &&
                    decide (ca.length > (ka' ++ kb').length)) = true
                then ca.length - 1 else ca.length) = ca'.length ∧
              ca'.length = ka'.length ∧ cb'.length = kb'.length ∧ t ≤ c.keys.length ∧
              rootShape t ⟨ka' ++ kb', ca' ++ c :: cb', false⟩ = true ∧
              levels (d + 1) ⟨ka' ++ kb', ca' ++ c :: cb', false⟩ = true ∧
              inorder ⟨ka' ++ kb', ca' ++ c :: cb', false⟩ =
                inorder ⟨ka ++ kb, ca ++ child :: cb, false⟩ ∧
              (ka ++ kb).length ≤ (ka' ++ kb').length + 1 ∧
              (∀ x ∈ ka', x < k) ∧ (∀ x ∈ kb', k < x) := by
            by_cases hck : child.keys.length < t
            · rw [if_pos hck]
              exact fill_step t ht d k ka kb ca cb child hcaka hcbkb hrs hlv hsrt (hne rfl)
                hA hB2 hck
            · rw [if_neg hck]
              refine ⟨ka, kb, ca, child, cb, rfl, ?_, hcaka, hcbkb, by omega, hrs, hlv, rfl,
                by omega, hA, hB2⟩
              rw [if_neg]; simp; omega
          obtain ⟨ka', kb', ca', c, cb', hfill, hj, hka', hkb', hck, hrs1, hlv1, hio1, hcnt,
            hA', hB'⟩ := hstep
          have hsrt1 : (inorder ⟨ka' ++ kb', ca' ++ c :: cb', false⟩).Sorted (· < ·) := by
            rw [hio1]; exact hsrt
          have hsc := ((rootShape_internal t _ _).1 hrs1).2.2 c (by simp)
          obtain ⟨c', hc', hrsc, hkc, hlvc, hioc⟩ := ih d c k
            ((levels_internal d _ _).1 hlv1 c (by simp)) hd' (shape_rootShape hsc)
            (fun _ h => by rw [h] at hck; simp at hck; omega)
            (child_sorted_of_view ka' kb' ca' cb' c hka' hsrt1)
          have hsc' : shape t c' = true := (shape_iff_root t c').2 ⟨hrsc, by omega⟩
          obtain ⟨v1, v2⟩ := replace_child t (ka' ++ kb') ca' cb' c c' hsc'
          refine ⟨⟨ka' ++ kb', ca' ++ c' :: cb', false⟩, ?_, v1 hrs1, by simpa using hcnt,
            v2 d hlvc hlv1, ?_⟩
          · have hfound' := hfound
            rw [← hca] at hfound'
            simp only [removeFromNode, findKey, ← hca, hfound', if_false, Bool.false_eq_true,
              getElem?_view, hfill, hj, hc', set_view]
          · obtain ⟨b1, b2, -⟩ := mem_inorder_view k ka' kb' ca' cb' c hka' hkb' hsrt1 hA' hB'
            rw [← hio1, inorder_view _ _ _ _ _ hka', inorder_view _ _ _ _ _ hka', hioc]
            exact (filter_middle k _ _ _ (fun a ha => ne_of_lt (b1 a ha))
              (fun b hb => ne_of_gt (b2 b hb))).symm

end BTreeNode

namespace BTree
open BTreeNode

/-! ## The public operations -/

theorem search_spec (tr : BTree) (k : Int) (h : tr.NodeInv) :
    tr.search k = some (decide (k ∈ tr.inorder)) := by
  obtain ⟨t, root⟩ := tr
  cases root with
  | none => simp [search, searchNode, inorder]
  | some r =>
    obtain ⟨h1, h2⟩ := h
    simp only [search, height, inorder] at h2 ⊢
    exact searchNode_spec t k r.height r le_rfl (h1 r rfl) h2

theorem insert_full_eq (tr : BTree) (root : BTreeNode) (k : Int) (hr : tr.root = some root)
    (hfull : root.keys.length = 2 * tr.t - 1) :
    tr.insert k =
      (insertNonFull tr.t (root.height + 1) ⟨[], [root], false⟩ k).map
        (fun r' => ⟨tr.t, some r'⟩) := by
  simp only [insert, hr, hfull, if_true, insertNonFull, scanDown, List.length_nil,
    Bool.false_eq_true, if_false, List.getElem?_cons_zero, Nat.zero_add]
  cases splitChild tr.t ⟨[], [root], false⟩ 0 with
  | none => rfl
  | some nr =>
    simp only
    cases nr.keys[0]? with
    | none => rfl
    | some k0 =>
      simp only
      cases nr.children[if k0 < k then 1 else 0]? with
      | none => rfl
      | some c =>
        simp only
        cases insertNonFull tr.t root.height c k <;> rfl

theorem levels_height (t : Nat) (r : BTreeNode) (hs : rootShape t r = true) :
    levels r.height r = true ↔ ∃ d, levels d r = true := by
  constructor
  · intro h; exact ⟨_, h⟩
  · rintro ⟨d, h⟩
    rw [height_of_levels t d r hs h]; exact h

theorem insert_spec (tr : BTree) (ht : 2 ≤ tr.t) (k : Int)
    (hrs : ∀ r, tr.root = some r → rootShape tr.t r = true) :
    ∃ r', tr.insert k = some ⟨tr.t, some r'⟩ ∧ rootShape tr.t r' = true ∧
      (tr.RootKeyed → r'.keys ≠ []) ∧
      (tr.Balanced → levels r'.height r' = true) ∧
      (tr.inorder.Sorted (· < ·) →
        r'.inorder.Sorted (· ≤ ·) ∧ r'.inorder.Perm (k :: tr.inorder)) := by
  obtain ⟨t, root⟩ := tr
  simp only at ht hrs ⊢
  cases root with
  | none =>
    refine ⟨⟨[k], [], true⟩, by simp [insert], ?_, by simp, ?_, ?_⟩
    · rw [rootShape_leaf]; simp; omega
    · intro _; simp [BTreeNode.height, heightList, levels]
    · intro _; simp [inorder_leaf, BTree.inorder]
  | some root =>
    have hroot := hrs root rfl
    by_cases hfull : root.keys.length = 2 * t - 1
    · have hsh : shape t root = true := (shape_iff_root t root).2 ⟨hroot, by omega⟩
      have hnr : rootShape t ⟨[], [root], false⟩ = true := by
        rw [rootShape_internal]; simp [hsh]
      obtain ⟨r', h1, h2, h3, h4, h5, h6⟩ := insertNonFull_spec t ht k (root.height + 1)
        ⟨[], [root], false⟩ (by simp [height_mk, heightList]) hnr (by simp; omega)
      refine ⟨r', ?_, h2, ?_, ?_, ?_⟩
      · rw [insert_full_eq ⟨t, some root⟩ root k rfl hfull, h1]; rfl
      · intro _ h0
        have := h4 (by simpa using hfull)
        rw [h0] at this; simp at this
      · intro hb
        have hb' : levels root.height root = true := hb root rfl
        have : levels (root.height + 1) ⟨[], [root], false⟩ = true := by
          rw [levels_internal]; simpa using hb'
        exact (levels_height t r' h2).2 ⟨_, h5 _ this⟩
      · intro hs
        have := h6 (by rw [inorder_single]; exact hs)
        rw [inorder_single] at this
        exact this
    · obtain ⟨r', h1, h2, h3, h4, h5, h6⟩ := insertNonFull_spec t ht k root.height root le_rfl
        hroot (by have := ((rootShape_iff t root).1 hroot).1; omega)
      refine ⟨r', ?_, h2, ?_, ?_, h6⟩
      · simp only [insert, hfull, if_false, h1]
      · intro hrk h0
        cases hlf : root.leaf with
        | true =>
          have hc := ((rootShape_iff t root).1 hroot).2.1 hlf
          have := h4 (by rw [hc]; simp)
          rw [h0] at this; simp at this
        | false =>
          have := hrk root rfl hlf
          rw [h0] at h3
          simp at h3
          exact this h3
      · intro hb
        exact (levels_height t r' h2).2 ⟨_, h5 _ (hb root rfl)⟩

theorem remove_spec (tr : BTree) (ht : 2 ≤ tr.t) (k : Int) (hinv : tr.NodeInv)
    (hbal : tr.Balanced) (hrk : tr.RootKeyed) :
    ∃ tr', tr.remove k = some tr' ∧ tr'.t = tr.t ∧ tr'.NodeInv ∧ tr'.Balanced ∧
      (∀ r, tr'.root = some r → r.keys ≠ []) ∧
      tr'.inorder = tr.inorder.filter (fun x => decide (x ≠ k)) := by
  obtain ⟨t, root⟩ := tr
  obtain ⟨hrs, hsrt⟩ := hinv
  simp only at ht hrs
  cases root with
  | none =>
    refine ⟨⟨t, none⟩, by simp [remove], rfl, ⟨by simp, by simp [BTree.inorder]⟩, ?_, by simp,
      by simp [BTree.inorder]⟩
    intro r hr; simp at hr
  | some root =>
    simp only [BTree.inorder] at hsrt
    obtain ⟨r', h1, h2, h3, h4, h5⟩ := removeFromNode_spec t ht root.height root.height root k
      (hbal root rfl) le_rfl (hrs root rfl) (hrk root rfl) hsrt
    have hs' : r'.inorder.Sorted (· < ·) := by rw [h5]; exact filter_sorted k _ hsrt
    by_cases h0 : r'.keys.length = 0
    · cases hlf : r'.leaf with
      | true =>
        refine ⟨⟨t, none⟩, by simp [remove, h1, h0, hlf], rfl, ⟨by simp, by simp [BTree.inorder]⟩,
          ?_, by simp, ?_⟩
        · intro r hr; simp at hr
        · simp only [BTree.inorder]
          rw [← h5, inorder_eq, hlf]
          simp only [if_true]
          exact (List.length_eq_zero.1 h0).symm
      | false =>
        obtain ⟨ks, cs, lf⟩ := r'
        simp only at h0 hlf
        subst hlf
        have hk0 : ks = [] := List.length_eq_zero.1 h0
        subst hk0
        obtain ⟨-, hlen, hch⟩ := (rootShape_internal t _ _).1 h2
        obtain ⟨c, rfl⟩ : ∃ c, cs = [c] := by
          match cs, hlen with
          | [c], _ => exact ⟨c, rfl⟩
        have hc := hch c (by simp)
        have hlc : levels (root.height - 1) c = true := by
          have hp := height_pos root
          obtain ⟨e, he⟩ : ∃ e, root.height = e + 1 := ⟨root.height - 1, by omega⟩
          rw [he] at h4 ⊢
          rw [levels_internal] at h4
          simpa using h4 c (by simp)
        refine ⟨⟨t, some c⟩, by simp [remove, h1], rfl, ⟨?_, ?_⟩, ?_, ?_, ?_⟩
        · intro r hr
          simp only [Option.some.injEq] at hr
          subst hr; exact shape_rootShape hc
        · simp only [BTree.inorder]
          rw [inorder_single] at hs'; exact hs'
        · intro r hr
          simp only [Option.some.injEq] at hr
          subst hr
          exact (levels_height t _ (shape_rootShape hc)).2 ⟨_, hlc⟩
        · intro r hr
          simp only [Option.some.injEq] at hr
          subst hr
          have := ((shape_iff t _).1 hc).1
          intro h; rw [h] at this; simp at this; omega
        · simp only [BTree.inorder]
          rw [← h5, inorder_single]
    · refine ⟨⟨t, some r'⟩, by simp [remove, h1, h0], rfl, ⟨?_, ?_⟩, ?_, ?_, ?_⟩
      · intro r hr
        simp only [Option.some.injEq] at hr
        subst hr; exact h2
      · exact hs'
      · intro r hr
        simp only [Option.some.injEq] at hr
        subst hr
        exact (levels_height t _ h2).2 ⟨_, h4⟩
      · intro r hr
        simp only [Option.some.injEq] at hr
        subst hr
        intro h; rw [h] at h0; simp at h0
      · simp only [BTree.inorder]; exact h5

end BTree

namespace BTree
open BTreeNode

/-! ## Consequences for whole trees -/

theorem sorted_insert_unique (l l' : List Int) (k : Int) (hl : l.Sorted (· < ·))
    (hs : l'.Sorted (· ≤ ·)) (hp : l'.Perm (k :: l)) :
    l' = List.orderedInsert (· ≤ ·) k l :=
  List.eq_of_perm_of_sorted (hp.trans (List.perm_orderedInsert _ k l).symm) hs
    (List.Sorted.orderedInsert k l (hl.imp le_of_lt))

theorem sorted_insert_strict (l l' : List Int) (k : Int) (hl : l.Sorted (· < ·))
    (hk : k ∉ l) (hs : l'.Sorted (· ≤ ·)) (hp : l'.Perm (k :: l)) :
    l'.Sorted (· < ·) := by
  refine List.Sorted.lt_of_le hs (hp.nodup_iff.2 ?_)
  exact List.nodup_cons.2 ⟨hk, hl.nodup⟩

theorem filter_ne_eq_erase (l : List Int) (k : Int) (hl : l.Sorted (· < ·)) :
    l.filter (fun x => decide (x ≠ k)) = l.erase k := by
  rw [List.Nodup.erase_eq_filter hl.nodup]
  congr 1
  funext x
  by_cases h : x = k <;> simp [h]

/-- Effect of `insert` of an absent key on a tree that satisfies the node invariants. -/
theorem insert_inv (tr : BTree) (ht : 2 ≤ tr.t) (hinv : tr.NodeInv) (k : Int)
    (hk : k ∉ tr.inorder) :
    ∃ tr', tr.insert k = some tr' ∧ tr'.t = tr.t ∧ tr'.NodeInv ∧
      tr'.inorder = List.orderedInsert (· ≤ ·) k tr.inorder ∧
      tr'.inorder.Perm (k :: tr.inorder) ∧
      (tr.Balanced → tr'.Balanced) ∧
      (tr.RootKeyed → ∀ r, tr'.root = some r → r.keys ≠ []) := by
  obtain ⟨r', h1, h2, h3, h4, h5⟩ := insert_spec tr ht k hinv.1
  obtain ⟨h6, h7⟩ := h5 hinv.2
  refine ⟨⟨tr.t, some r'⟩, h1, rfl, ⟨?_, ?_⟩, ?_, h7, ?_, ?_⟩
  · intro r hr
    simp only [Option.some.injEq] at hr
    subst hr; exact h2
  · exact sorted_insert_strict _ _ k hinv.2 hk h6 h7
  · exact sorted_insert_unique _ _ k hinv.2 h6 h7
  · intro hb r hr
    simp only [Option.some.injEq] at hr
    subst hr; exact h4 hb
  · intro hrk r hr
    simp only [Option.some.injEq] at hr
    subst hr; exact h3 hrk

theorem rootKeyed_of_keys (tr : BTree) (h : ∀ r, tr.root = some r → r.keys ≠ []) :
    tr.RootKeyed :=
  fun r hr _ => h r hr

theorem empty_inv (t : Nat) : (BTree.empty t).NodeInv ∧ (BTree.empty t).Balanced ∧
    ∀ r, (BTree.empty t).root = some r → r.keys ≠ [] := by
  refine ⟨⟨?_, ?_⟩, ?_, ?_⟩
  · intro r hr; simp [BTree.empty] at hr
  · simp [BTree.empty, BTree.inorder]
  · intro r hr; simp [BTree.empty] at hr
  · intro r hr; simp [BTree.empty] at hr

/-- Every reachable tree satisfies the node invariants, is balanced and has a keyed root. -/
theorem reachable_inv (t : Nat) (ht : 2 ≤ t) (tr : BTree) (h : Reachable t tr) :
    tr.t = t ∧ tr.NodeInv ∧ tr.Balanced ∧ ∀ r, tr.root = some r → r.keys ≠ [] := by
  induction h with
  | empty => exact ⟨rfl, empty_inv t⟩
  | @insert tr tr' k _ hk hins ih =>
    obtain ⟨ht', hinv, hbal, hkey⟩ := ih
    obtain ⟨tr2, h1, h2, h3, -, -, h6, h7⟩ := insert_inv tr (by omega) hinv k hk
    rw [hins] at h1
    simp only [Option.some.injEq] at h1
    subst h1
    exact ⟨by omega, h3, h6 hbal, h7 (rootKeyed_of_keys tr hkey)⟩
  | @remove tr tr' k _ hrem ih =>
    obtain ⟨ht', hinv, hbal, hkey⟩ := ih
    obtain ⟨tr2, h1, h2, h3, h4, h5, -⟩ :=
      remove_spec tr (by omega) k hinv hbal (rootKeyed_of_keys tr hkey)
    rw [hrem] at h1
    simp only [Option.some.injEq] at h1
    subst h1
    exact ⟨by omega, h3, h4, h5⟩

/-- Inserting a list of fresh, pairwise distinct keys one after the other. -/
theorem insertAll_spec (t : Nat) (ht : 2 ≤ t) (L : List Int) :
    ∀ (tr : BTree), Reachable t tr → L.Nodup → (∀ x ∈ L, x ∉ tr.inorder) →
      ∃ tr', tr.insertAll L = some tr' ∧ Reachable t tr' ∧
        tr'.inorder.Perm (L ++ tr.inorder) := by
  induction L with
  | nil => intro tr h _ _; exact ⟨tr, rfl, h, by simp⟩
  | cons k ks ih =>
    intro tr h hnd hfresh
    obtain ⟨ht', hinv, hbal, hkey⟩ := reachable_inv t ht tr h
    have hk : k ∉ tr.inorder := hfresh k (by simp)
    obtain ⟨tr1, h1, -, -, -, h5, -, -⟩ := insert_inv tr (by omega) hinv k hk
    have hr1 : Reachable t tr1 := Reachable.insert h hk h1
    obtain ⟨hkks, hks⟩ := List.nodup_cons.1 hnd
    obtain ⟨tr2, h6, h7, h8⟩ := ih tr1 hr1 hks (by
      intro x hx hmem
      rcases List.mem_cons.1 (h5.subset hmem) with rfl | hmem
      · exact hkks hx
      · exact hfresh x (by simp [hx]) hmem)
    refine ⟨tr2, by simp [insertAll, h1, h6], h7, ?_⟩
    refine h8.trans ?_
    refine (List.Perm.append_left ks h5).trans ?_
    simp only [List.cons_append]
    exact List.perm_middle

/-! ## Height bound -/

theorem sum_ge_of_all_ge (l : List Nat) (m : Nat) (h : ∀ x ∈ l, m ≤ x) :
    l.length * m ≤ l.sum := by
  induction l with
  | nil => simp
  | cons a l ih =>
    simp only [List.length_cons, List.sum_cons]
    have h1 := h a (by simp)
    have h2 := ih (fun x hx => h x (by simp [hx]))
    calc (l.length + 1) * m = l.length * m + m := by ring
      _ ≤ l.sum + a := by omega
      _ = a + l.sum := by ring

theorem length_inorder_internal (ks : List Int) (cs : List BTreeNode) :
    (BTreeNode.inorder ⟨ks, cs, false⟩).length + cs.length =
      ks.length + (cs.map (fun c => c.inorder.length + 1)).sum := by
  rw [inorder_mk]
  simp only [Bool.false_eq_true, if_false, length_interleave, List.map_map]
  have : ∀ l : List BTreeNode, (l.map (fun c => c.inorder.length + 1)).sum =
      (l.map (List.length ∘ BTreeNode.inorder)).sum + l.length := by
    intro l
    induction l with
    | nil => simp
    | cons a l ih => simp [ih]; omega
  rw [this]; omega

/-- A non-root subtree whose leaves are all `d` levels down holds at least `t^d - 1` keys. -/
theorem min_keys (t : Nat) (ht : 2 ≤ t) :
    ∀ (d : Nat) (n : BTreeNode), shape t n = true → levels d n = true →
      t ^ d ≤ n.inorder.length + 1 := by
  intro d
  induction d with
  | zero => intro n _ h; simp [levels] at h
  | succ d ih =>
    intro n hs hl
    obtain ⟨ks, cs, lf⟩ := n
    have hs' := (shape_iff t _).1 hs
    simp only at hs'
    obtain ⟨h1, h2, h3, h4, h5⟩ := hs'
    cases lf with
    | true =>
      rw [levels_leaf] at hl
      subst hl
      simp [inorder_leaf]; omega
    | false =>
      rw [levels_internal] at hl
      have hlen := h4 rfl
      have hsum := sum_ge_of_all_ge (cs.map (fun c => c.inorder.length + 1)) (t ^ d) (by
        intro x hx
        obtain ⟨c, hc, rfl⟩ := List.mem_map.1 hx
        exact ih c (h5 c hc) (hl c hc))
      have hcnt := length_inorder_internal ks cs
      simp only [List.length_map] at hsum
      have : t * t ^ d ≤ cs.length * t ^ d := Nat.mul_le_mul_right _ (by omega)
      rw [pow_succ, mul_comm]
      omega

/-- A keyed root whose leaves are all `d` levels down holds at least `2 t^(d-1) - 1` keys. -/
theorem min_keys_root (t : Nat) (ht : 2 ≤ t) (d : Nat) (r : BTreeNode)
    (hs : rootShape t r = true) (hk : r.keys ≠ []) (hl : levels (d + 1) r = true) :
    2 * t ^ d ≤ r.inorder.length + 1 := by
  obtain ⟨ks, cs, lf⟩ := r
  simp only at hk
  have hkl : 1 ≤ ks.length := by
    cases ks with
    | nil => exact absurd rfl hk
    | cons a b => simp
  cases lf with
  | true =>
    rw [levels_leaf] at hl
    subst hl
    simp [inorder_leaf]; omega
  | false =>
    obtain ⟨-, hlen, hch⟩ := (rootShape_internal t _ _).1 hs
    rw [levels_internal] at hl
    have hsum := sum_ge_of_all_ge (cs.map (fun c => c.inorder.length + 1)) (t ^ d) (by
      intro x hx
      obtain ⟨c, hc, rfl⟩ := List.mem_map.1 hx
      exact min_keys t ht d c (hch c hc) (hl c hc))
    have hcnt := length_inorder_internal ks cs
    simp only [List.length_map] at hsum
    have : 2 * t ^ d ≤ cs.length * t ^ d := Nat.mul_le_mul_right _ (by omega)
    omega

end BTree

namespace BTree
open BTreeNode

/-! ## Checking the invariants of a concrete tree -/

theorem nodeInv_of (t : Nat) (r : BTreeNode) (h1 : rootShape t r = true)
    (h2 : r.inorder.Sorted (· < ·)) : (⟨t, some r⟩ : BTree).NodeInv := by
  refine ⟨?_, h2⟩
  intro r' hr
  simp only [Option.some.injEq] at hr
  subst hr; exact h1

theorem balanced_of (t : Nat) (r : BTreeNode) (h : levels r.height r = true) :
    (⟨t, some r⟩ : BTree).Balanced := by
  intro r' hr
  simp only [Option.some.injEq] at hr
  subst hr; exact h

theorem rootKeyed_of (t : Nat) (r : BTreeNode) (h : r.keys ≠ []) :
    (⟨t, some r⟩ : BTree).RootKeyed := by
  intro r' hr _
  simp only [Option.some.injEq] at hr
  subst hr; exact h

theorem reachable_insertAll (t : Nat) (ht : 2 ≤ t) (L : List Int) (tr : BTree)
    (hL : L.Nodup) (h : (BTree.empty t).insertAll L = some tr) : Reachable t tr := by
  obtain ⟨tr', h1, h2, -⟩ := insertAll_spec t ht L (BTree.empty t) Reachable.empty hL
    (by simp [BTree.empty, BTree.inorder])
  rw [h] at h1
  simp only [Option.some.injEq] at h1
  subst h1; exact h2

theorem reachable_scenarioB : Reachable 3 scenarioB :=
  reachable_insertAll 3 (by decide) [10, 20, 5, 6, 12, 30, 7, 17] scenarioB (by decide)
    (by decide!)

theorem reachable_smallTree : Reachable 2 smallTree :=
  Reachable.remove (k := 4)
    (reachable_insertAll 2 (by decide) [1, 2, 3, 4]
      ⟨2, some ⟨[2], [⟨[1], [], true⟩, ⟨[3, 4], [], true⟩], false⟩⟩ (by decide) (by decide!))
    (by decide!)

/-! ## The properties stated by the specification -/

/-- C1. Insert/search round trip: for every degree `t ≥ 2` and every list `L` of pairwise
distinct integers, inserting the elements of `L` in order into the empty tree succeeds, and
afterwards `search k` returns `true` for every `k` in `L` and `false` for every `k` not in
`L`. -/
theorem insert_search_roundtrip (t : Nat) (ht : 2 ≤ t) (L : List Int) (hL : L.Nodup) :
    ∃ tr, (BTree.empty t).insertAll L = some tr ∧
      ∀ k : Int, tr.search k = some (decide (k ∈ L)) := by
  obtain ⟨tr, h1, h2, h3⟩ := insertAll_spec t ht L (BTree.empty t) Reachable.empty hL
    (by simp [BTree.empty, BTree.inorder])
  refine ⟨tr, h1, ?_⟩
  intro k
  rw [search_spec tr k (reachable_inv t ht tr h2).2.1]
  have : k ∈ tr.inorder ↔ k ∈ L := by
    rw [h3.mem_iff]; simp [BTree.empty, BTree.inorder]
  simp [this]

/-- Scenario B of the spec as an instance of C1: degree 3, keys 10, 20, 5, 6, 12, 30, 7, 17. -/
theorem insert_search_roundtrip_witness :
    2 ≤ 3 ∧ ([10, 20, 5, 6, 12, 30, 7, 17] : List Int).Nodup ∧
    ∃ tr, (BTree.empty 3).insertAll [10, 20, 5, 6, 12, 30, 7, 17] = some tr ∧
      ∀ k : Int, tr.search k = some (decide (k ∈ ([10, 20, 5, 6, 12, 30, 7, 17] : List Int))) :=
  ⟨by decide, by decide,
    insert_search_roundtrip 3 (by decide) [10, 20, 5, 6, 12, 30, 7, 17] (by decide)⟩

/-- C2. Remove then search: for every degree `t ≥ 2`, every tree reachable from the empty tree
by inserts of absent keys and removes, and every integer `k`: `remove k` succeeds, afterwards
`search k` returns `false`, and `search j` returns what it returned before for every
`j ≠ k`. -/
theorem remove_then_search (t : Nat) (ht : 2 ≤ t) (tr : BTree) (h : Reachable t tr) (k : Int) :
    ∃ tr', tr.remove k = some tr' ∧ tr'.search k = some false ∧
      ∀ j : Int, j ≠ k → tr'.search j = tr.search j := by
  obtain ⟨ht', hinv, hbal, hkey⟩ := reachable_inv t ht tr h
  obtain ⟨tr', h1, h2, h3, h4, h5, h6⟩ :=
    remove_spec tr (by omega) k hinv hbal (rootKeyed_of_keys tr hkey)
  refine ⟨tr', h1, ?_, ?_⟩
  · rw [search_spec tr' k h3, h6]; simp
  · intro j hj
    rw [search_spec tr' j h3, search_spec tr j hinv, h6]
    simp [hj]

/-- Scenario C of the spec as an instance of C2: remove 6 from the scenario-B tree. -/
theorem remove_then_search_witness :
    2 ≤ 3 ∧ Reachable 3 scenarioB ∧
    ∃ tr', scenarioB.remove 6 = some tr' ∧ tr'.search 6 = some false ∧
      ∀ j : Int, j ≠ 6 → tr'.search j = scenarioB.search j :=
  ⟨by decide, reachable_scenarioB,
    remove_then_search 3 (by decide) scenarioB reachable_scenarioB 6⟩

/-- C3. Order property under insert: for every degree `t ≥ 2`, every tree that satisfies the
node invariants of spec §3 (whether or not its leaves are at the same depth), and every key
`k` not in the tree: `insert k` succeeds, the in-order traversal afterwards is the old one
with `k` inserted at its sorted position, it is strictly increasing, and it is exactly one
key longer. -/
theorem insert_inorder (tr : BTree) (ht : 2 ≤ tr.t) (hinv : tr.NodeInv) (k : Int)
    (hk : k ∉ tr.inorder) :
    ∃ tr', tr.insert k = some tr' ∧
      tr'.inorder = List.orderedInsert (· ≤ ·) k tr.inorder ∧
      tr'.inorder.Sorted (· < ·) ∧
      tr'.inorder.length = tr.inorder.length + 1 := by
  obtain ⟨tr', h1, -, h3, h4, h5, -, -⟩ := insert_inv tr ht hinv k hk
  exact ⟨tr', h1, h4, h3.2, by simpa using h5.length_eq⟩

/-- An instance of C3: insert 8 into the scenario-B tree. -/
theorem insert_inorder_witness :
    2 ≤ scenarioB.t ∧ scenarioB.NodeInv ∧ (8 : Int) ∉ scenarioB.inorder ∧
    ∃ tr', scenarioB.insert 8 = some tr' ∧
      tr'.inorder = List.orderedInsert (· ≤ ·) 8 scenarioB.inorder ∧
      tr'.inorder.Sorted (· < ·) ∧
      tr'.inorder.length = scenarioB.inorder.length + 1 :=
  ⟨by decide, nodeInv_of 3 _ (by decide!) (by decide!), by decide!,
    insert_inorder scenarioB (by decide) (nodeInv_of 3 _ (by decide!) (by decide!)) 8
      (by decide!)⟩

/-- C4. Order property under remove: for every degree `t ≥ 2`, every tree that satisfies the
B-tree invariants of spec §3 with pairwise distinct keys (the node invariants, all leaves at
the same depth, a root that is not a leaf holds at least one key, as in every tree built by
`insert` and `remove`), and every integer `k`, present or absent: `remove k` succeeds, the
in-order traversal afterwards is the old one with `k` erased (unchanged when `k` is absent),
and it is strictly increasing. -/
theorem remove_inorder (tr : BTree) (ht : 2 ≤ tr.t) (hinv : tr.NodeInv) (hbal : tr.Balanced)
    (hrk : tr.RootKeyed) (k : Int) :
    ∃ tr', tr.remove k = some tr' ∧
      tr'.inorder = tr.inorder.erase k ∧
      (k ∉ tr.inorder → tr'.inorder = tr.inorder) ∧
      tr'.inorder.Sorted (· < ·) := by
  obtain ⟨tr', h1, -, h3, -, -, h6⟩ := remove_spec tr ht k hinv hbal hrk
  refine ⟨tr', h1, ?_, ?_, h3.2⟩
  · rw [h6, filter_ne_eq_erase _ k hinv.2]
  · intro hk
    rw [h6, filter_ne_eq_erase _ k hinv.2, List.erase_of_not_mem hk]

/-- Scenario C of the spec as an instance of C4: the degree-3 tree built from
10, 20, 5, 6, 12, 30, 7, 17, after `remove 6`, has in-order traversal 5, 7, 10, 12, 17, 20, 30. -/
theorem remove_inorder_witness :
    (BTree.empty 3).insertAll [10, 20, 5, 6, 12, 30, 7, 17] = some scenarioB ∧
    (scenarioB.remove 6).map BTree.inorder = some [5, 7, 10, 12, 17, 20, 30] ∧
    2 ≤ scenarioB.t ∧ scenarioB.NodeInv ∧ scenarioB.Balanced ∧ scenarioB.RootKeyed ∧
    ∃ tr', scenarioB.remove 6 = some tr' ∧
      tr'.inorder = scenarioB.inorder.erase 6 ∧
      ((6 : Int) ∉ scenarioB.inorder → tr'.inorder = scenarioB.inorder) ∧
      tr'.inorder.Sorted (· < ·) :=
  ⟨by decide!, by decide!, by decide, nodeInv_of 3 _ (by decide!) (by decide!),
    balanced_of 3 _ (by decide!), rootKeyed_of 3 _ (by decide!),
    remove_inorder scenarioB (by decide) (nodeInv_of 3 _ (by decide!) (by decide!))
      (balanced_of 3 _ (by decide!)) (rootKeyed_of 3 _ (by decide!)) 6⟩

end BTree

namespace BTree
open BTreeNode

/-- C5. Invariant preservation by remove: for every degree `t ≥ 2`, every tree with pairwise
distinct keys in which every node has at most `2t-1` keys, every non-root node has at least
`t-1` keys, every internal node has one child more than keys, every leaf has no children and
the keys are ordered as a search tree (with all leaves at the same depth and a key in a root
that is not a leaf, as in every tree built by `insert` and `remove`), and every integer `k`:
`remove k` succeeds and the resulting tree, of the same degree, satisfies the same
invariants, the root being exempt from the lower bound. -/
theorem remove_preserves_inv (tr : BTree) (ht : 2 ≤ tr.t) (hinv : tr.NodeInv)
    (hbal : tr.Balanced) (hrk : tr.RootKeyed) (k : Int) :
    ∃ tr', tr.remove k = some tr' ∧ tr'.t = tr.t ∧ tr'.NodeInv ∧ tr'.Balanced ∧
      tr'.RootKeyed := by
  obtain ⟨tr', h1, h2, h3, h4, h5, -⟩ := remove_spec tr ht k hinv hbal hrk
  exact ⟨tr', h1, h2, h3, h4, rootKeyed_of_keys tr' h5⟩

/-- An instance of C5: remove the root key 10 from the scenario-B tree. -/
theorem remove_preserves_inv_witness :
    2 ≤ scenarioB.t ∧ scenarioB.NodeInv ∧ scenarioB.Balanced ∧ scenarioB.RootKeyed ∧
    ∃ tr', scenarioB.remove 10 = some tr' ∧ tr'.t = scenarioB.t ∧ tr'.NodeInv ∧ tr'.Balanced ∧
      tr'.RootKeyed :=
  ⟨by decide, nodeInv_of 3 _ (by decide!) (by decide!), balanced_of 3 _ (by decide!),
    rootKeyed_of 3 _ (by decide!),
    remove_preserves_inv scenarioB (by decide) (nodeInv_of 3 _ (by decide!) (by decide!))
      (balanced_of 3 _ (by decide!)) (rootKeyed_of 3 _ (by decide!)) 10⟩

/-- C6. Invariant preservation by insert: for every degree `t ≥ 2`, every tree that satisfies
the node invariants (at most `2t-1` keys per node, at least `t-1` keys per non-root node, one
child more than keys on internal nodes, no children on leaves, strictly increasing in-order
traversal), and every key `k` not in the tree: `insert k` succeeds and the resulting tree,
of the same degree, satisfies the same invariants. -/
theorem insert_preserves_inv (tr : BTree) (ht : 2 ≤ tr.t) (hinv : tr.NodeInv) (k : Int)
    (hk : k ∉ tr.inorder) :
    ∃ tr', tr.insert k = some tr' ∧ tr'.t = tr.t ∧ tr'.NodeInv := by
  obtain ⟨tr', h1, h2, h3, -, -, -, -⟩ := insert_inv tr ht hinv k hk
  exact ⟨tr', h1, h2, h3⟩

/-- An instance of C6 on a tree with leaves at two depths: insert 16 into `lopsidedLeft`. -/
theorem insert_preserves_inv_witness :
    2 ≤ lopsidedLeft.t ∧ lopsidedLeft.NodeInv ∧ (16 : Int) ∉ lopsidedLeft.inorder ∧
    ∃ tr', lopsidedLeft.insert 16 = some tr' ∧ tr'.t = lopsidedLeft.t ∧ tr'.NodeInv :=
  ⟨by decide, nodeInv_of 2 _ (by decide!) (by decide!), by decide!,
    insert_preserves_inv lopsidedLeft (by decide) (nodeInv_of 2 _ (by decide!) (by decide!)) 16
      (by decide!)⟩

/-- C7 as stated fails. `smallTree` is reachable and does not hold 0, yet `remove 0` fills the
leaf `[1]` on the way down, merges the three nodes into the single leaf `[1, 2, 3]` and
collapses the root: three nodes become one. Likewise `remove 4` applied twice to the tree
`[2]` over `[1]`, `[3, 4]` gives first `smallTree` and then the single leaf. -/
theorem remove_absent_counterexample :
    Reachable 2 smallTree ∧ (0 : Int) ∉ smallTree.inorder ∧
    smallTree.remove 0 = some ⟨2, some ⟨[1, 2, 3], [], true⟩⟩ ∧
    (⟨2, some ⟨[1, 2, 3], [], true⟩⟩ : BTree) ≠ smallTree ∧
    (⟨2, some ⟨[1, 2, 3], [], true⟩⟩ : BTree).getNodeCount ≠ smallTree.getNodeCount ∧
    (⟨2, some ⟨[2], [⟨[1], [], true⟩, ⟨[3, 4], [], true⟩], false⟩⟩ : BTree).remove 4 =
      some smallTree ∧
    smallTree.remove 4 = some ⟨2, some ⟨[1, 2, 3], [], true⟩⟩ :=
  ⟨reachable_smallTree, by decide!, by decide!, by decide!, by decide!, by decide!, by decide!⟩

/-- C7, amended. Removing an absent key leaves the keys alone: for every degree `t ≥ 2`, every
reachable tree and every key `k`, `remove k` succeeds twice in a row and the second call
changes neither the in-order key sequence nor any `search` result; when `k` is not in the
tree, the first call changes neither of them either. (The node structure may be rebalanced
by either call.) -/
theorem remove_absent_keeps_keys (t : Nat) (ht : 2 ≤ t) (tr : BTree) (h : Reachable t tr)
    (k : Int) :
    ∃ tr1 tr2, tr.remove k = some tr1 ∧ tr1.remove k = some tr2 ∧
      tr2.inorder = tr1.inorder ∧ (∀ j : Int, tr2.search j = tr1.search j) ∧
      (k ∉ tr.inorder → tr1.inorder = tr.inorder ∧ ∀ j : Int, tr1.search j = tr.search j) := by
  obtain ⟨ht', hinv, hbal, hkey⟩ := reachable_inv t ht tr h
  obtain ⟨tr1, h1, h2, h3, h4, h5, h6⟩ :=
    remove_spec tr (by omega) k hinv hbal (rootKeyed_of_keys tr hkey)
  obtain ⟨tr2, g1, g2, g3, g4, g5, g6⟩ :=
    remove_spec tr1 (by omega) k h3 h4 (rootKeyed_of_keys tr1 h5)
  have e21 : tr2.inorder = tr1.inorder := by
    rw [g6, h6, List.filter_filter]
    congr 1
    funext x
    simp
  refine ⟨tr1, tr2, h1, g1, e21, ?_, ?_⟩
  · intro j
    rw [search_spec tr2 j g3, search_spec tr1 j h3, e21]
  · intro hk
    have e10 : tr1.inorder = tr.inorder := by
      rw [h6]
      exact filter_ne_self k _ (fun a ha hak => hk (hak ▸ ha))
    refine ⟨e10, ?_⟩
    intro j
    rw [search_spec tr1 j h3, search_spec tr j hinv, e10]

/-- An instance of the amended C7: remove the absent key 0 from `smallTree`. -/
theorem remove_absent_keeps_keys_witness :
    2 ≤ 2 ∧ Reachable 2 smallTree ∧
    ∃ tr1 tr2, smallTree.remove 0 = some tr1 ∧ tr1.remove 0 = some tr2 ∧
      tr2.inorder = tr1.inorder ∧ (∀ j : Int, tr2.search j = tr1.search j) ∧
      ((0 : Int) ∉ smallTree.inorder →
        tr1.inorder = smallTree.inorder ∧ ∀ j : Int, tr1.search j = smallTree.search j) :=
  ⟨by decide, reachable_smallTree,
    remove_absent_keeps_keys 2 (by decide) smallTree reachable_smallTree 0⟩

/-- C8 as stated fails. With degree 3, inserting 1, …, 7 in order gives the root `[3]` over the
leaves `[1, 2]` and `[4, 5, 6, 7]`: the full root `[1, 2, 3, 4, 5]` is split when 6 arrives,
its key of index `t-1 = 2` moves up, and 6 and 7 both go to the right leaf. The two children
do not hold three keys each. -/
theorem scenarioA_counterexample :
    (BTree.empty 3).insertAll [1, 2, 3, 4, 5, 6, 7] =
      some ⟨3, some ⟨[3], [⟨[1, 2], [], true⟩, ⟨[4, 5, 6, 7], [], true⟩], false⟩⟩ ∧
    ¬ ∀ c ∈ ([⟨[1, 2], [], true⟩, ⟨[4, 5, 6, 7], [], true⟩] : List BTreeNode),
        c.keys.length = 3 := by
  refine ⟨by decide!, ?_⟩
  intro h
  have := h ⟨[1, 2], [], true⟩ (by simp)
  simp at this

/-- C8, amended. Scenario A: with degree 3, after inserting 1, 2, 3, 4, 5, 6, 7 in that order
into an empty tree, the root is an internal node holding exactly one key (3) and has exactly
two children, which are leaves holding 2 keys (`[1, 2]`) and 4 keys (`[4, 5, 6, 7]`). -/
theorem scenarioA :
    ∃ tr r c1 c2, (BTree.empty 3).insertAll [1, 2, 3, 4, 5, 6, 7] = some tr ∧
      tr.root = some r ∧ r.leaf = false ∧ r.keys = [3] ∧ r.children = [c1, c2] ∧
      c1.leaf = true ∧ c1.keys = [1, 2] ∧ c2.leaf = true ∧ c2.keys = [4, 5, 6, 7] :=
  ⟨⟨3, some ⟨[3], [⟨[1, 2], [], true⟩, ⟨[4, 5, 6, 7], [], true⟩], false⟩⟩,
    ⟨[3], [⟨[1, 2], [], true⟩, ⟨[4, 5, 6, 7], [], true⟩], false⟩,
    ⟨[1, 2], [], true⟩, ⟨[4, 5, 6, 7], [], true⟩,
    by decide!, rfl, rfl, rfl, rfl, rfl, rfl, rfl, rfl⟩

/-- C9. Height bound: with degree 3, for every list of 100 pairwise distinct integers,
inserting them in the given order into an empty tree succeeds and the resulting tree has at
most 6 node levels (in fact at most 4). -/
theorem height_bound_100 (L : List Int) (hL : L.Nodup) (hlen : L.length = 100) :
    ∃ tr, (BTree.empty 3).insertAll L = some tr ∧ tr.height ≤ 6 := by
  obtain ⟨tr, h1, h2, h3⟩ := insertAll_spec 3 (by decide) L (BTree.empty 3) Reachable.empty hL
    (by simp [BTree.empty, BTree.inorder])
  obtain ⟨ht', hinv, hbal, hkey⟩ := reachable_inv 3 (by decide) tr h2
  refine ⟨tr, h1, ?_⟩
  have hcount : tr.inorder.length = 100 := by
    rw [h3.length_eq]; simp [BTree.empty, BTree.inorder, hlen]
  obtain ⟨t, root⟩ := tr
  cases root with
  | none => simp [BTree.height]
  | some r =>
    simp only [BTree.height, BTree.inorder] at hcount ⊢
    simp only at ht'
    subst ht'
    have hlv := hbal r rfl
    obtain ⟨d, hd⟩ : ∃ d, r.height = d + 1 := ⟨r.height - 1, by have := height_pos r; omega⟩
    rw [hd] at hlv ⊢
    have hmin := min_keys_root 3 (by decide) d r (hinv.1 r rfl) (hkey r rfl) hlv
    rw [hcount] at hmin
    by_contra hcon
    have h4 : 4 ≤ d := by omega
    have : 3 ^ 4 ≤ 3 ^ d := Nat.pow_le_pow_right (by decide) h4
    omega

/-- An instance of C9: the keys 0, 1, …, 99 inserted in increasing order. -/
theorem height_bound_100_witness :
    ((List.range 100).map (fun n : Nat => (n : Int))).Nodup ∧
    ((List.range 100).map (fun n : Nat => (n : Int))).length = 100 ∧
    ∃ tr, (BTree.empty 3).insertAll ((List.range 100).map (fun n : Nat => (n : Int))) = some tr ∧
      tr.height ≤ 6 :=
  ⟨by decide!, by decide!,
    height_bound_100 ((List.range 100).map (fun n : Nat => (n : Int))) (by decide!)
      (by decide!)⟩

/-- C10. Root is null exactly when the tree is empty: for every degree `t ≥ 2` and every tree
reachable from the empty tree by inserts of absent keys and removes, the root is null if and
only if the tree holds no key, and a non-null root holds at least one key. In particular, for
every key `k`, `insert k` followed by `remove k` on the empty tree leaves a null root,
`search k` false and a node count of 0. -/
theorem root_null_iff_empty (t : Nat) (ht : 2 ≤ t) (tr : BTree) (h : Reachable t tr) :
    (tr.root = none ↔ tr.inorder = []) ∧
    (∀ r, tr.root = some r → r.keys ≠ []) ∧
    ∀ k : Int, ∃ tr1 tr2, (BTree.empty t).insert k = some tr1 ∧ tr1.remove k = some tr2 ∧
      tr2.root = none ∧ tr2.search k = some false ∧ tr2.getNodeCount = 0 := by
  obtain ⟨ht', hinv, hbal, hkey⟩ := reachable_inv t ht tr h
  refine ⟨⟨?_, ?_⟩, hkey, ?_⟩
  · intro h0; simp [BTree.inorder, h0]
  · intro h0
    cases hr : tr.root with
    | none => rfl
    | some r =>
      exfalso
      have hk := hkey r hr
      simp only [BTree.inorder, hr] at h0
      have hsub : r.keys.Sublist r.inorder := by
        rw [inorder_eq]
        split
        · exact List.Sublist.refl _
        · exact keys_sublist_interleave _ _
      rw [h0] at hsub
      exact hk (List.sublist_nil.1 hsub)
  · intro k
    refine ⟨⟨t, some ⟨[k], [], true⟩⟩, ⟨t, none⟩, by simp [BTree.insert, BTree.empty], ?_, rfl,
      by simp [BTree.search, searchNode], rfl⟩
    simp [BTree.remove, BTreeNode.height, heightList, removeFromNode, findKey, scanUp,
      removeFromLeaf, vecErase]

/-- An instance of C10 on the scenario-B tree. -/
theorem root_null_iff_empty_witness :
    2 ≤ 3 ∧ Reachable 3 scenarioB ∧
    (scenarioB.root = none ↔ scenarioB.inorder = []) ∧
    (∀ r, scenarioB.root = some r → r.keys ≠ []) ∧
    ∀ k : Int, ∃ tr1 tr2, (BTree.empty 3).insert k = some tr1 ∧ tr1.remove k = some tr2 ∧
      tr2.root = none ∧ tr2.search k = some false ∧ tr2.getNodeCount = 0 :=
  ⟨by decide, reachable_scenarioB,
    root_null_iff_empty 3 (by decide) scenarioB reachable_scenarioB⟩

end BTree

namespace BTreeNode

/-! ## The recorded removal computes the same result -/

theorem mergeLog_eq (node : BTreeNode) (idx : Nat) :
    mergeLog node idx =
      (merge node idx).map (fun after => (after, [RemoveEvent.merged node idx after])) := by
  unfold mergeLog
  cases merge node idx <;> rfl

theorem mergeLog_fst (node : BTreeNode) (idx : Nat) :
    (mergeLog node idx).map Prod.fst = merge node idx := by
  rw [mergeLog_eq]
  cases merge node idx <;> rfl

theorem fillLog_fst (t : Nat) (node : BTreeNode) (idx : Nat) :
    (fillLog t node idx).map Prod.fst = fill t node idx := by
  unfold fillLog fill
  split
  · rfl
  · cases borrowFromPrev node idx <;> rfl
  · split
    · rfl
    · cases borrowFromNext node idx <;> rfl
    · split
      · exact mergeLog_fst _ _
      · split
        · rfl
        · exact mergeLog_fst _ _

theorem removeFromNonLeafLog_fst (t fuel : Nat)
    (recurL : BTreeNode → Int → Option (BTreeNode × List RemoveEvent))
    (recur : BTreeNode → Int → Option BTreeNode)
    (h : ∀ c k, (recurL c k).map Prod.fst = recur c k) (node : BTreeNode) (idx : Nat) :
    (removeFromNonLeafLog t fuel recurL node idx).map Prod.fst =
      removeFromNonLeaf t fuel recur node idx := by
  unfold removeFromNonLeafLog removeFromNonLeaf
  cases node.keys[idx]? with
  | none => rfl
  | some k =>
    cases node.children[idx]? with
    | none => rfl
    | some left =>
      simp only
      split
      · cases getPredecessor fuel node idx with
        | none => rfl
        | some pred =>
          simp only [← h left pred]
          cases recurL left pred <;> rfl
      · cases node.children[idx + 1]? with
        | none => rfl
        | some right =>
          simp only
          split
          · cases getSuccessor fuel node idx with
            | none => rfl
            | some succ =>
              simp only [← h right succ]
              cases recurL right succ <;> rfl
          · rw [mergeLog_eq]
            cases merge node idx with
            | none => rfl
            | some node' =>
              simp only [Option.map_some']
              cases node'.children[idx]? with
              | none => rfl
              | some c =>
                simp only [← h c k]
                cases recurL c k <;> rfl

theorem removeFromNodeLog_fst (t : Nat) :
    ∀ (fuel : Nat) (node : BTreeNode) (k : Int),
      (removeFromNodeLog t fuel node k).map Prod.fst = removeFromNode t fuel node k := by
  intro fuel
  induction fuel with
  | zero => intro node k; rfl
  | succ fuel ih =>
    intro node k
    unfold removeFromNodeLog removeFromNode
    simp only
    rw [Option.map_map]
    have key : (Prod.fst ∘ fun p : BTreeNode × List RemoveEvent =>
        (p.1, RemoveEvent.call node :: p.2)) = Prod.fst := rfl
    rw [key]
    by_cases hfound : node.keys[findKey node k]? = some k
    · simp only [hfound, if_true]
      by_cases hl : node.leaf = true
      · simp only [hl, if_true]
        cases removeFromLeaf node (findKey node k) <;> rfl
      · simp only [hl, if_false]
        exact removeFromNonLeafLog_fst t fuel (removeFromNodeLog t fuel)
          (removeFromNode t fuel) ih node (findKey node k)
    · simp only [hfound, if_false]
      by_cases hl : node.leaf = true
      · simp only [hl, if_true, Option.map_some']
      · simp only [hl, if_false]
        cases node.children[findKey node k]? with
        | none => rfl
        | some child =>
          simp only
          have hf : (if child.keys.length < t then fillLog t node (findKey node k)
              else some (node, [])).map Prod.fst =
              (if child.keys.length < t then fill t node (findKey node k) else some node) := by
            split
            · exact fillLog_fst _ _ _
            · rfl
          rw [← hf]
          cases (if child.keys.length < t then fillLog t node (findKey node k)
              else some (node, [])) with
          | none => rfl
          | some p =>
            obtain ⟨node', flog⟩ := p
            simp only [Option.map_some']
            cases node'.children[if (decide (findKey node k = node.keys.length) &&
                decide (findKey node k > node'.keys.length)) = true
              then findKey node k - 1 else findKey node k]? with
            | none => rfl
            | some c =>
              simp only [← ih c k]
              cases removeFromNodeLog t fuel c k <;> rfl

end BTreeNode

namespace BTree
open BTreeNode

theorem removeLog_fst (tr : BTree) (k : Int) :
    (tr.removeLog k).map Prod.fst = tr.remove k := by
  unfold removeLog remove
  cases tr.root with
  | none => rfl
  | some root =>
    simp only [← removeFromNodeLog_fst tr.t root.height root k]
    cases removeFromNodeLog tr.t root.height root k with
    | none => rfl
    | some p =>
      obtain ⟨root', log⟩ := p
      simp only [Option.map_some']
      split
      · split
        · rfl
        · cases root'.children[0]? <;> rfl
      · rfl

end BTree

namespace BTreeNode

/-! ## What the record of a removal contains -/

theorem callCount_append (a b : List RemoveEvent) :
    callCount (a ++ b) = callCount a + callCount b := by
  induction a with
  | nil => simp [callCount]
  | cons e a ih =>
    cases e with
    | call n => simp [callCount, ih]; omega
    | merged x i y => simp [callCount, ih]

/-- A `merge` of two children with `t-1` keys each: the parent loses one key and one child and
the merged node has `2t-1` keys. -/
theorem merge_event_ok (t : Nat) (ht : 1 ≤ t) (node after c s : BTreeNode) (i : Nat)
    (hlen : node.children.length = node.keys.length + 1)
    (hc : node.children[i]? = some c) (hs : node.children[i + 1]? = some s)
    (hck : c.keys.length = t - 1) (hsk : s.keys.length = t - 1)
    (hm : merge node i = some after) :
    mergeShrinks t (RemoveEvent.merged node i after) := by
  obtain ⟨ks, cs, lf⟩ := node
  simp only at hlen hc hs
  have hm0 := hm
  have hi : i + 1 < cs.length := by
    by_contra hcon
    rw [List.getElem?_eq_none (by omega)] at hs
    exact absurd hs (by simp)
  obtain ⟨ca, c0, rest, rfl, hca, hget⟩ := exists_view cs i (by omega)
  rw [hget] at hc
  simp only [Option.some.injEq] at hc
  subst hc
  have hs' : (ca ++ c0 :: rest)[ca.length + 1]? = some s := by rw [hca]; exact hs
  obtain ⟨cb, rfl⟩ : ∃ cb, rest = s :: cb := by
    cases rest with
    | nil => simp at hi; omega
    | cons a b =>
      rw [getElem?_view2] at hs'
      simp only [Option.some.injEq] at hs'
      exact ⟨b, by rw [hs']⟩
  obtain ⟨ka, sep, kb, rfl, hka, -⟩ := exists_view ks i (by simp at hlen hi; omega)
  have hcaka : ca.length = ka.length := by omega
  rw [← hca, merge_eq ka kb ca cb c0 s sep lf hcaka] at hm
  simp only [Option.some.injEq] at hm
  subst hm
  refine ⟨hm0, by simp; omega, by simp; omega, _, by rw [← hca]; exact getElem?_view _ _ _, ?_⟩
  simp; omega

/-- The record of `fillLog` is empty or is the one `merge` call that produced the result;
`merge` is called on `idx` when the right sibling is short of `t` keys, and on `idx - 1` when
the left sibling is. -/
theorem fillLog_events (t : Nat) (node r : BTreeNode) (idx : Nat) (evs : List RemoveEvent)
    (h : fillLog t node idx = some (r, evs)) :
    evs = [] ∨ ∃ i, evs = [RemoveEvent.merged node i r] ∧ merge node i = some r ∧
      ((i = idx ∧ ∃ next, node.children[idx + 1]? = some next ∧ next.keys.length < t) ∨
       (i + 1 = idx ∧ ∃ prev, node.children[i]? = some prev ∧ prev.keys.length < t)) := by
  unfold fillLog at h
  have hmerge : ∀ i, mergeLog node i = some (r, evs) →
      evs = [RemoveEvent.merged node i r] ∧ merge node i = some r := by
    intro i hi
    rw [mergeLog_eq] at hi
    cases hm : merge node i with
    | none => rw [hm] at hi; simp at hi
    | some a =>
      rw [hm] at hi
      simp only [Option.map_some', Option.some.injEq, Prod.mk.injEq] at hi
      obtain ⟨h1, h2⟩ := hi
      subst h1
      exact ⟨h2.symm, rfl⟩
  split at h
  · simp at h
  · left
    cases hb : borrowFromPrev node idx with
    | none => rw [hb] at h; simp at h
    | some n => rw [hb] at h; simp at h; exact h.2
  · rename_i hprev
    split at h
    · simp at h
    · left
      cases hb : borrowFromNext node idx with
      | none => rw [hb] at h; simp at h
      | some n => rw [hb] at h; simp at h; exact h.2
    · rename_i hnext
      right
      split at h
      · rename_i hne
        obtain ⟨e1, e2⟩ := hmerge idx h
        refine ⟨idx, e1, e2, Or.inl ⟨rfl, ?_⟩⟩
        rw [if_pos hne] at hnext
        cases hn : node.children[idx + 1]? with
        | none => rw [hn] at hnext; simp at hnext
        | some next =>
          rw [hn] at hnext
          simp only [Option.some.injEq, decide_eq_false_iff_not, ge_iff_le, not_le] at hnext
          exact ⟨next, rfl, hnext⟩
      · split at h
        · simp at h
        · rename_i hlast h0
          obtain ⟨e1, e2⟩ := hmerge (idx - 1) h
          refine ⟨idx - 1, e1, e2, Or.inr ⟨by omega, ?_⟩⟩
          rw [if_pos h0] at hprev
          cases hp : node.children[idx - 1]? with
          | none => rw [hp] at hprev; simp at hprev
          | some prev =>
            rw [hp] at hprev
            simp only [Option.some.injEq, decide_eq_false_iff_not, ge_iff_le, not_le] at hprev
            exact ⟨prev, rfl, hprev⟩

end BTreeNode

namespace BTreeNode

theorem shape_keys_eq {t : Nat} {c : BTreeNode} (hs : shape t c = true)
    (hlt : c.keys.length < t) : c.keys.length = t - 1 := by
  have := ((shape_iff t c).1 hs).1
  omega

theorem fillLog_ok (t : Nat) (ht : 2 ≤ t) (ka0 kb0 : List Int) (ca0 cb0 : List BTreeNode)
    (child r : BTreeNode)
    (hrs : rootShape t ⟨ka0 ++ kb0, ca0 ++ child :: cb0, false⟩ = true)
    (hck : child.keys.length < t)
    (hfill : fill t ⟨ka0 ++ kb0, ca0 ++ child :: cb0, false⟩ ca0.length = some r) :
    ∃ evs, fillLog t ⟨ka0 ++ kb0, ca0 ++ child :: cb0, false⟩ ca0.length = some (r, evs) ∧
      (∀ e ∈ evs, callHasKeys t e ∧ mergeShrinks t e) ∧ callCount evs = 0 := by
  obtain ⟨-, hlen, hch⟩ := (rootShape_internal t _ _).1 hrs
  have hfst := fillLog_fst t ⟨ka0 ++ kb0, ca0 ++ child :: cb0, false⟩ ca0.length
  rw [hfill] at hfst
  cases hl : fillLog t ⟨ka0 ++ kb0, ca0 ++ child :: cb0, false⟩ ca0.length with
  | none => rw [hl] at hfst; simp at hfst
  | some p =>
    obtain ⟨r', evs⟩ := p
    rw [hl] at hfst
    simp only [Option.map_some', Option.some.injEq] at hfst
    subst hfst
    refine ⟨evs, rfl, ?_⟩
    have hchild : (ca0 ++ child :: cb0)[ca0.length]? = some child := getElem?_view _ _ _
    rcases fillLog_events t _ _ _ _ hl with rfl | ⟨i, rfl, hm, hcase⟩
    · simp [callCount]
    · refine ⟨?_, by simp [callCount]⟩
      intro e he
      simp only [List.mem_singleton] at he
      subst he
      refine ⟨trivial, ?_⟩
      rcases hcase with ⟨rfl, next, hn, hnk⟩ | ⟨hi, prev, hp, hpk⟩
      · exact merge_event_ok t (by omega) _ _ child next _ hlen hchild hn
          (shape_keys_eq (hch child (by simp)) hck)
          (shape_keys_eq (hch next (List.getElem?_mem hn)) hnk) hm
      · exact merge_event_ok t (by omega) _ _ prev child i hlen hp (by rw [hi]; exact hchild)
          (shape_keys_eq (hch prev (List.getElem?_mem hp)) hpk)
          (shape_keys_eq (hch child (by simp)) hck) hm

theorem removeFromNonLeafLog_spec (t : Nat) (ht : 2 ≤ t) (fuel d : Nat)
    (recur : BTreeNode → Int → Option (BTreeNode × List RemoveEvent)) (hd : d ≤ fuel)
    (hrec : ∀ (c : BTreeNode) (k' : Int), levels d c = true → rootShape t c = true →
      (c.leaf = false → c.keys ≠ []) → (inorder c).Sorted (· < ·) →
      ∃ c' log, recur c k' = some (c', RemoveEvent.call c :: log) ∧
        (∀ e ∈ log, callHasKeys t e ∧ mergeShrinks t e) ∧ callCount log + 1 ≤ d)
    (ka kb : List Int) (ca cb : List BTreeNode) (left right : BTreeNode) (k : Int)
    (hka : ca.length = ka.length)
    (hrs : rootShape t ⟨ka ++ k :: kb, ca ++ left :: right :: cb, false⟩ = true)
    (hlv : levels (d + 1) ⟨ka ++ k :: kb, ca ++ left :: right :: cb, false⟩ = true)
    (hsrt : (inorder ⟨ka ++ k :: kb, ca ++ left :: right :: cb, false⟩).Sorted (· < ·)) :
    ∃ node' log, removeFromNonLeafLog t fuel recur
        ⟨ka ++ k :: kb, ca ++ left :: right :: cb, false⟩ ca.length = some (node', log) ∧
      (∀ e ∈ log, callHasKeys t e ∧ mergeShrinks t e) ∧ callCount log ≤ d := by
  obtain ⟨-, hlen, hch⟩ := (rootShape_internal t _ _).1 hrs
  have hlall := (levels_internal d _ _).1 hlv
  have hL := hch left (by simp)
  have hR := hch right (by simp)
  have hlL := hlall left (by simp)
  have hlR := hlall right (by simp)
  have hkey : (ka ++ k :: kb)[ca.length]? = some k := by
    rw [hka]; exact getElem?_view _ _ _
  have hset : ∀ y, (ka ++ k :: kb).set ca.length y = ka ++ y :: kb := by
    intro y; rw [hka]; exact set_view _ _ _ _
  have hio := inorder_view2 ka kb ca cb left right k hka
  have hsrt0 := hsrt
  rw [hio] at hsrt
  obtain ⟨-, hrest, -⟩ := List.pairwise_append.1 hsrt
  have hLs : (inorder left).Sorted (· < ·) := (List.pairwise_append.1 hrest).1
  have hRs : (inorder right).Sorted (· < ·) :=
    (List.pairwise_append.1 (List.pairwise_cons.1 (List.pairwise_append.1 hrest).2.1).2).1
  by_cases hlk : t ≤ left.keys.length
  · obtain ⟨pred, X, hpred, -⟩ := lastKey_spec t ht fuel d left hlL hd hL
    obtain ⟨l', log, hl', hlog, hcnt⟩ := hrec left pred hlL (shape_rootShape hL)
      (fun _ h => by rw [h] at hlk; simp at hlk; omega) hLs
    refine ⟨⟨ka ++ pred :: kb, ca ++ l' :: right :: cb, false⟩, RemoveEvent.call left :: log,
      ?_, ?_, by simp [callCount]; omega⟩
    · simp only [removeFromNonLeafLog, hkey, getElem?_view, hlk, ge_iff_le, if_true,
        getPredecessor, hpred, hl', hset, set_view]
    · intro e he
      rcases List.mem_cons.1 he with rfl | he
      · exact ⟨hlk, trivial⟩
      · exact hlog e he
  · have hnl : ¬ (left.keys.length ≥ t) := by omega
    by_cases hrk : t ≤ right.keys.length
    · obtain ⟨succ, Y, hsucc, -⟩ := firstKey_spec t ht fuel d right hlR hd hR
      obtain ⟨r', log, hr', hlog, hcnt⟩ := hrec right succ hlR (shape_rootShape hR)
        (fun _ h => by rw [h] at hrk; simp at hrk; omega) hRs
      refine ⟨⟨ka ++ succ :: kb, ca ++ left :: r' :: cb, false⟩, RemoveEvent.call right :: log,
        ?_, ?_, by simp [callCount]; omega⟩
      · simp only [removeFromNonLeafLog, hkey, getElem?_view, hnl, if_false, getElem?_view2,
          hrk, ge_iff_le, if_true, getSuccessor, hsucc, hr', hset, set_view2]
      · intro e he
        rcases List.mem_cons.1 he with rfl | he
        · exact ⟨hrk, trivial⟩
        · exact hlog e he
    · obtain ⟨m, hm, hsm, hmk, hlm, hrs1, hlv1, hio1⟩ :=
        merge_step t ht d ka kb ca cb left right k hka hrs hlv (by omega) (by omega)
      have hsrt1 : (inorder ⟨ka ++ kb, ca ++ m :: cb, false⟩).Sorted (· < ·) := by
        rw [hio1]; exact hsrt0
      obtain ⟨m', log, hm', hlog, hcnt⟩ := hrec m k hlm (shape_rootShape hsm)
        (fun _ h => by rw [h] at hmk; simp at hmk; omega)
        (child_sorted_of_view ka kb ca cb m hka hsrt1)
      have hev := merge_event_ok t (by omega) _ _ left right ca.length hlen
        (getElem?_view _ _ _) (getElem?_view2 _ _ _ _)
        (shape_keys_eq hL (by omega)) (shape_keys_eq hR (by omega)) hm
      refine ⟨⟨ka ++ kb, ca ++ m' :: cb, false⟩,
        [RemoveEvent.merged ⟨ka ++ k :: kb, ca ++ left :: right :: cb, false⟩ ca.length
          ⟨ka ++ kb, ca ++ m :: cb, false⟩] ++ RemoveEvent.call m :: log, ?_, ?_,
        by simp [callCount]; omega⟩
      · simp only [removeFromNonLeafLog, hkey, getElem?_view, hnl, if_false, getElem?_view2,
          hrk, ge_iff_le, mergeLog, hm, hm', set_view]
      · intro e he
        simp only [List.singleton_append, List.mem_cons] at he
        rcases he with rfl | rfl | he
        · exact ⟨trivial, hev⟩
        · exact ⟨hmk, trivial⟩
        · exact hlog e he

theorem removeFromNodeLog_spec (t : Nat) (ht : 2 ≤ t) :
    ∀ (fuel d : Nat) (node : BTreeNode) (k : Int), levels d node = true → d ≤ fuel →
      rootShape t node = true → (node.leaf = false → node.keys ≠ []) →
      (inorder node).Sorted (· < ·) →
      ∃ node' log, removeFromNodeLog t fuel node k = some (node', RemoveEvent.call node :: log) ∧
        (∀ e ∈ log, callHasKeys t e ∧ mergeShrinks t e) ∧ callCount log + 1 ≤ d := by
  intro fuel
  induction fuel with
  | zero =>
    intro d node k hl hd
    have : d = 0 := by omega
    subst this; simp [levels] at hl
  | succ fuel ih =>
    intro d node k hlv hd hrs hne hsrt
    cases d with
    | zero => simp [levels] at hlv
    | succ d =>
      have hd' : d ≤ fuel := by omega
      obtain ⟨ks, cs, lf⟩ := node
      have hks := keys_sorted_of_inorder hsrt
      simp only at hks hne
      have hple := scanUp_le k ks
      obtain ⟨ka, kb, rfl, hka⟩ := exists_cut ks (scanUp k ks) hple
      obtain ⟨hA, hB, hB'⟩ := scanUp_bounds k ka kb hks hka
      by_cases hfound : (ka ++ kb)[scanUp k (ka ++ kb)]? = some k
      · obtain ⟨kb', rfl⟩ : ∃ kb', kb = k :: kb' := by
          cases kb with
          | nil =>
            rw [← hka] at hfound; simp at hfound
          | cons y kb' =>
            rw [← hka, getElem?_view] at hfound
            simp only [Option.some.injEq] at hfound
            exact ⟨kb', by rw [hfound]⟩
        cases lf with
        | true =>
          have herase : (ka ++ k :: kb').eraseIdx (scanUp k (ka ++ k :: kb')) = ka ++ kb' := by
            rw [← hka]; exact eraseIdx_view _ _ _
          refine ⟨⟨ka ++ kb', cs, true⟩, [], ?_, by simp, by simp [callCount]⟩
          simp only [removeFromNodeLog, findKey, hfound, if_true, removeFromLeaf, vecErase]
          rw [if_pos (by rw [← hka]; simp), herase]
          rfl
        | false =>
          have hlen := ((rootShape_internal t _ _).1 hrs).2.1
          obtain ⟨ca, left, cb0, rfl, hca, -⟩ :=
            exists_view cs (scanUp k (ka ++ k :: kb')) (by omega)
          have hcaka : ca.length = ka.length := by omega
          obtain ⟨right, cb, rfl⟩ : ∃ right cb, cb0 = right :: cb := by
            cases cb0 with
            | nil => simp at hlen; omega
            | cons a b => exact ⟨a, b, rfl⟩
          obtain ⟨node', log, h1, h2, h3⟩ := removeFromNonLeafLog_spec t ht fuel d
            (removeFromNodeLog t fuel) hd'
            (fun c k' a1 a2 a3 a4 => ih d c k' a1 hd' a2 a3 a4)
            ka kb' ca cb left right k hcaka hrs hlv hsrt
          refine ⟨node', log, ?_, h2, by omega⟩
          have hfound' := hfound
          rw [← hca] at hfound'
          simp only [removeFromNodeLog, findKey, ← hca, hfound', if_true, Bool.false_eq_true,
            if_false, h1, Option.map_some']
      · have hB2 := hB' hfound
        cases lf with
        | true =>
          refine ⟨⟨ka ++ kb, cs, true⟩, [], ?_, by simp, by simp [callCount]⟩
          simp only [removeFromNodeLog, findKey, hfound, if_false, if_true, Option.map_some']
        | false =>
          have hlen := ((rootShape_internal t _ _).1 hrs).2.1
          obtain ⟨ca, child, cb, rfl, hca, hget⟩ :=
            exists_view cs (scanUp k (ka ++ kb)) (by omega)
          have hcaka : ca.length = ka.length := by omega
          have hcbkb : cb.length = kb.length := by simp at hlen; omega
          have hstep : ∃ ka' kb' ca' c cb' flog,
              (if child.keys.length < t then
                  fillLog t ⟨ka ++ kb, ca ++ child :: cb, false⟩ ca.length
                else some (⟨ka ++ kb, ca ++ child :: cb, false⟩, [])) =
                some (⟨ka' ++ kb', ca' ++ c :: cb', false⟩, flog) ∧
              (∀ e ∈ flog, callHasKeys t e ∧ mergeShrinks t e) ∧ callCount flog = 0 ∧
              (if (decide (ca.length = (ka ++ kb).length) &&
                    decide (ca.length > (ka' ++ kb').length)) = true
                then ca.length - 1 else ca.length) = ca'.length ∧
              ca'.length = ka'.length ∧ t ≤ c.keys.length ∧
              rootShape t ⟨ka' ++ kb', ca' ++ c :: cb', false⟩ = true ∧
              levels (d + 1) ⟨ka' ++ kb', ca' ++ c :: cb', false⟩ = true ∧
              inorder ⟨ka' ++ kb', ca' ++ c :: cb', false⟩ =
                inorder ⟨ka ++ kb, ca ++ child :: cb, false⟩ := by
            by_cases hck : child.keys.length < t
            · rw [if_pos hck]
              obtain ⟨ka', kb', ca', c, cb', f1, f2, f3, f4, f5, f6, f7, f8, -, -, -⟩ :=
                fill_step t ht d k ka kb ca cb child hcaka hcbkb hrs hlv hsrt (hne rfl)
                  hA hB2 hck
              obtain ⟨flog, g1, g2, g3⟩ := fillLog_ok t ht ka kb ca cb child _ hrs hck f1
              exact ⟨ka', kb', ca', c, cb', flog, g1, g2, g3, f2, f3, f5, f6, f7, f8⟩
            · rw [if_neg hck]
              refine ⟨ka, kb, ca, child, cb, [], rfl, by simp, rfl, ?_, hcaka, by omega, hrs,
                hlv, rfl⟩
              rw [if_neg]; simp; omega
          obtain ⟨ka', kb', ca', c, cb', flog, hfill, hflog, hfcnt, hj, hka', hck, hrs1, hlv1,
            hio1⟩ := hstep
          have hsrt1 : (inorder ⟨ka' ++ kb', ca' ++ c :: cb', false⟩).Sorted (· < ·) := by
            rw [hio1]; exact hsrt
          have hsc := ((rootShape_internal t _ _).1 hrs1).2.2 c (by simp)
          obtain ⟨c', log, hc', hlog, hcnt⟩ := ih d c k
            ((levels_internal d _ _).1 hlv1 c (by simp)) hd' (shape_rootShape hsc)
            (fun _ h => by rw [h] at hck; simp at hck; omega)
            (child_sorted_of_view ka' kb' ca' cb' c hka' hsrt1)
          refine ⟨⟨ka' ++ kb', ca' ++ c' :: cb', false⟩, flog ++ RemoveEvent.call c :: log,
            ?_, ?_, ?_⟩
          · have hfound' := hfound
            rw [← hca] at hfound'
            simp only [removeFromNodeLog, findKey, ← hca, hfound', if_false, Bool.false_eq_true,
              getElem?_view, hfill, hj, hc', set_view, Option.map_some']
          · intro e he
            rcases List.mem_append.1 he with he | he
            · exact hflog e he
            · rcases List.mem_cons.1 he with rfl | he
              · exact ⟨hck, trivial⟩
              · exact hlog e he
          · rw [callCount_append, hfcnt]
            simp [callCount]; omega

end BTreeNode

namespace BTree
open BTreeNode

/-! ## Height and the record of a removal at tree level -/

/-- The height after `insert`: one more when the tree was empty or the root was full, the same
otherwise. -/
theorem insert_height (tr : BTree) (ht : 2 ≤ tr.t) (k : Int)
    (hrs : ∀ r, tr.root = some r → rootShape tr.t r = true) (hbal : tr.Balanced) :
    ∃ tr', tr.insert k = some tr' ∧
      (tr.root = none → tr'.height = 1) ∧
      (∀ r, tr.root = some r → r.keys.length = 2 * tr.t - 1 → tr'.height = tr.height + 1) ∧
      (∀ r, tr.root = some r → r.keys.length ≠ 2 * tr.t - 1 → tr'.height = tr.height) := by
  obtain ⟨t, root⟩ := tr
  simp only at ht hrs ⊢
  cases root with
  | none =>
    refine ⟨⟨t, some ⟨[k], [], true⟩⟩, by simp [insert], ?_, ?_, ?_⟩
    · intro _; simp [BTree.height, BTreeNode.height, heightList]
    · intro r hr; simp at hr
    · intro r hr; simp at hr
  | some root =>
    have hroot := hrs root rfl
    have hb : levels root.height root = true := hbal root rfl
    by_cases hfull : root.keys.length = 2 * t - 1
    · have hsh : shape t root = true := (shape_iff_root t root).2 ⟨hroot, by omega⟩
      have hnr : rootShape t ⟨[], [root], false⟩ = true := by
        rw [rootShape_internal]; simp [hsh]
      obtain ⟨r', h1, h2, -, -, h5, -⟩ := insertNonFull_spec t ht k (root.height + 1)
        ⟨[], [root], false⟩ (by simp [height_mk, heightList]) hnr (by simp; omega)
      have hl : levels (root.height + 1) ⟨[], [root], false⟩ = true := by
        rw [levels_internal]; simpa using hb
      have hh := height_of_levels t _ r' h2 (h5 _ hl)
      refine ⟨⟨t, some r'⟩, ?_, by simp, ?_, ?_⟩
      · rw [insert_full_eq ⟨t, some root⟩ root k rfl hfull, h1]; rfl
      · intro r hr _
        simp only [Option.some.injEq] at hr
        subst hr
        simpa [BTree.height] using hh
      · intro r hr hn
        simp only [Option.some.injEq] at hr
        subst hr
        exact absurd hfull hn
    · obtain ⟨r', h1, h2, -, -, h5, -⟩ := insertNonFull_spec t ht k root.height root le_rfl
        hroot (by have := ((rootShape_iff t root).1 hroot).1; omega)
      have hh := height_of_levels t _ r' h2 (h5 _ hb)
      refine ⟨⟨t, some r'⟩, ?_, by simp, ?_, ?_⟩
      · simp only [insert, hfull, if_false, h1]
      · intro r hr hf
        simp only [Option.some.injEq] at hr
        subst hr
        exact absurd hf hfull
      · intro r hr _
        simp only [Option.some.injEq] at hr
        subst hr
        simpa [BTree.height] using hh

/-- The height after `remove`: one less when the root is left without a key (and is replaced
by its only child, or by nothing), the same otherwise. -/
theorem remove_height (tr : BTree) (ht : 2 ≤ tr.t) (k : Int) (hinv : tr.NodeInv)
    (hbal : tr.Balanced) (hrk : tr.RootKeyed) :
    ∃ tr', tr.remove k = some tr' ∧
      (tr.root = none → tr' = tr) ∧
      (∀ r, tr.root = some r → ∃ r', removeFromNode tr.t r.height r k = some r' ∧
        (r'.keys ≠ [] → tr' = ⟨tr.t, some r'⟩ ∧ tr'.height = tr.height) ∧
        (r'.keys = [] → tr'.root = r'.children[0]? ∧ tr'.height + 1 = tr.height)) := by
  obtain ⟨t, root⟩ := tr
  obtain ⟨hrs, hsrt⟩ := hinv
  simp only at ht hrs ⊢
  cases root with
  | none =>
    refine ⟨⟨t, none⟩, by simp [remove], fun _ => rfl, ?_⟩
    intro r hr; simp at hr
  | some root =>
    simp only [BTree.inorder] at hsrt
    obtain ⟨r', h1, h2, h3, h4, h5⟩ := removeFromNode_spec t ht root.height root.height root k
      (hbal root rfl) le_rfl (hrs root rfl) (hrk root rfl) hsrt
    have hp := height_pos root
    obtain ⟨e, he⟩ : ∃ e, root.height = e + 1 := ⟨root.height - 1, by omega⟩
    have hh := height_of_levels t _ r' h2 h4
    by_cases h0 : r'.keys.length = 0
    · have hk0 : r'.keys = [] := List.length_eq_zero.1 h0
      cases hlf : r'.leaf with
      | true =>
        refine ⟨⟨t, none⟩, by simp [remove, h1, h0, hlf], by simp, ?_⟩
        intro r hr
        simp only [Option.some.injEq] at hr
        subst hr
        refine ⟨r', h1, fun hne => absurd hk0 hne, fun _ => ?_⟩
        have hc := ((rootShape_iff t r').1 h2).2.1 hlf
        rw [he] at h4
        have hz := ((levels_succ e r').1 h4).1 hlf
        constructor
        · rw [hc]; rfl
        · simp [BTree.height, he, hz]
      | false =>
        obtain ⟨ks, cs, lf⟩ := r'
        simp only at h0 hlf hk0
        subst hlf
        subst hk0
        obtain ⟨-, hlen, hch⟩ := (rootShape_internal t _ _).1 h2
        obtain ⟨c, rfl⟩ : ∃ c, cs = [c] := by
          match cs, hlen with
          | [c], _ => exact ⟨c, rfl⟩
        have hc := hch c (by simp)
        have hlc : levels e c = true := by
          rw [he, levels_internal] at h4
          exact h4 c (by simp)
        have hhc := height_of_levels t _ c (shape_rootShape hc) hlc
        refine ⟨⟨t, some c⟩, by simp [remove, h1], by simp, ?_⟩
        intro r hr
        simp only [Option.some.injEq] at hr
        subst hr
        refine ⟨_, h1, fun hne => absurd rfl hne, fun _ => ⟨by simp, ?_⟩⟩
        simp [BTree.height, hhc, he]
    · have hne : r'.keys ≠ [] := fun h => h0 (by rw [h]; rfl)
      refine ⟨⟨t, some r'⟩, by simp [remove, h1, h0], by simp, ?_⟩
      intro r hr
      simp only [Option.some.injEq] at hr
      subst hr
      refine ⟨r', h1, fun _ => ⟨rfl, ?_⟩, fun h => absurd h hne⟩
      simpa [BTree.height] using hh

/-- The record of `remove` on a non-empty tree: it starts with the call on the root, every
later call is on a node with at least `t` keys, every `merge` is on two children with `t-1`
keys each, and there are at most `height` calls. -/
theorem removeLog_spec (tr : BTree) (ht : 2 ≤ tr.t) (k : Int) (hinv : tr.NodeInv)
    (hbal : tr.Balanced) (hrk : tr.RootKeyed) (r : BTreeNode) (hr : tr.root = some r) :
    ∃ tr' log, tr.removeLog k = some (tr', RemoveEvent.call r :: log) ∧
      tr.remove k = some tr' ∧
      (∀ e ∈ log, callHasKeys tr.t e ∧ mergeShrinks tr.t e) ∧
      callCount log + 1 ≤ tr.height := by
  obtain ⟨tr', hrem, -⟩ := remove_spec tr ht k hinv hbal hrk
  have hsrt : r.inorder.Sorted (· < ·) := by
    have := hinv.2
    simpa [BTree.inorder, hr] using this
  obtain ⟨node', log, h1, h2, h3⟩ := removeFromNodeLog_spec tr.t ht r.height r.height r k
    (hbal r hr) le_rfl (hinv.1 r hr) (hrk r hr) hsrt
  have hfst := removeLog_fst tr k
  rw [hrem] at hfst
  cases hl : tr.removeLog k with
  | none => rw [hl] at hfst; simp at hfst
  | some p =>
    obtain ⟨tr2, log2⟩ := p
    rw [hl] at hfst
    simp only [Option.map_some', Option.some.injEq] at hfst
    subst hfst
    have hlog : log2 = RemoveEvent.call r :: log := by
      simp only [removeLog, hr, h1] at hl
      split at hl
      · split at hl
        · simp only [Option.some.injEq, Prod.mk.injEq] at hl
          exact hl.2.symm
        · split at hl
          · exact absurd hl (by simp)
          · simp only [Option.some.injEq, Prod.mk.injEq] at hl
            exact hl.2.symm
      · simp only [Option.some.injEq, Prod.mk.injEq] at hl
        exact hl.2.symm
    subst hlog
    refine ⟨tr2, log, rfl, hrem, h2, ?_⟩
    simpa [BTree.height, hr] using h3

/-- Removing the only key of an internal root whose two children hold `t-1` keys each: the
children and the key are merged, the key is removed from the merged node, and the root is
left with that node as its only child. -/
theorem root_merge_remove (t : Nat) (ht : 2 ≤ t) (k : Int) (left right : BTreeNode) (d : Nat)
    (hrs : rootShape t ⟨[k], [left, right], false⟩ = true)
    (hlv : levels (d + 1) ⟨[k], [left, right], false⟩ = true)
    (hsrt : (BTreeNode.inorder ⟨[k], [left, right], false⟩).Sorted (· < ·))
    (hl : left.keys.length = t - 1) (hr : right.keys.length = t - 1) :
    ∃ m', removeFromNode t d
          ⟨left.keys ++ [k] ++ right.keys,
           if left.leaf then left.children else left.children ++ right.children,
           left.leaf⟩ k = some m' ∧
      removeFromNode t (d + 1) ⟨[k], [left, right], false⟩ k = some ⟨[], [m'], false⟩ ∧
      rootShape t m' = true ∧ levels d m' = true ∧
      m'.inorder = left.inorder ++ right.inorder ∧
      (left.inorder ++ k :: right.inorder).Sorted (· < ·) := by
  obtain ⟨m, hm1, hsm, hmk, hlm, -, -, hio1⟩ :=
    merge_step t ht d [] [] [] [] left right k rfl hrs hlv (by omega) (by omega)
  have hme := merge_eq [] [] [] [] left right k false rfl
  rw [hme] at hm1
  simp only [Option.some.injEq, BTreeNode.mk.injEq, List.nil_append, List.cons.injEq,
    and_true, true_and] at hm1
  subst hm1
  have hio : BTreeNode.inorder ⟨[k], [left, right], false⟩ =
      left.inorder ++ k :: right.inorder := by
    have := inorder_view2 [] [] [] [] left right k rfl
    simpa [interleave] using this
  have hmio : BTreeNode.inorder ⟨left.keys ++ [k] ++ right.keys,
      if left.leaf then left.children else left.children ++ right.children, left.leaf⟩ =
      left.inorder ++ k :: right.inorder := by
    have h := hio1
    simp only [List.nil_append] at h
    rw [inorder_single] at h
    rw [h]; exact hio
  have hs1 : (left.inorder ++ k :: right.inorder).Sorted (· < ·) := by rw [← hio]; exact hsrt
  obtain ⟨m', h1, h2, h3, h4, h5⟩ := removeFromNode_spec t ht d d _ k hlm le_rfl
    (shape_rootShape hsm) (fun _ h => by rw [h] at hmk; simp at hmk; omega)
    (by rw [hmio]; exact hs1)
  refine ⟨m', h1, ?_, h2, h4, ?_, hs1⟩
  · have hnl : ¬ (left.keys.length ≥ t) := by omega
    have hnr : ¬ (right.keys.length ≥ t) := by omega
    have hme' : merge ⟨[k], [left, right], false⟩ 0 = some ⟨[], [_], false⟩ := hme
    simp only [removeFromNode, findKey, scanUp, lt_irrefl, if_false, List.getElem?_cons_zero,
      if_true, Bool.false_eq_true, removeFromNonLeaf, hnl, hnr, zero_add,
      List.getElem?_cons_succ, hme', h1, List.set_cons_zero]
  · rw [h5, hmio]
    exact filter_ne_mid k _ _ hs1

end BTree

/-! ## The caller layer keeps its set equal to the keys of the tree -/

namespace Visualizer

theorem values_eq_inorder (degree : Nat) (hd : 2 ≤ degree) (v : Visualizer)
    (h : Reachable degree v) :
    BTree.Reachable degree v.tree ∧ v.values = v.tree.inorder := by
  induction h with
  | fresh => exact ⟨BTree.Reachable.empty, rfl⟩
  | @insertValue v v' val _ hins ih =>
    obtain ⟨hreach, hval⟩ := ih
    unfold insertValue at hins
    by_cases hmem : val ∈ v.values
    · simp only [hmem, not_true_eq_false, if_false, Option.some.injEq] at hins
      subst hins
      exact ⟨hreach, hval⟩
    · simp only [hmem, not_false_eq_true, if_true] at hins
      obtain ⟨ht, hinv, -, -⟩ := BTree.reachable_inv degree hd v.tree hreach
      have hk : val ∉ v.tree.inorder := by rw [← hval]; exact hmem
      obtain ⟨tr', h1, -, -, h4, -⟩ := BTree.insert_inv v.tree (by omega) hinv val hk
      rw [h1] at hins
      simp only [Option.some.injEq] at hins
      subst hins
      refine ⟨BTree.Reachable.insert hreach hk h1, ?_⟩
      simp only [setInsert, h4, hval]
      rw [if_neg hk]
  | @removeValue v v' val _ hrem ih =>
    obtain ⟨hreach, hval⟩ := ih
    unfold removeValue at hrem
    by_cases hmem : val ∈ v.values
    · simp only [hmem, if_true] at hrem
      obtain ⟨ht, hinv, hbal, hk⟩ := BTree.reachable_inv degree hd v.tree hreach
      obtain ⟨tr', h1, -, -, -, -, h6⟩ := BTree.remove_spec v.tree (by omega) val hinv hbal
        (BTree.rootKeyed_of_keys _ hk)
      rw [h1] at hrem
      simp only [Option.some.injEq] at hrem
      subst hrem
      refine ⟨BTree.Reachable.remove hreach h1, ?_⟩
      simp only [setErase, h6, hval]
      exact (BTree.filter_ne_eq_erase _ val hinv.2).symm
    · simp only [hmem, if_false, Option.some.injEq] at hrem
      subst hrem
      exact ⟨hreach, hval⟩

end Visualizer

/-! ## Root merge, the caller layer, duplicates, the empty tree, the split -/

namespace BTreeNode

theorem take_view {α : Type} (a b : List α) : (a ++ b).take a.length = a :=
  List.take_left' rfl

theorem drop_view {α : Type} (a b : List α) : (a ++ b).drop a.length = b :=
  List.drop_left' rfl

theorem drop_view_succ {α : Type} (a : List α) (x : α) (b : List α) :
    (a ++ x :: b).drop (a.length + 1) = b := by
  have : a ++ x :: b = (a ++ [x]) ++ b := by simp
  rw [this]
  exact List.drop_left' (by simp)

end BTreeNode

namespace BTree
open BTreeNode

/-- C11. Root merge collapses one level: for every degree `t ≥ 2` and every valid tree (node
invariants, all leaves at one depth) whose root is internal with the single key `k` and whose
two children hold exactly `t-1` keys each, `remove k` calls `merge(root, 0)`, which joins the
two children and `k` into one node of `2t-1` keys under a root left without keys; `k` is then
removed from that node, the node becomes the new root, the height drops by exactly one, and
`k` is no longer in the tree (the other keys are all kept, `search k` is false). When the
children are leaves the result is the single leaf holding the keys of the left child followed
by those of the right child: for `t = 2`, `[a]` and `[b]` under `[k]` give the leaf
`[a, b]`. -/
theorem root_merge_collapse (t : Nat) (ht : 2 ≤ t) (k : Int) (left right : BTreeNode)
    (hinv : (⟨t, some ⟨[k], [left, right], false⟩⟩ : BTree).NodeInv)
    (hbal : (⟨t, some ⟨[k], [left, right], false⟩⟩ : BTree).Balanced)
    (hl : left.keys.length = t - 1) (hr : right.keys.length = t - 1) :
    merge ⟨[k], [left, right], false⟩ 0 =
      some ⟨[], [⟨left.keys ++ [k] ++ right.keys,
                  if left.leaf then left.children else left.children ++ right.children,
                  left.leaf⟩], false⟩ ∧
    ∃ m', removeFromNode t left.height
          ⟨left.keys ++ [k] ++ right.keys,
           if left.leaf then left.children else left.children ++ right.children,
           left.leaf⟩ k = some m' ∧
      (⟨t, some ⟨[k], [left, right], false⟩⟩ : BTree).remove k = some ⟨t, some m'⟩ ∧
      (⟨t, some m'⟩ : BTree).height + 1 =
        (⟨t, some ⟨[k], [left, right], false⟩⟩ : BTree).height ∧
      k ∉ m'.inorder ∧
      m'.inorder = left.inorder ++ right.inorder ∧
      (⟨t, some m'⟩ : BTree).search k = some false ∧
      (left.leaf = true → m' = ⟨left.keys ++ right.keys, [], true⟩) := by
  have hrs := hinv.1 _ rfl
  have hsrt : (BTreeNode.inorder ⟨[k], [left, right], false⟩).Sorted (· < ·) := hinv.2
  have hb := hbal _ rfl
  obtain ⟨e, he⟩ : ∃ e, BTreeNode.height ⟨[k], [left, right], false⟩ = e + 1 :=
    ⟨_, (Nat.succ_pred_eq_of_pos (height_pos _)).symm⟩
  rw [he] at hb
  obtain ⟨-, -, hch⟩ := (rootShape_internal t _ _).1 hrs
  have hsl := hch left (by simp)
  have hsr := hch right (by simp)
  have hll : levels e left = true := (levels_internal e _ _).1 hb left (by simp)
  have hlr : levels e right = true := (levels_internal e _ _).1 hb right (by simp)
  have hhl : left.height = e := height_of_levels t e left (shape_rootShape hsl) hll
  obtain ⟨m', h1, h2, h3, h4, h5, hs1⟩ := root_merge_remove t ht k left right e hrs hb hsrt hl hr
  have hsm' : m'.inorder.Sorted (· < ·) := by
    rw [h5]
    exact hs1.sublist (List.Sublist.append (List.Sublist.refl _) (List.sublist_cons_self _ _))
  have hnot : k ∉ m'.inorder := by
    rw [h5]
    intro hmem
    obtain ⟨hA, hB, hAB⟩ := List.pairwise_append.1 hs1
    rcases List.mem_append.1 hmem with hm | hm
    · exact lt_irrefl k (hAB k hm k (by simp))
    · exact lt_irrefl k ((List.pairwise_cons.1 hB).1 k hm)
  refine ⟨merge_eq [] [] [] [] left right k false rfl, m', by rw [hhl]; exact h1, ?_, ?_, hnot,
    h5, ?_, ?_⟩
  · simp only [remove]
    rw [he, h2]
    simp
  · have := height_of_levels t e m' h3 h4
    simp only [BTree.height]
    rw [he, this]
  · rw [search_spec _ k (nodeInv_of t m' h3 hsm')]
    simp only [BTree.inorder]
    simp [hnot]
  · intro hlf
    have hrf : right.leaf = true := by
      rw [← same_leaf_of_levels t e left right (shape_rootShape hsl) (shape_rootShape hsr)
        hll hlr]
      exact hlf
    obtain ⟨e', rfl⟩ : ∃ e', e = e' + 1 := by
      cases e with
      | zero => simp [levels] at hll
      | succ e' => exact ⟨e', rfl⟩
    have he0 : e' = 0 := (leaf_iff_of_levels t e' left (shape_rootShape hsl) hll).1 hlf
    subst he0
    have hmlf : m'.leaf = true := (leaf_iff_of_levels t 0 m' h3 h4).2 rfl
    have hmc : m'.children = [] := ((rootShape_iff t m').1 h3).2.1 hmlf
    have hmk : m'.keys = left.keys ++ right.keys := by
      have hm := inorder_eq m'
      rw [hmlf, h5, inorder_eq left, inorder_eq right, hlf, hrf] at hm
      simpa using hm.symm
    obtain ⟨mk, mc, ml⟩ := m'
    simp only at hmlf hmc hmk
    rw [hmlf, hmc, hmk]

/-- An instance of C11 at degree 2: the leaves `[1]` and `[3]` under the root `[2]`; removing 2
leaves the single leaf `[1, 3]`. -/
theorem root_merge_collapse_witness :
    (⟨2, some ⟨[2], [⟨[1], [], true⟩, ⟨[3], [], true⟩], false⟩⟩ : BTree).NodeInv ∧
    (⟨2, some ⟨[2], [⟨[1], [], true⟩, ⟨[3], [], true⟩], false⟩⟩ : BTree).Balanced ∧
    merge ⟨[2], [⟨[1], [], true⟩, ⟨[3], [], true⟩], false⟩ 0 =
      some ⟨[], [⟨[1, 2, 3], [], true⟩], false⟩ ∧
    ∃ m', removeFromNode 2 1 ⟨[1, 2, 3], [], true⟩ 2 = some m' ∧
      (⟨2, some ⟨[2], [⟨[1], [], true⟩, ⟨[3], [], true⟩], false⟩⟩ : BTree).remove 2 =
        some ⟨2, some m'⟩ ∧
      (⟨2, some m'⟩ : BTree).height + 1 =
        (⟨2, some ⟨[2], [⟨[1], [], true⟩, ⟨[3], [], true⟩], false⟩⟩ : BTree).height ∧
      (2 : Int) ∉ m'.inorder ∧
      m'.inorder = [1, 3] ∧
      (⟨2, some m'⟩ : BTree).search 2 = some false ∧
      (true = true → m' = ⟨[1, 3], [], true⟩) :=
  ⟨nodeInv_of 2 _ (by decide!) (by decide!), balanced_of 2 _ (by decide!),
    root_merge_collapse 2 (by decide) 2 ⟨[1], [], true⟩ ⟨[3], [], true⟩
      (nodeInv_of 2 _ (by decide!) (by decide!)) (balanced_of 2 _ (by decide!))
      (by decide) (by decide)⟩

/-- C13. The tree itself does not deduplicate: for every degree `t ≥ 2`, every tree that
satisfies the node invariants and every key `k` already in the tree, `insert k` succeeds and
the in-order traversal afterwards holds `k` exactly twice, is one key longer, holds every
other key as often as before, and is therefore not duplicate-free. -/
theorem insert_duplicate (tr : BTree) (ht : 2 ≤ tr.t) (hinv : tr.NodeInv) (k : Int)
    (hk : k ∈ tr.inorder) :
    ∃ tr', tr.insert k = some tr' ∧
      tr'.inorder.count k = 2 ∧
      tr'.inorder.length = tr.inorder.length + 1 ∧
      (∀ x, x ≠ k → tr'.inorder.count x = tr.inorder.count x) ∧
      ¬ tr'.inorder.Nodup := by
  obtain ⟨r', h1, -, -, -, h5⟩ := insert_spec tr ht k hinv.1
  obtain ⟨-, hp⟩ := h5 hinv.2
  have hnd : tr.inorder.Nodup := hinv.2.nodup
  have hc1 : tr.inorder.count k = 1 := List.count_eq_one_of_mem hnd hk
  have hc2 : r'.inorder.count k = 2 := by
    rw [hp.count_eq, List.count_cons_self, hc1]
  refine ⟨⟨tr.t, some r'⟩, h1, hc2, ?_, ?_, ?_⟩
  · simpa [BTree.inorder] using hp.length_eq
  · intro x hx
    have := hp.count_eq x
    rw [List.count_cons_of_ne hx] at this
    exact this
  · intro hn
    have := List.nodup_iff_count_le_one.1 hn k
    simp only [BTree.inorder] at this
    omega

/-- An instance of C13: insert the key 10 of the scenario-B tree a second time. -/
theorem insert_duplicate_witness :
    2 ≤ scenarioB.t ∧ scenarioB.NodeInv ∧ (10 : Int) ∈ scenarioB.inorder ∧
    ∃ tr', scenarioB.insert 10 = some tr' ∧
      tr'.inorder.count 10 = 2 ∧
      tr'.inorder.length = scenarioB.inorder.length + 1 ∧
      (∀ x, x ≠ 10 → tr'.inorder.count x = scenarioB.inorder.count x) ∧
      ¬ tr'.inorder.Nodup :=
  ⟨by decide, nodeInv_of 3 _ (by decide!) (by decide!), by decide!,
    insert_duplicate scenarioB (by decide) (nodeInv_of 3 _ (by decide!) (by decide!)) 10
      (by decide!)⟩

/-- C14. Empty-tree operations: for every degree `t` and every key `k`, on the tree whose root
is null `search k` returns false and `remove k` returns the same tree, its root still null;
both have a defined result. -/
theorem empty_tree_ops (t : Nat) (k : Int) :
    (BTree.empty t).root = none ∧
    (BTree.empty t).search k = some false ∧
    (BTree.empty t).remove k = some (BTree.empty t) := by
  simp [BTree.empty, search, searchNode, remove]

end BTree

namespace Visualizer

/-- C12. Caller-layer set semantics: for every degree `≥ 2` and every state of a `Visualizer`
reached from a fresh one by `insertValue` and `removeValue` calls, the membership set `values`
holds exactly the keys stored in the tree (as sorted sequences, the two are equal), the tree
holds no key twice, `insertValue` of a value already in `values` and `removeValue` of a value
not in `values` return the state unchanged (tree and set), and every call has a defined
result. -/
theorem set_semantics (degree : Nat) (hd : 2 ≤ degree) (v : Visualizer)
    (h : Reachable degree v) :
    (∀ x, x ∈ v.values ↔ x ∈ v.tree.inorder) ∧
    v.values = v.tree.inorder ∧
    v.tree.inorder.Nodup ∧
    (∀ val, val ∈ v.values → v.insertValue val = some v) ∧
    (∀ val, val ∉ v.values → v.removeValue val = some v) ∧
    (∀ val, ∃ v', v.insertValue val = some v') ∧
    (∀ val, ∃ v', v.removeValue val = some v') := by
  obtain ⟨hreach, hval⟩ := values_eq_inorder degree hd v h
  obtain ⟨ht, hinv, hbal, hk⟩ := BTree.reachable_inv degree hd v.tree hreach
  refine ⟨fun x => by rw [hval], hval, hinv.2.nodup, ?_, ?_, ?_, ?_⟩
  · intro val hmem
    simp [insertValue, hmem]
  · intro val hmem
    simp [removeValue, hmem]
  · intro val
    by_cases hmem : val ∈ v.values
    · exact ⟨v, by simp [insertValue, hmem]⟩
    · obtain ⟨tr', h1, -⟩ := BTree.insert_inv v.tree (by omega) hinv val
        (by rw [← hval]; exact hmem)
      exact ⟨⟨tr', setInsert val v.values⟩, by simp [insertValue, hmem, h1]⟩
  · intro val
    by_cases hmem : val ∈ v.values
    · obtain ⟨tr', h1, -⟩ := BTree.remove_spec v.tree (by omega) val hinv hbal
        (BTree.rootKeyed_of_keys _ hk)
      exact ⟨⟨tr', setErase val v.values⟩, by simp [removeValue, hmem, h1]⟩
    · exact ⟨v, by simp [removeValue, hmem]⟩

/-- An instance of C12: the degree-3 `Visualizer` after `insertValue 5`. -/
theorem set_semantics_witness :
    2 ≤ 3 ∧ Reachable 3 ⟨⟨3, some ⟨[5], [], true⟩⟩, [5]⟩ ∧
    (∀ x, x ∈ (⟨⟨3, some ⟨[5], [], true⟩⟩, [5]⟩ : Visualizer).values ↔
      x ∈ (⟨⟨3, some ⟨[5], [], true⟩⟩, [5]⟩ : Visualizer).tree.inorder) ∧
    (⟨⟨3, some ⟨[5], [], true⟩⟩, [5]⟩ : Visualizer).values =
      (⟨⟨3, some ⟨[5], [], true⟩⟩, [5]⟩ : Visualizer).tree.inorder ∧
    (⟨⟨3, some ⟨[5], [], true⟩⟩, [5]⟩ : Visualizer).tree.inorder.Nodup ∧
    (∀ val, val ∈ (⟨⟨3, some ⟨[5], [], true⟩⟩, [5]⟩ : Visualizer).values →
      (⟨⟨3, some ⟨[5], [], true⟩⟩, [5]⟩ : Visualizer).insertValue val =
        some ⟨⟨3, some ⟨[5], [], true⟩⟩, [5]⟩) ∧
    (∀ val, val ∉ (⟨⟨3, some ⟨[5], [], true⟩⟩, [5]⟩ : Visualizer).values →
      (⟨⟨3, some ⟨[5], [], true⟩⟩, [5]⟩ : Visualizer).removeValue val =
        some ⟨⟨3, some ⟨[5], [], true⟩⟩, [5]⟩) ∧
    (∀ val, ∃ v', (⟨⟨3, some ⟨[5], [], true⟩⟩, [5]⟩ : Visualizer).insertValue val = some v') ∧
    (∀ val, ∃ v', (⟨⟨3, some ⟨[5], [], true⟩⟩, [5]⟩ : Visualizer).removeValue val = some v') :=
  ⟨by decide,
    @Reachable.insertValue 3 (fresh 3) ⟨⟨3, some ⟨[5], [], true⟩⟩, [5]⟩ 5 Reachable.fresh
      (by decide!),
    set_semantics 3 (by decide) ⟨⟨3, some ⟨[5], [], true⟩⟩, [5]⟩
      (@Reachable.insertValue 3 (fresh 3) ⟨⟨3, some ⟨[5], [], true⟩⟩, [5]⟩ 5 Reachable.fresh
        (by decide!))⟩

end Visualizer

/-! ## The split, the record of a removal, recursion depth, index safety, balance -/

namespace BTreeNode

/-- C15. Split postcondition: for every `t ≥ 2`, every internal parent node (one child more
than keys) and every index `idx` such that `parent.children[idx]` holds exactly `2t-1` keys
(and `2t` children if it is internal), `splitChild(parent, idx)` has a defined result in which
the child's key of index `t-1` sits in `parent.keys` at position `idx`, `children[idx]` keeps
exactly the first `t-1` keys of the child (and its first `t` children if internal), a new
node with the same leaf flag holding the last `t-1` keys (and the last `t` children if
internal) sits at `children[idx+1]`, all other keys and children of the parent keep their
order around them, and the in-order traversal of the parent's subtree is unchanged. -/
theorem splitChild_post (t : Nat) (ht : 2 ≤ t) (parent child : BTreeNode) (idx : Nat)
    (hleaf : parent.leaf = false)
    (hlen : parent.children.length = parent.keys.length + 1)
    (hc : parent.children[idx]? = some child)
    (hk : child.keys.length = 2 * t - 1)
    (hcc : child.leaf = false → child.children.length = 2 * t) :
    ∃ mid parent',
      child.keys[t - 1]? = some mid ∧
      splitChild t parent idx = some parent' ∧
      parent'.keys = parent.keys.take idx ++ mid :: parent.keys.drop idx ∧
      parent'.children = parent.children.take idx ++
        ⟨child.keys.take (t - 1),
          if child.leaf then child.children else child.children.take t, child.leaf⟩ ::
        ⟨child.keys.drop t, if child.leaf then [] else child.children.drop t, child.leaf⟩ ::
        parent.children.drop (idx + 1) ∧
      parent'.leaf = parent.leaf ∧
      (child.keys.take (t - 1)).length = t - 1 ∧
      (child.keys.drop t).length = t - 1 ∧
      (child.leaf = false →
        (child.children.take t).length = t ∧ (child.children.drop t).length = t) ∧
      inorder parent' = inorder parent := by
  obtain ⟨ks, cs, lf⟩ := parent
  simp only at hleaf hlen hc ⊢
  subst hleaf
  have hi : idx < cs.length := by
    by_contra hcon
    rw [List.getElem?_eq_none (by omega)] at hc
    exact absurd hc (by simp)
  obtain ⟨ca, c0, cb, rfl, hca, hget⟩ := exists_view cs idx hi
  rw [hget] at hc
  simp only [Option.some.injEq] at hc
  subst hc
  obtain ⟨ka, kb, rfl, hka⟩ := exists_cut ks idx (by simp at hlen hi; omega)
  have hcaka : ca.length = ka.length := by omega
  subst hca
  obtain ⟨cks, ccs, clf⟩ := c0
  simp only at hk hcc ⊢
  obtain ⟨lk, mid, rk, rfl, hlk, -⟩ := exists_view cks (t - 1) (by omega)
  have hrk : rk.length = t - 1 := by simp at hk; omega
  have ht1 : t = lk.length + 1 := by omega
  have hmid : (lk ++ mid :: rk)[t - 1]? = some mid := by
    rw [← hlk]; exact getElem?_view _ _ _
  have hktake : (lk ++ mid :: rk).take (t - 1) = lk := by rw [← hlk]; exact take_view _ _
  have hkdrop : (lk ++ mid :: rk).drop t = rk := by rw [ht1]; exact drop_view_succ _ _ _
  have hpk1 : (ka ++ kb).take ca.length = ka := by rw [hcaka]; exact take_view _ _
  have hpk2 : (ka ++ kb).drop ca.length = kb := by rw [hcaka]; exact drop_view _ _
  have hpc1 : ∀ x : BTreeNode, (ca ++ x :: cb).take ca.length = ca := fun x => take_view _ _
  have hpc2 : ∀ x : BTreeNode, (ca ++ x :: cb).drop (ca.length + 1) = cb :=
    fun x => drop_view_succ _ _ _
  cases clf with
  | true =>
    have heq := splitChild_eq t (by omega) ka kb ca cb false lk rk mid ccs [] true hcaka hlk hrk
      (by simp)
    simp only [List.append_nil, if_true] at heq
    refine ⟨mid, _, hmid, heq, ?_, ?_, rfl, ?_, ?_, by simp, ?_⟩
    · simp only [hpk1, hpk2]
    · simp only [hpc1, hpc2, hktake, hkdrop, if_true]
    · rw [hktake]; exact hlk
    · rw [hkdrop]; exact hrk
    · rw [inorder_view2 _ _ _ _ _ _ _ hcaka, inorder_view _ _ _ _ _ hcaka]
      simp [inorder_leaf]
  | false =>
    have hcl := hcc rfl
    obtain ⟨lc, rc, rfl, hlc⟩ := exists_cut ccs t (by omega)
    have hrc : rc.length = t := by simp at hcl; omega
    have heq := splitChild_eq t (by omega) ka kb ca cb false lk rk mid lc rc false hcaka hlk hrk
      (fun _ => ⟨hlc, hrc⟩)
    simp only [Bool.false_eq_true, if_false] at heq
    have hctake : (lc ++ rc).take t = lc := by rw [← hlc]; exact take_view _ _
    have hcdrop : (lc ++ rc).drop t = rc := by rw [← hlc]; exact drop_view _ _
    refine ⟨mid, _, hmid, heq, ?_, ?_, rfl, ?_, ?_, ?_, ?_⟩
    · simp only [hpk1, hpk2]
    · simp only [hpc1, hpc2, hktake, hkdrop, hctake, hcdrop, Bool.false_eq_true, if_false]
    · rw [hktake]; exact hlk
    · rw [hkdrop]; exact hrk
    · intro _
      rw [hctake, hcdrop]; exact ⟨hlc, hrc⟩
    · rw [inorder_view2 _ _ _ _ _ _ _ hcaka, inorder_view _ _ _ _ _ hcaka,
        inorder_join lk rk mid lc rc (by omega)]
      simp

/-- An instance of C15 at degree 2: the full leaf `[1, 2, 3]`, child 0 of the parent `[10]`,
is split around 2. -/
theorem splitChild_post_witness :
    ∃ mid parent',
      ([1, 2, 3] : List Int)[2 - 1]? = some mid ∧
      splitChild 2 ⟨[10], [⟨[1, 2, 3], [], true⟩, ⟨[20], [], true⟩], false⟩ 0 = some parent' ∧
      parent'.keys = ([10] : List Int).take 0 ++ mid :: ([10] : List Int).drop 0 ∧
      parent'.children =
        ([⟨[1, 2, 3], [], true⟩, ⟨[20], [], true⟩] : List BTreeNode).take 0 ++
        ⟨([1, 2, 3] : List Int).take (2 - 1),
          if true = true then [] else ([] : List BTreeNode).take 2, true⟩ ::
        ⟨([1, 2, 3] : List Int).drop 2,
          if true = true then [] else ([] : List BTreeNode).drop 2, true⟩ ::
        ([⟨[1, 2, 3], [], true⟩, ⟨[20], [], true⟩] : List BTreeNode).drop (0 + 1) ∧
      parent'.leaf = false ∧
      (([1, 2, 3] : List Int).take (2 - 1)).length = 2 - 1 ∧
      (([1, 2, 3] : List Int).drop 2).length = 2 - 1 ∧
      (true = false →
        (([] : List BTreeNode).take 2).length = 2 ∧ (([] : List BTreeNode).drop 2).length = 2) ∧
      inorder parent' = inorder ⟨[10], [⟨[1, 2, 3], [], true⟩, ⟨[20], [], true⟩], false⟩ :=
  splitChild_post 2 (by decide) ⟨[10], [⟨[1, 2, 3], [], true⟩, ⟨[20], [], true⟩], false⟩
    ⟨[1, 2, 3], [], true⟩ 0 rfl (by decide) (by decide!) (by decide) (by decide)

end BTreeNode

namespace BTree
open BTreeNode

/-- C16. Proactive fill guarantee: for every degree `t ≥ 2`, every valid tree with distinct
keys (node invariants, all leaves at one depth, an internal root holds a key) and every key
`k`, `remove k` has a defined result, and in the record of its run the first call of
`removeFromNode` is the one on the root while every later call (reached through fill and
descent, through predecessor or successor replacement, or through the merge branch) is on a
node that holds at least `t` keys at the moment of the call; the tree afterwards satisfies
the node invariants, so no node other than the root is left with fewer than `t-1` keys. -/
theorem remove_calls_filled (tr : BTree) (ht : 2 ≤ tr.t) (k : Int) (hinv : tr.NodeInv)
    (hbal : tr.Balanced) (hrk : tr.RootKeyed) :
    ∃ tr' log, tr.removeLog k = some (tr', log) ∧ tr.remove k = some tr' ∧
      (∀ r, tr.root = some r → log.head? = some (RemoveEvent.call r)) ∧
      (∀ node, RemoveEvent.call node ∈ log.tail → tr.t ≤ node.keys.length) ∧
      tr'.NodeInv := by
  obtain ⟨tr0, hrem0, -, hinv0, -⟩ := remove_spec tr ht k hinv hbal hrk
  cases hroot : tr.root with
  | none =>
    refine ⟨tr, [], by simp [removeLog, hroot], by simp [remove, hroot], ?_, ?_, hinv⟩
    · intro r hr; simp at hr
    · intro node hn; simp at hn
  | some r =>
    obtain ⟨tr', log, h1, h2, h3, -⟩ := removeLog_spec tr ht k hinv hbal hrk r hroot
    have : tr0 = tr' := by
      rw [hrem0] at h2
      exact Option.some.inj h2
    subst this
    refine ⟨tr0, _, h1, h2, ?_, ?_, hinv0⟩
    · intro r' hr'
      simp only [Option.some.injEq] at hr'
      subst hr'
      rfl
    · intro node hn
      exact (h3 _ hn).1

/-- An instance of C16: remove the root key 10 from the scenario-B tree. -/
theorem remove_calls_filled_witness :
    2 ≤ scenarioB.t ∧ scenarioB.NodeInv ∧ scenarioB.Balanced ∧ scenarioB.RootKeyed ∧
    ∃ tr' log, scenarioB.removeLog 10 = some (tr', log) ∧ scenarioB.remove 10 = some tr' ∧
      (∀ r, scenarioB.root = some r → log.head? = some (RemoveEvent.call r)) ∧
      (∀ node, RemoveEvent.call node ∈ log.tail → scenarioB.t ≤ node.keys.length) ∧
      tr'.NodeInv :=
  ⟨by decide, nodeInv_of 3 _ (by decide!) (by decide!), balanced_of 3 _ (by decide!),
    rootKeyed_of 3 _ (by decide!),
    remove_calls_filled scenarioB (by decide) 10 (nodeInv_of 3 _ (by decide!) (by decide!))
      (balanced_of 3 _ (by decide!)) (rootKeyed_of 3 _ (by decide!))⟩

/-- C17 as stated fails. On `smallTree` (degree 2, the root `[2]` over the leaves `[1]` and
`[3]`), `remove 2` calls `merge(root, 0)` from `removeFromNonLeaf` and `remove 0` calls it
from `fill`; either way the merged node `children[0]` is `[1, 2, 3]`, with `2t-1 = 3` keys,
which is outside the range `[t-1, 2t-2] = [1, 2]`. -/
theorem merge_policy_counterexample :
    2 ≤ smallTree.t ∧ smallTree.NodeInv ∧ smallTree.Balanced ∧ smallTree.RootKeyed ∧
    smallTree.removeLog 2 = some (⟨2, some ⟨[1, 3], [], true⟩⟩,
      [RemoveEvent.call ⟨[2], [⟨[1], [], true⟩, ⟨[3], [], true⟩], false⟩,
       RemoveEvent.merged ⟨[2], [⟨[1], [], true⟩, ⟨[3], [], true⟩], false⟩ 0
         ⟨[], [⟨[1, 2, 3], [], true⟩], false⟩,
       RemoveEvent.call ⟨[1, 2, 3], [], true⟩]) ∧
    smallTree.removeLog 0 = some (⟨2, some ⟨[1, 2, 3], [], true⟩⟩,
      [RemoveEvent.call ⟨[2], [⟨[1], [], true⟩, ⟨[3], [], true⟩], false⟩,
       RemoveEvent.merged ⟨[2], [⟨[1], [], true⟩, ⟨[3], [], true⟩], false⟩ 0
         ⟨[], [⟨[1, 2, 3], [], true⟩], false⟩,
       RemoveEvent.call ⟨[1, 2, 3], [], true⟩]) ∧
    merge ⟨[2], [⟨[1], [], true⟩, ⟨[3], [], true⟩], false⟩ 0 =
      some ⟨[], [⟨[1, 2, 3], [], true⟩], false⟩ ∧
    (⟨[], [⟨[1, 2, 3], [], true⟩], false⟩ : BTreeNode).children[0]? =
      some ⟨[1, 2, 3], [], true⟩ ∧
    ¬ (smallTree.t - 1 ≤ (⟨[1, 2, 3], [], true⟩ : BTreeNode).keys.length ∧
        (⟨[1, 2, 3], [], true⟩ : BTreeNode).keys.length ≤ 2 * smallTree.t - 2) :=
  ⟨by decide, nodeInv_of 2 _ (by decide!) (by decide!), balanced_of 2 _ (by decide!),
    rootKeyed_of 2 _ (by decide!), by decide!, by decide!, by decide!, by decide!, by decide!⟩

/-- C17, amended. Merge policy: for every degree `t ≥ 2`, every valid tree (node invariants,
all leaves at one depth, an internal root holds a key) and every key `k`, `remove k` has a
defined result, and every call `merge(node, idx)` in the record of its run (from `fill` or
from `removeFromNonLeaf`) has a defined result in which the parent `node` has exactly one key
and exactly one child less, and the merged node `children[idx]` holds exactly `2t-1` keys
(two children of `t-1` keys each and the separator). -/
theorem merge_policy (tr : BTree) (ht : 2 ≤ tr.t) (k : Int) (hinv : tr.NodeInv)
    (hbal : tr.Balanced) (hrk : tr.RootKeyed) :
    ∃ tr' log, tr.removeLog k = some (tr', log) ∧ tr.remove k = some tr' ∧
      ∀ before idx after, RemoveEvent.merged before idx after ∈ log →
        merge before idx = some after ∧
        after.keys.length + 1 = before.keys.length ∧
        after.children.length + 1 = before.children.length ∧
        ∃ m, after.children[idx]? = some m ∧ m.keys.length = 2 * tr.t - 1 := by
  cases hroot : tr.root with
  | none =>
    refine ⟨tr, [], by simp [removeLog, hroot], by simp [remove, hroot], ?_⟩
    intro b i a hmem; simp at hmem
  | some r =>
    obtain ⟨tr', log, h1, h2, h3, -⟩ := removeLog_spec tr ht k hinv hbal hrk r hroot
    refine ⟨tr', _, h1, h2, ?_⟩
    intro b i a hmem
    rcases List.mem_cons.1 hmem with hm | hm
    · exact absurd hm (by simp)
    · exact (h3 _ hm).2

/-- An instance of the amended C17: remove the root key 2 from `smallTree`. -/
theorem merge_policy_witness :
    2 ≤ smallTree.t ∧ smallTree.NodeInv ∧ smallTree.Balanced ∧ smallTree.RootKeyed ∧
    ∃ tr' log, smallTree.removeLog 2 = some (tr', log) ∧ smallTree.remove 2 = some tr' ∧
      ∀ before idx after, RemoveEvent.merged before idx after ∈ log →
        merge before idx = some after ∧
        after.keys.length + 1 = before.keys.length ∧
        after.children.length + 1 = before.children.length ∧
        ∃ m, after.children[idx]? = some m ∧ m.keys.length = 2 * smallTree.t - 1 :=
  ⟨by decide, nodeInv_of 2 _ (by decide!) (by decide!), balanced_of 2 _ (by decide!),
    rootKeyed_of 2 _ (by decide!),
    merge_policy smallTree (by decide) 2 (nodeInv_of 2 _ (by decide!) (by decide!))
      (balanced_of 2 _ (by decide!)) (rootKeyed_of 2 _ (by decide!))⟩

/-- C18. Recursion depth is bounded by tree height: for every degree `t ≥ 2`, every valid tree
of height `h` (levels) and every key `k`, `search k`, `insert k` and `remove k` each return a
result when the nesting of `searchNode`, `insertNonFull` and `removeFromNode` is cut off at
depth `h` (the recursion bound the three operations pass on is the height of the tree, and a
run that needs a deeper call has no result); the record of `remove k` holds at most `h` calls
of `removeFromNode`, one per level, which is within `h + 1`. -/
theorem recursion_depth (tr : BTree) (ht : 2 ≤ tr.t) (k : Int) (hinv : tr.NodeInv)
    (hbal : tr.Balanced) (hrk : tr.RootKeyed) :
    (∃ b, searchNode tr.height tr.root k = some b ∧ tr.search k = some b) ∧
    (∃ tr', tr.insert k = some tr') ∧
    (∃ tr' log, tr.removeLog k = some (tr', log) ∧ tr.remove k = some tr' ∧
      callCount log ≤ tr.height) := by
  refine ⟨⟨_, search_spec tr k hinv, search_spec tr k hinv⟩, ?_, ?_⟩
  · obtain ⟨r', h1, -⟩ := insert_spec tr ht k hinv.1
    exact ⟨_, h1⟩
  · cases hroot : tr.root with
    | none =>
      exact ⟨tr, [], by simp [removeLog, hroot], by simp [remove, hroot], by simp [callCount]⟩
    | some r =>
      obtain ⟨tr', log, h1, h2, -, h4⟩ := removeLog_spec tr ht k hinv hbal hrk r hroot
      exact ⟨tr', _, h1, h2, by simpa [callCount] using h4⟩

/-- An instance of C18 on the scenario-B tree with the key 6. -/
theorem recursion_depth_witness :
    2 ≤ scenarioB.t ∧ scenarioB.NodeInv ∧ scenarioB.Balanced ∧ scenarioB.RootKeyed ∧
    (∃ b, searchNode scenarioB.height scenarioB.root 6 = some b ∧
      scenarioB.search 6 = some b) ∧
    (∃ tr', scenarioB.insert 6 = some tr') ∧
    (∃ tr' log, scenarioB.removeLog 6 = some (tr', log) ∧ scenarioB.remove 6 = some tr' ∧
      callCount log ≤ scenarioB.height) :=
  ⟨by decide, nodeInv_of 3 _ (by decide!) (by decide!), balanced_of 3 _ (by decide!),
    rootKeyed_of 3 _ (by decide!),
    recursion_depth scenarioB (by decide) 6 (nodeInv_of 3 _ (by decide!) (by decide!))
      (balanced_of 3 _ (by decide!)) (rootKeyed_of 3 _ (by decide!))⟩

/-- C19. Index safety: for every degree `t ≥ 2`, every tree that satisfies the B-tree
invariants (node invariants, all leaves at one depth, an internal root holds a key) and every
key `k`, `insert k` and `remove k` have a defined result: every vector read, write, insert
and erase they perform, in `splitChild`, `insertNonFull`, `getPredecessor`, `getSuccessor`,
`borrowFromPrev`, `borrowFromNext`, `merge`, `fill`, `removeFromLeaf`, `removeFromNonLeaf`
and `removeFromNode`, is inside the bounds of its vector (an access outside them leaves the
operation without a result). -/
theorem index_safety (tr : BTree) (ht : 2 ≤ tr.t) (k : Int) (hinv : tr.NodeInv)
    (hbal : tr.Balanced) (hrk : tr.RootKeyed) :
    (∃ tr', tr.insert k = some tr') ∧ (∃ tr', tr.remove k = some tr') := by
  obtain ⟨r', h1, -⟩ := insert_spec tr ht k hinv.1
  obtain ⟨tr', h2, -⟩ := remove_spec tr ht k hinv hbal hrk
  exact ⟨⟨_, h1⟩, ⟨_, h2⟩⟩

/-- An instance of C19 on `smallTree` with the key 3. -/
theorem index_safety_witness :
    2 ≤ smallTree.t ∧ smallTree.NodeInv ∧ smallTree.Balanced ∧ smallTree.RootKeyed ∧
    (∃ tr', smallTree.insert 3 = some tr') ∧ (∃ tr', smallTree.remove 3 = some tr') :=
  ⟨by decide, nodeInv_of 2 _ (by decide!) (by decide!), balanced_of 2 _ (by decide!),
    rootKeyed_of 2 _ (by decide!),
    index_safety smallTree (by decide) 3 (nodeInv_of 2 _ (by decide!) (by decide!))
      (balanced_of 2 _ (by decide!)) (rootKeyed_of 2 _ (by decide!))⟩

/-- C20 as stated fails. The first `insert` of every sequence is on the empty tree: it creates
a leaf root, so the height goes from 0 to 1 although there is no full root (no root at all)
above which a new root could be created. -/
theorem insert_height_counterexample :
    Reachable 2 (BTree.empty 2) ∧ (5 : Int) ∉ (BTree.empty 2).inorder ∧
    (BTree.empty 2).root = none ∧ (BTree.empty 2).height = 0 ∧
    (BTree.empty 2).insert 5 = some ⟨2, some ⟨[5], [], true⟩⟩ ∧
    (⟨2, some ⟨[5], [], true⟩⟩ : BTree).height = 1 ∧
    ¬ ∃ r, (BTree.empty 2).root = some r ∧ r.keys.length = 2 * 2 - 1 :=
  ⟨Reachable.empty, by decide!, rfl, by decide!, by decide!, by decide!, by
    rintro ⟨r, hr, -⟩
    exact absurd hr (by simp [BTree.empty])⟩

/-- C20, amended. Balance: for every degree `t ≥ 2` and every tree reached from the empty tree
by inserts of absent keys and removes, all leaves are at the same depth, and so they are after
one more `insert` of an absent key or `remove`. `insert` changes the height only by creating
the first root in an empty tree (0 to 1) or by creating a new root above a full root (+1);
`remove` changes it only by root collapse (-1), that is when `removeFromNode` leaves the root
without a key and the root is replaced by its only child, or by null if it was a leaf. -/
theorem balance_and_height (t : Nat) (ht : 2 ≤ t) (tr : BTree) (h : Reachable t tr) :
    tr.Balanced ∧
    (∀ k, k ∉ tr.inorder → ∃ tr', tr.insert k = some tr' ∧ tr'.Balanced ∧
      (tr.root = none → tr'.height = 1) ∧
      (∀ r, tr.root = some r → r.keys.length = 2 * t - 1 → tr'.height = tr.height + 1) ∧
      (∀ r, tr.root = some r → r.keys.length ≠ 2 * t - 1 → tr'.height = tr.height)) ∧
    (∀ k, ∃ tr', tr.remove k = some tr' ∧ tr'.Balanced ∧
      (tr.root = none → tr' = tr) ∧
      (∀ r, tr.root = some r → ∃ r', removeFromNode t r.height r k = some r' ∧
        (r'.keys ≠ [] → tr' = ⟨t, some r'⟩ ∧ tr'.height = tr.height) ∧
        (r'.keys = [] → tr'.root = r'.children[0]? ∧ tr'.height + 1 = tr.height))) := by
  obtain ⟨ht', hinv, hbal, hkey⟩ := reachable_inv t ht tr h
  subst ht'
  refine ⟨hbal, ?_, ?_⟩
  · intro k hk
    obtain ⟨tr', h1, h2⟩ := insert_height tr ht k hinv.1 hbal
    exact ⟨tr', h1, (reachable_inv tr.t ht tr' (Reachable.insert h hk h1)).2.2.1, h2⟩
  · intro k
    obtain ⟨tr', h1, h2⟩ := remove_height tr ht k hinv hbal (rootKeyed_of_keys tr hkey)
    exact ⟨tr', h1, (reachable_inv tr.t ht tr' (Reachable.remove h h1)).2.2.1, h2⟩

/-- An instance of the amended C20 on `smallTree`. -/
theorem balance_and_height_witness :
    2 ≤ 2 ∧ Reachable 2 smallTree ∧
    smallTree.Balanced ∧
    (∀ k, k ∉ smallTree.inorder → ∃ tr', smallTree.insert k = some tr' ∧ tr'.Balanced ∧
      (smallTree.root = none → tr'.height = 1) ∧
      (∀ r, smallTree.root = some r → r.keys.length = 2 * 2 - 1 →
        tr'.height = smallTree.height + 1) ∧
      (∀ r, smallTree.root = some r → r.keys.length ≠ 2 * 2 - 1 →
        tr'.height = smallTree.height)) ∧
    (∀ k, ∃ tr', smallTree.remove k = some tr' ∧ tr'.Balanced ∧
      (smallTree.root = none → tr' = smallTree) ∧
      (∀ r, smallTree.root = some r → ∃ r', removeFromNode 2 r.height r k = some r' ∧
        (r'.keys ≠ [] → tr' = ⟨2, some r'⟩ ∧ tr'.height = smallTree.height) ∧
        (r'.keys = [] → tr'.root = r'.children[0]? ∧ tr'.height + 1 = smallTree.height))) :=
  ⟨by decide, reachable_smallTree,
    balance_and_height 2 (by decide) smallTree reachable_smallTree⟩

end BTree
